import Mathlib

/-!
# aniki: hand-history parser, site registry and file watcher

A shallow embedding of `internal/hand_history/pokerstars.go`,
`internal/hand_history/parser.go`, `internal/watcher/watcher.go` and of the parts of
`internal/config/config.go`, `internal/repository` and `app.go` that the watcher relies on.

* Go strings are modelled as lists of characters (`Str`); byte lengths are UTF-8 lengths.
* Go's `regexp` (leftmost-first semantics: the match a backtracking search finds first) is
  modelled by a small backtracking matcher `Re.run` that lists the possible matches in
  priority order; each pattern of `NewPokerStarsParser` is transcribed as a value of `Re`.
* `float64` is modelled exactly (`F64`): finite values are dyadic numbers `± m * 2^e` in
  lowest terms, arithmetic and `strconv.ParseFloat` round to nearest-even with 53 bits.
* `bufio.Scanner` with `ScanLines` is modelled by `scanLines`, including its 64 KiB
  token limit.
* The repositories and the `fsnotify` watcher are parameters: functions on a state that
  answer the new state and the returned error. The watcher is a state with explicit
  steps: the pending timers and the timer functions under way are part of it, the send
  and the delete of a timer function are separate steps, and the dispatch queue has its
  capacity. A step that panics in Go has no result.
-/

namespace Aniki

set_option linter.dupNamespace false

/-- Go `string`, as the list of its characters. -/
abbrev Str := List Char

/-! ## Library functions of package `strings` and `unicode` -/

/-- Go `strings.Contains(s, sub)`. -/
def contains : Str → Str → Bool
  | [], sub => sub.isEmpty
  | c :: cs, sub => sub.isPrefixOf (c :: cs) || contains cs sub

/-- Go `unicode.IsSpace`. -/
def isSpace (c : Char) : Bool :=
  let n := c.toNat
  (9 ≤ n && n ≤ 13) || n = 32 || n = 0x85 || n = 0xA0 || n = 0x1680 ||
  (0x2000 ≤ n && n ≤ 0x200A) || n = 0x2028 || n = 0x2029 || n = 0x202F ||
  n = 0x205F || n = 0x3000

/-- Go `strings.TrimSpace`. -/
def trimSpace (s : Str) : Str :=
  ((s.dropWhile isSpace).reverse.dropWhile isSpace).reverse

/-- Worker of `fields`: `cur` is the field being read. -/
def fieldsAux : Str → Str → List Str
  | [], cur => if cur.isEmpty then [] else [cur]
  | c :: cs, cur =>
    if isSpace c then
      (if cur.isEmpty then fieldsAux cs [] else cur :: fieldsAux cs [])
    else fieldsAux cs (cur ++ [c])

/-- Go `strings.Fields`: the maximal runs of non-space characters. -/
def fields (s : Str) : List Str := fieldsAux s []

/-! ## Regular expressions (Go `regexp`, leftmost-first) -/

/-- Regular expression syntax, as far as the patterns of the parser use it. -/
inductive Re where
  | eps : Re
  | cls (p : Char → Bool) : Re
  | bol : Re
  | seq (a b : Re) : Re
  | alt (a b : Re) : Re
  | star (a : Re) : Re
  | lazyStar (a : Re) : Re
  | grp (i : Nat) (a : Re) : Re

/-- Matcher state: characters consumed so far, remaining text, capture groups. -/
structure MState where
  pos : Nat
  rest : Str
  caps : List Str

/-- Greedy iteration of `step` (at most `fuel` times, each making progress): longer first. -/
def starGreedy (step : MState → List MState) : Nat → MState → List MState
  | 0, s => [s]
  | fuel + 1, s =>
    (((step s).filter (fun t => t.rest.length < s.rest.length)).flatMap
      (starGreedy step fuel)) ++ [s]

/-- Lazy iteration of `step`: shorter first. -/
def starLazy (step : MState → List MState) : Nat → MState → List MState
  | 0, s => [s]
  | fuel + 1, s =>
    s :: (((step s).filter (fun t => t.rest.length < s.rest.length)).flatMap
      (starLazy step fuel))

/-- All matches of `r` that start in state `s`, in the order a backtracking search
tries them. -/
def Re.run : Re → MState → List MState
  | .eps, s => [s]
  | .cls p, s =>
    match s.rest with
    | [] => []
    | c :: cs => if p c then [{ s with pos := s.pos + 1, rest := cs }] else []
  | .bol, s => if s.pos = 0 then [s] else []
  | .seq a b, s => (Re.run a s).flatMap (fun t => Re.run b t)
  | .alt a b, s => Re.run a s ++ Re.run b s
  | .star a, s => starGreedy (fun t => Re.run a t) s.rest.length s
  | .lazyStar a, s => starLazy (fun t => Re.run a t) s.rest.length s
  | .grp i a, s =>
    (Re.run a s).map (fun t =>
      { t with caps := t.caps.set i (s.rest.take (s.rest.length - t.rest.length)) })

/-- The leftmost match at or after the current position: its submatches (index 0 is the
whole match, an unmatched group is the empty string). -/
def Re.findFrom (r : Re) (ngroups : Nat) : Nat → Str → Option (List Str)
  | pos, [] =>
    match Re.run r { pos := pos, rest := [], caps := List.replicate (ngroups + 1) [] } with
    | t :: _ => some (t.caps.set 0 [])
    | [] => none
  | pos, c :: cs =>
    match Re.run r { pos := pos, rest := c :: cs,
                     caps := List.replicate (ngroups + 1) [] } with
    | t :: _ => some (t.caps.set 0 ((c :: cs).take ((c :: cs).length - t.rest.length)))
    | [] => Re.findFrom r ngroups (pos + 1) cs

/-- A compiled pattern: its syntax and its number of capture groups. -/
structure Regexp where
  re : Re
  ngroups : Nat

/-- Go `(*Regexp).FindStringSubmatch`; `none` is Go's `nil`. -/
def Regexp.FindStringSubmatch (r : Regexp) (s : Str) : Option (List Str) :=
  Re.findFrom r.re r.ngroups 0 s

namespace Re

/-- Literal character. -/
def chr (c : Char) : Re := .cls (fun x => x == c)

/-- Literal string. -/
def lit : Str → Re
  | [] => .eps
  | c :: cs => .seq (chr c) (lit cs)

/-- One or more, greedy: `a+`. -/
def plus (a : Re) : Re := .seq a (.star a)

/-- One or more, lazy: `a+?`. -/
def lazyPlus (a : Re) : Re := .seq a (.lazyStar a)

/-- Zero or one, greedy: `a?`. -/
def opt (a : Re) : Re := .alt a .eps

/-- Concatenation of a list of expressions. -/
def cat : List Re → Re
  | [] => .eps
  | [a] => a
  | a :: as => .seq a (cat as)

/-- Class `\d`. -/
def isDigit (c : Char) : Bool := '0'.toNat ≤ c.toNat && c.toNat ≤ '9'.toNat

/-- Class `\s` of Go regexp: tab, line feed, form feed, carriage return, space. -/
def isReSpace (c : Char) : Bool :=
  c == '\t' || c == '\n' || c == Char.ofNat 12 || c == '\r' || c == ' '

/-- Pattern `\d`. -/
def digit : Re := .cls isDigit

/-- Pattern `\s`. -/
def space : Re := .cls isReSpace

/-- Pattern `[^c]`. -/
def notChr (c : Char) : Re := .cls (fun x => x != c)

/-- Pattern `\d+(?:\.\d+)?`. -/
def decimal : Re := .seq (plus digit) (opt (.seq (chr '.') (plus digit)))

/-- Pattern `.`: any character but a line feed. -/
def dot : Re := .cls (fun x => x != '\n')

/-- Class `[\d.]`. -/
def isDigitOrDot (c : Char) : Bool := isDigit c || c == '.'

end Re

/-! ## The patterns compiled by `NewPokerStarsParser` -/

open Re in
/-- Pattern `PokerStars Hand #(\d+):`. -/
def handStart : Regexp :=
  { re := cat [lit "PokerStars Hand #".toList, .grp 1 (plus digit), chr ':'], ngroups := 1 }

open Re in
/-- Pattern `:\s+(.+?)\s+-\s+Level`. -/
def gameInfo : Regexp :=
  { re := cat [chr ':', plus space, .grp 1 (lazyPlus dot), plus space, chr '-', plus space,
               lit "Level".toList],
    ngroups := 1 }

open Re in
/-- Pattern `Table '([^']+)'\s+(\d+)-max`. -/
def tableInfo : Regexp :=
  { re := cat [lit "Table ".toList, chr (Char.ofNat 39), .grp 1 (plus (notChr (Char.ofNat 39))),
               chr (Char.ofNat 39), plus space, .grp 2 (plus digit), lit "-max".toList],
    ngroups := 2 }

open Re in
/-- Pattern `Seat (\d+): ([^\(]+) \((\d+(?:\.\d+)?)\s+in chips\)`. -/
def playerInfo : Regexp :=
  { re := cat [lit "Seat ".toList, .grp 1 (plus digit), lit ": ".toList,
               .grp 2 (plus (notChr '(')), lit " (".toList, .grp 3 decimal, plus space,
               lit "in chips)".toList],
    ngroups := 3 }

open Re in
/-- The verb alternation of the action pattern. -/
def actionVerbs : Re :=
  .alt (lit "folds".toList) (.alt (lit "checks".toList) (.alt (lit "calls".toList)
    (.alt (lit "bets".toList) (.alt (lit "raises".toList)
      (.alt (lit "posts small blind".toList) (.alt (lit "posts big blind".toList)
        (lit "posts the ante".toList)))))))

open Re in
/-- Pattern `^([^:]+):\s+(folds|checks|calls|bets|raises|posts small blind|posts big
blind|posts the ante)\s*(\d+(?:\.\d+)?)?\s*(?:to\s+(\d+(?:\.\d+)?))?`. -/
def actionLine : Regexp :=
  { re := cat [.bol, .grp 1 (plus (notChr ':')), chr ':', plus space, .grp 2 actionVerbs,
               .star space, opt (.grp 3 decimal), .star space,
               opt (cat [lit "to".toList, plus space, .grp 4 decimal])],
    ngroups := 4 }

open Re in
/-- Pattern `Dealt to ([^\[]+)\s+\[([^\]]+)\]`. -/
def holeCards : Regexp :=
  { re := cat [lit "Dealt to ".toList, .grp 1 (plus (notChr '[')), plus space, chr '[',
               .grp 2 (plus (notChr ']')), chr ']'],
    ngroups := 2 }

open Re in
/-- Pattern `\*\*\* (FLOP|TURN|RIVER) \*\*\*\s+\[([^\]]+)\]`. -/
def boardLine : Regexp :=
  { re := cat [lit "*** ".toList,
               .grp 1 (.alt (lit "FLOP".toList) (.alt (lit "TURN".toList) (lit "RIVER".toList))),
               lit " ***".toList, plus space, chr '[', .grp 2 (plus (notChr ']')), chr ']'],
    ngroups := 2 }

open Re in
/-- Pattern `Total pot (\d+(?:\.\d+)?)\s*(?:\|\s*Rake\s+(\d+(?:\.\d+)?))?`. -/
def potLine : Regexp :=
  { re := cat [lit "Total pot ".toList, .grp 1 decimal, .star space,
               opt (cat [chr '|', .star space, lit "Rake".toList, plus space, .grp 2 decimal])],
    ngroups := 2 }

open Re in
/-- Pattern `(\d{4}/\d{2}/\d{2}) (\d{1,2}:\d{2}:\d{2})`. -/
def dateTime : Regexp :=
  { re := cat [.grp 1 (cat [digit, digit, digit, digit, chr '/', digit, digit, chr '/',
                            digit, digit]),
               chr ' ',
               .grp 2 (cat [digit, opt digit, chr ':', digit, digit, chr ':', digit, digit])],
    ngroups := 2 }

open Re in
/-- Pattern `\$?([\d.]+)/\$?([\d.]+)` (compiled inside `ParseContent`). -/
def stakesRegex : Regexp :=
  { re := cat [opt (chr '$'), .grp 1 (plus (.cls isDigitOrDot)), chr '/', opt (chr '$'),
               .grp 2 (plus (.cls isDigitOrDot))],
    ngroups := 2 }

open Re in
/-- Pattern `collected (\d+(?:\.\d+)?)` (compiled inside `ParseContent`). -/
def collectRegex : Regexp :=
  { re := cat [lit "collected ".toList, .grp 1 decimal], ngroups := 1 }

/-! ## `float64` -/

/-- An IEEE 754 binary64 value. A finite value is `± m * 2^e` with `m` odd, or zero
(`m = 0`, `e = 0`, no sign: the program never produces a negative zero). -/
inductive F64 where
  | fin (neg : Bool) (m : Nat) (e : Int) : F64
  | inf (neg : Bool) : F64
  | nan : F64
  deriving DecidableEq, Repr

namespace F64

/-- Worker of `bitLen`. -/
def bitLenAux : Nat → Nat → Nat
  | 0, _ => 0
  | fuel + 1, n => if n = 0 then 0 else 1 + bitLenAux fuel (n / 2)

/-- Number of binary digits of `n` (0 for 0). -/
def bitLen (n : Nat) : Nat := bitLenAux n n

/-- Worker of `mkFin`: removes the factors 2 of the mantissa. -/
def stripTwos : Nat → Nat → Int → Nat × Int
  | 0, m, e => (m, e)
  | fuel + 1, m, e => if m % 2 = 0 ∧ m ≠ 0 then stripTwos fuel (m / 2) (e + 1) else (m, e)

/-- The finite value `± m * 2^e`, in lowest terms. -/
def mkFin (neg : Bool) (m : Nat) (e : Int) : F64 :=
  if m = 0 then .fin false 0 0 else .fin neg (stripTwos m m e).1 (stripTwos m m e).2

/-- The value zero. -/
def zero : F64 := .fin false 0 0

/-- The float of a natural number below `2^53`. -/
def ofNat (n : Nat) : F64 := mkFin false n 0

/-- The nearest integer to `n / d`, ties to even. -/
def roundHalfEven (n d : Nat) : Nat :=
  let q := n / d
  let r := n % d
  if 2 * r < d then q else if d < 2 * r then q + 1 else if q % 2 = 0 then q else q + 1

/-- Exponent `⌊log2 (n / d)⌋` of a positive fraction. -/
def floorLog2 (n d : Nat) : Int :=
  let a := bitLen n
  let b := bitLen d
  if b ≤ a then
    (if d * 2 ^ (a - b) ≤ n then ((a - b : Nat) : Int) else ((a - b : Nat) : Int) - 1)
  else
    (if d ≤ n * 2 ^ (b - a) then - ((b - a : Nat) : Int) else - ((b - a : Nat) : Int) - 1)

/-- The binary64 nearest to `± n / d` (`d > 0`), ties to even: 53 significant bits, least
exponent -1074 (subnormals), and infinity when the rounded value reaches `2^1024`. -/
def roundRat (neg : Bool) (n d : Nat) : F64 :=
  if n = 0 then zero
  else
    let e : Int := max (floorLog2 n d) (-1022) - 52
    let m : Nat := if 0 ≤ e then roundHalfEven n (d * 2 ^ e.toNat)
                   else roundHalfEven (n * 2 ^ (-e).toNat) d
    if 1025 ≤ (bitLen m : Int) + e then .inf neg else mkFin neg m e

/-- The binary64 nearest to the integer multiple `v * 2^e`. -/
def roundDyadic (v : Int) (e : Int) : F64 :=
  if 0 ≤ e then roundRat (decide (v < 0)) (v.natAbs * 2 ^ e.toNat) 1
  else roundRat (decide (v < 0)) v.natAbs (2 ^ (-e).toNat)

/-- Go `a + b` on `float64`. -/
def add : F64 → F64 → F64
  | .nan, _ => .nan
  | _, .nan => .nan
  | .inf a, .inf b => if a = b then .inf a else .nan
  | .inf a, .fin _ _ _ => .inf a
  | .fin _ _ _, .inf b => .inf b
  | .fin n1 m1 e1, .fin n2 m2 e2 =>
    let e := min e1 e2
    let v1 : Int := (if n1 then -1 else 1) * ((m1 * 2 ^ (e1 - e).toNat : Nat) : Int)
    let v2 : Int := (if n2 then -1 else 1) * ((m2 * 2 ^ (e2 - e).toNat : Nat) : Int)
    roundDyadic (v1 + v2) e

/-- Go unary `-` on `float64` (zero keeps its single representation). -/
def negate : F64 → F64
  | .nan => .nan
  | .inf a => .inf (!a)
  | .fin n m e => if m = 0 then .fin false 0 0 else .fin (!n) m e

/-- Go `a - b` on `float64`. -/
def sub (a b : F64) : F64 := add a (negate b)

/-- Go `a > 0` on `float64`. -/
def gtZero : F64 → Bool
  | .nan => false
  | .inf a => !a
  | .fin n m _ => !n && m != 0

end F64

/-! ## Package `strconv` -/

/-- Errors of package `strconv`. -/
inductive NumError where
  | ErrSyntax : NumError
  | ErrRange : NumError
  deriving DecidableEq, Repr

/-- The number written by a string of decimal digits. -/
def digitsToNat (s : Str) : Nat :=
  s.foldl (fun acc c => 10 * acc + (c.toNat - '0'.toNat)) 0

/-- Go `strconv.ParseFloat(s, 64)` on the unsigned decimal literals `\d+` and `\d+\.\d+`,
the only strings the parser passes to it (they are captures of `\d+(?:\.\d+)?`): the
nearest binary64, or `+Inf` with `ErrRange` when that is out of range. Every other string is
answered `0, ErrSyntax`; Go's further syntaxes (sign, exponent, hexadecimal, `inf`, `nan`,
underscores) are not modelled. -/
def ParseFloat (s : Str) : F64 × Option NumError :=
  let ip := s.takeWhile Re.isDigit
  let rest := s.dropWhile Re.isDigit
  if ip.isEmpty then (F64.zero, some .ErrSyntax)
  else
    match rest with
    | [] =>
      let v := F64.roundRat false (digitsToNat ip) 1
      if v = .inf false then (v, some .ErrRange) else (v, none)
    | c :: fs =>
      if c = '.' ∧ ¬ fs.isEmpty ∧ fs.all Re.isDigit then
        let v := F64.roundRat false (digitsToNat (ip ++ fs)) (10 ^ fs.length)
        if v = .inf false then (v, some .ErrRange) else (v, none)
      else (F64.zero, some .ErrSyntax)

/-- Go `strconv.Atoi(s)` (64-bit `int`) on strings of decimal digits, the only strings the
parser passes to it: the number, or the largest `int` with `ErrRange`. -/
def Atoi (s : Str) : Int × Option NumError :=
  if s.isEmpty ∨ ¬ s.all Re.isDigit then (0, some .ErrSyntax)
  else if digitsToNat s < 2 ^ 63 then ((digitsToNat s : Nat), none)
  else (2 ^ 63 - 1, some .ErrRange)

/-! ## Package `time` -/

/-- Go `time.Time`, as far as `time.Parse` with a layout without zone fills it (UTC). The
zero value is 1 January of year 1, 00:00:00. -/
structure Time where
  year : Nat
  month : Nat
  day : Nat
  hour : Nat
  min : Nat
  sec : Nat
  deriving DecidableEq, Repr

/-- The zero `time.Time`. -/
def Time.zero : Time := { year := 1, month := 1, day := 1, hour := 0, min := 0, sec := 0 }

/-- Days of a month (`time.daysIn`). -/
def daysIn (month year : Nat) : Nat :=
  if month = 2 then
    (if year % 4 = 0 ∧ (year % 100 ≠ 0 ∨ year % 400 = 0) then 29 else 28)
  else if month = 4 ∨ month = 6 ∨ month = 9 ∨ month = 11 then 30 else 31

/-- Reads exactly `n` decimal digits. -/
def takeDigits : Nat → Str → Option (Str × Str)
  | 0, s => some ([], s)
  | _ + 1, [] => none
  | n + 1, c :: cs =>
    if Re.isDigit c then (takeDigits n cs).map (fun p => (c :: p.1, p.2)) else none

/-- Reads one expected character. -/
def skipChar (c : Char) : Str → Option Str
  | [] => none
  | d :: ds => if d = c then some ds else none

/-- The function `getnum(value, false)` of package `time`: one or two digits. -/
def getnum : Str → Option (Nat × Str)
  | [] => none
  | c :: cs =>
    if Re.isDigit c then
      match cs with
      | d :: ds =>
        if Re.isDigit d then some (digitsToNat [c, d], ds) else some (digitsToNat [c], d :: ds)
      | [] => some (digitsToNat [c], [])
    else none

/-- Range checks of `time.Parse` on the fields read, and the resulting time. -/
def mkTime (year month day hour min sec : Nat) : Option Time :=
  if 1 ≤ month ∧ month ≤ 12 ∧ hour < 24 ∧ min < 60 ∧ sec < 60 ∧ 1 ≤ day ∧
      day ≤ daysIn month year then
    some { year := year, month := month, day := day, hour := hour, min := min, sec := sec }
  else none

/-- The clock part `15:04:05` of the layout, up to the end of the value. -/
def timeParseClock (year month day : Nat) (v : Str) : Option Time :=
  (getnum v).bind fun h =>
  (skipChar ':' h.2).bind fun v1 =>
  (takeDigits 2 v1).bind fun mi =>
  (skipChar ':' mi.2).bind fun v2 =>
  (takeDigits 2 v2).bind fun sec =>
  if sec.2.isEmpty then mkTime year month day h.1 (digitsToNat mi.1) (digitsToNat sec.1)
  else none

/-- Go `time.Parse("2006/01/02 15:04:05", value)` on values of the shape the date pattern
captures; `none` is a parse error. -/
def timeParse (value : Str) : Option Time :=
  (takeDigits 4 value).bind fun y =>
  (skipChar '/' y.2).bind fun v1 =>
  (takeDigits 2 v1).bind fun mo =>
  (skipChar '/' mo.2).bind fun v2 =>
  (takeDigits 2 v2).bind fun d =>
  (skipChar ' ' d.2).bind fun v3 =>
  timeParseClock (digitsToNat y.1) (digitsToNat mo.1) (digitsToNat d.1) v3

/-! ## Data model (`parser.go`) -/

/-- A player action in a hand. -/
structure Action where
  PlayerName : Str
  Action : Str
  Amount : F64
  Street : Str
  Sequence : Int
  deriving DecidableEq, Repr

/-- A player at the table. -/
structure Player where
  Name : Str
  Seat : Int
  Stack : F64
  Position : Str
  deriving DecidableEq, Repr

/-- A parsed poker hand. -/
structure Hand where
  HandID : Str
  SiteID : Int
  GameType : Str
  Stakes : Str
  TableName : Str
  DateTime : Time
  HeroName : Str
  Position : Str
  HoleCards : List Str
  Board : List Str
  Actions : List Action
  Players : List Player
  Result : F64
  Rake : F64
  TotalPot : F64
  RawText : Str
  deriving DecidableEq, Repr

/-- Errors the parser functions return. -/
inductive Error where
  | ErrTooLong : Error
  | readFile (path : Str) : Error
  deriving DecidableEq, Repr

/-! ## `bufio.Scanner` with the default split function `ScanLines` -/

/-- Length of a string in bytes (UTF-8). -/
def utf8Len (s : Str) : Nat := (s.map Char.utf8Size).sum

/-- The constant `bufio.MaxScanTokenSize`. -/
def maxScanTokenSize : Nat := 64 * 1024

/-- The function `dropCR` of package `bufio`: drops one trailing carriage return. -/
def dropCR (s : Str) : Str := if s.getLast? = some '\r' then s.dropLast else s

/-- Worker of `rawLines`: `cur` is the line being read. -/
def rawLinesAux : Str → Str → List Str
  | [], cur => if cur.isEmpty then [] else [cur]
  | c :: cs, cur => if c = '\n' then cur :: rawLinesAux cs [] else rawLinesAux cs (cur ++ [c])

/-- The lines of a text, split at line feeds; a final line without line feed counts when it
is not empty. -/
def rawLines (content : Str) : List Str := rawLinesAux content []

/-- Delivery of the lines by `Scanner.Scan`: a line of `MaxScanTokenSize` bytes or more
fills the buffer without a line feed in sight, and the scanner stops with `ErrTooLong`. -/
def deliver : List Str → List Str × Option Error
  | [] => ([], none)
  | l :: ls =>
    if maxScanTokenSize ≤ utf8Len l then ([], some .ErrTooLong)
    else ((dropCR l) :: (deliver ls).1, (deliver ls).2)

/-- The tokens `scanner.Text()` returns while `scanner.Scan()` is true, and `scanner.Err()`
after the loop, for `bufio.NewScanner(strings.NewReader(content))`. -/
def scanLines (content : Str) : List Str × Option Error := deliver (rawLines content)

/-! ## `PokerStarsParser` (`pokerstars.go`) -/

/-- Go `GetSiteName`. -/
def PokerStarsParser.GetSiteName : Str := "pokerstars".toList

/-- Go `CanParse`. -/
def PokerStarsParser.CanParse (content : Str) : Bool :=
  contains content "PokerStars Hand #".toList

/-- The local variables of `ParseContent`. `actionSequence` is a Go `int`; it counts the
actions of one hand and cannot reach `2^63`. -/
structure PState where
  hands : List Hand
  currentHand : Option Hand
  currentStreet : Str
  actionSequence : Int
  rawHandText : Str
  deriving DecidableEq, Repr

/-- The variables before the first line. -/
def PState.init : PState :=
  { hands := [], currentHand := none, currentStreet := [], actionSequence := 0,
    rawHandText := [] }

/-- The hand `&Hand{HandID: id, Actions: []Action{}, Players: []Player{}}`. -/
def Hand.new (id : Str) : Hand :=
  { HandID := id, SiteID := 0, GameType := [], Stakes := [], TableName := [],
    DateTime := Time.zero, HeroName := [], Position := [], HoleCards := [], Board := [],
    Actions := [], Players := [], Result := F64.zero, Rake := F64.zero,
    TotalPot := F64.zero, RawText := [] }

/-- Lines 92-95: game type from the hand-start line. -/
def setGameType (line : Str) (h : Hand) : Hand :=
  match gameInfo.FindStringSubmatch line with
  | some gameMatches => { h with GameType := trimSpace (gameMatches.getD 1 []) }
  | none => h

/-- Lines 97-104: date and time from the hand-start line. -/
def setDateTime (line : Str) (h : Hand) : Hand :=
  match dateTime.FindStringSubmatch line with
  | some dateMatches =>
    match timeParse (dateMatches.getD 1 [] ++ " ".toList ++ dateMatches.getD 2 []) with
    | some parsedTime => { h with DateTime := parsedTime }
    | none => h
  | none => h

/-- Lines 106-112: stakes from the hand-start line. -/
def setStakes (line : Str) (h : Hand) : Hand :=
  if contains line "$".toList then
    match stakesRegex.FindStringSubmatch line with
    | some stakesMatches => { h with Stakes := stakesMatches.getD 0 [] }
    | none => h
  else h

/-- Lines 75-114: a line that matches the hand-start pattern (`ms` is the match). -/
def startHand (st : PState) (line : Str) (ms : List Str) : PState :=
  { hands := match st.currentHand with
      | some cur => st.hands ++ [{ cur with RawText := st.rawHandText }]
      | none => st.hands
    currentHand :=
      some (setStakes line (setDateTime line (setGameType line (Hand.new (ms.getD 1 [])))))
    currentStreet := "preflop".toList
    actionSequence := 0
    rawHandText := line ++ "\n".toList }

/-- Lines 123-126: table info. -/
def setTable (line : Str) (h : Hand) : Hand :=
  match tableInfo.FindStringSubmatch line with
  | some m => { h with TableName := m.getD 1 [] }
  | none => h

/-- Lines 128-138: player info. -/
def addPlayer (line : Str) (h : Hand) : Hand :=
  match playerInfo.FindStringSubmatch line with
  | some m =>
    { h with Players := h.Players ++
        [{ Name := trimSpace (m.getD 2 []), Seat := (Atoi (m.getD 1 [])).1,
           Stack := (ParseFloat (m.getD 3 [])).1, Position := [] }] }
  | none => h

/-- Lines 140-145: hole cards (identifies hero). -/
def setHoleCards (line : Str) (h : Hand) : Hand :=
  match holeCards.FindStringSubmatch line with
  | some m => { h with HeroName := trimSpace (m.getD 1 []), HoleCards := fields (m.getD 2 []) }
  | none => h

/-- Lines 147-156: the street after the street markers of the line. -/
def nextStreet (line : Str) (currentStreet : Str) : Str :=
  if contains line "*** FLOP ***".toList then "flop".toList
  else if contains line "*** TURN ***".toList then "turn".toList
  else if contains line "*** RIVER ***".toList then "river".toList
  else if contains line "*** SHOW DOWN ***".toList then "showdown".toList
  else currentStreet

/-- Lines 158-162: board cards. -/
def setBoard (line : Str) (h : Hand) : Hand :=
  match boardLine.FindStringSubmatch line with
  | some m => { h with Board := fields (m.getD 2 []) }
  | none => h

/-- Lines 168-176: the amount of an action line from its match. -/
def actionAmount (m : List Str) : F64 :=
  let amount := F64.zero
  let amount := if 3 < m.length ∧ m.getD 3 [] ≠ [] then (ParseFloat (m.getD 3 [])).1 else amount
  if 4 < m.length ∧ m.getD 4 [] ≠ [] then (ParseFloat (m.getD 4 [])).1 else amount

/-- Lines 164-187: actions; returns the hand and the sequence counter. -/
def addAction (line : Str) (currentStreet : Str) (actionSequence : Int) (h : Hand) :
    Hand × Int :=
  match actionLine.FindStringSubmatch line with
  | some m =>
    ({ h with Actions := h.Actions ++
        [{ PlayerName := trimSpace (m.getD 1 []), Action := m.getD 2 [],
           Amount := actionAmount m, Street := currentStreet, Sequence := actionSequence }] },
     actionSequence + 1)
  | none => (h, actionSequence)

/-- Lines 189-198: pot and rake. -/
def setPot (line : Str) (h : Hand) : Hand :=
  match potLine.FindStringSubmatch line with
  | some m =>
    let h1 := { h with TotalPot := (ParseFloat (m.getD 1 [])).1 }
    if 2 < m.length ∧ m.getD 2 [] ≠ [] then { h1 with Rake := (ParseFloat (m.getD 2 [])).1 }
    else h1
  | none => h

/-- Lines 200-209: amount collected by the hero. -/
def addCollected (line : Str) (h : Hand) : Hand :=
  if h.HeroName ≠ [] ∧ contains line h.HeroName then
    if contains line "collected".toList then
      match collectRegex.FindStringSubmatch line with
      | some collectMatches =>
        { h with Result := F64.add h.Result (ParseFloat (collectMatches.getD 1 [])).1 }
      | none => h
    else h
  else h

/-- Lines 121-209: a line inside the hand `cur`. -/
def inHand (st : PState) (cur : Hand) (line : Str) : PState :=
  let h := setHoleCards line (addPlayer line (setTable line cur))
  let street := nextStreet line st.currentStreet
  let ha := addAction line street st.actionSequence (setBoard line h)
  { hands := st.hands
    currentHand := some (addCollected line (setPot line ha.1))
    currentStreet := street
    actionSequence := ha.2
    rawHandText := st.rawHandText ++ (line ++ "\n".toList) }

/-- One iteration of the loop of `ParseContent` (lines 71-209). -/
def step (st : PState) (line : Str) : PState :=
  match handStart.FindStringSubmatch line with
  | some ms => startHand st line ms
  | none =>
    match st.currentHand with
    | none => st
    | some cur => inHand st cur line

/-- Lines 217-222: what the hero invested. -/
def invested (h : Hand) : F64 :=
  h.Actions.foldl
    (fun inv action =>
      if action.PlayerName = h.HeroName ∧ action.Amount.gtZero then F64.add inv action.Amount
      else inv)
    F64.zero

/-- Lines 212-226: the last hand. -/
def finish (st : PState) : List Hand :=
  match st.currentHand with
  | some cur =>
    st.hands ++ [{ cur with RawText := st.rawHandText,
                            Result := F64.sub cur.Result (invested cur) }]
  | none => st.hands

/-- Go `(*PokerStarsParser).ParseContent`: the hands (`[]` is Go's `nil` slice) and
`scanner.Err()`. -/
def PokerStarsParser.ParseContent (content : Str) : List Hand × Option Error :=
  (finish ((scanLines content).1.foldl step PState.init), (scanLines content).2)

/-- Go `(*PokerStarsParser).ParseFile`; `readFile` is `os.ReadFile` (`none`: the read
fails). -/
def PokerStarsParser.ParseFile (readFile : Str → Option Str) (path : Str) :
    List Hand × Option Error :=
  match readFile path with
  | none => ([], some (.readFile path))
  | some content => PokerStarsParser.ParseContent content

/-! ## `Manager` (`parser.go`) -/

/-- The interface `Parser` (`ParseFile` apart, which the manager does not call). -/
structure Parser where
  CanParse : Str → Bool
  ParseContent : Str → List Hand × Option Error
  GetSiteName : Str

/-- Go `NewPokerStarsParser()`, as a `Parser`. -/
def NewPokerStarsParser : Parser :=
  { CanParse := PokerStarsParser.CanParse
    ParseContent := PokerStarsParser.ParseContent
    GetSiteName := PokerStarsParser.GetSiteName }

/-- The manager: the map from site name to parser, as an association list. Go iterates a
map in no fixed order; the list order stands for one such order. -/
structure Manager where
  parsers : List (Str × Parser)

/-- Go `(*Manager).Register`: `m.parsers[parser.GetSiteName()] = parser`. -/
def Manager.Register (m : Manager) (parser : Parser) : Manager :=
  if m.parsers.any (fun p => p.1 = parser.GetSiteName) then
    { parsers := m.parsers.map
        (fun p => if p.1 = parser.GetSiteName then (p.1, parser) else p) }
  else { parsers := m.parsers ++ [(parser.GetSiteName, parser)] }

/-- Go `NewManager`. -/
def NewManager : Manager := Manager.Register { parsers := [] } NewPokerStarsParser

/-- The loop `for siteName, parser := range m.parsers` of `ParseContent` and `ParseFile`. -/
def tryParsers : List (Str × Parser) → Str → List Hand × Str × Option Error
  | [], _ => ([], [], none)
  | (siteName, parser) :: ps, content =>
    if parser.CanParse content then
      ((parser.ParseContent content).1, siteName, (parser.ParseContent content).2)
    else tryParsers ps content

/-- Go `(*Manager).ParseContent`. -/
def Manager.ParseContent (m : Manager) (content : Str) : List Hand × Str × Option Error :=
  tryParsers m.parsers content

/-- Go `readFileContent`: the body is `return "", nil` under the comment "Implementation
will use os.ReadFile"; the file system (`readFile`) is not consulted. -/
def readFileContent (_readFile : Str → Option Str) (_path : Str) : Str × Option Error :=
  ([], none)

/-- Go `(*Manager).ParseFile`. -/
def Manager.ParseFile (m : Manager) (readFile : Str → Option Str) (path : Str) :
    List Hand × Str × Option Error :=
  match (readFileContent readFile path).2 with
  | some err => ([], [], some err)
  | none => tryParsers m.parsers (readFileContent readFile path).1

/-! ## Specification-side notions -/

/-- The line matches the hand-start signature `PokerStars Hand #<digits>:`. -/
def isHandStart (line : Str) : Bool := (handStart.FindStringSubmatch line).isSome

/-- The digit string of a hand-start line (`none` for any other line). -/
def handStartID (line : Str) : Option Str :=
  (handStart.FindStringSubmatch line).map (fun ms => ms.getD 1 [])

/-- No line of the text reaches the token limit of the scanner. -/
def shortLines (content : Str) : Prop :=
  ∀ l ∈ rawLines content, utf8Len l < maxScanTokenSize

instance (content : Str) : Decidable (shortLines content) := by
  unfold shortLines; infer_instance

/-- The sequence numbers of the actions of a hand are 0, 1, 2, ... in list order. -/
def SeqOK (h : Hand) : Prop :=
  h.Actions.map (fun a => a.Sequence) = (List.range h.Actions.length).map Int.ofNat

/-! ## Further notions used by the statements -/

/-- Invariant of the loop for the sequence numbers. -/
def SeqInv (st : PState) : Prop :=
  (∀ h ∈ st.hands, SeqOK h) ∧
  ∀ cur, st.currentHand = some cur → SeqOK cur ∧ st.actionSequence = (cur.Actions.length : Int)

/-- Identifiers of the hands built so far, the hand in progress last. -/
def PState.ids (st : PState) : List Str :=
  st.hands.map (fun h => h.HandID) ++ st.currentHand.toList.map (fun h => h.HandID)

/-- A text whose first line is `n` letters long, followed by a hand-start line. -/
def longLineText (n : Nat) : Str :=
  List.replicate n 'a' ++ '\n' :: "PokerStars Hand #1:\n".toList

/-- A short text with one hand. -/
def sampleText : Str :=
  ("PokerStars Hand #123456789:\nSeat 1: Alice (200 in chips)\n*** FLOP *** [Ah Kd 2c]\n" ++
   "Alice: raises 10 to 20\nTotal pot 40 | Rake 2\n").toList

/-- The text of a list of lines, each followed by a line feed. -/
def unlines (ls : List Str) : Str := ls.flatMap (fun l => l ++ ['\n'])

/-- The hand blocks of a list of lines: one per hand-start line, made of that line and the
lines after it up to (not including) the next hand-start line. -/
def handBlocks : List Str → List (List Str)
  | [] => []
  | l :: ls =>
    if isHandStart l then
      (l :: ls.takeWhile (fun x => !isHandStart x)) :: handBlocks ls
    else handBlocks ls

/-- Raw texts of the hands built so far, the buffer of the hand in progress last. -/
def PState.raws (st : PState) : List Str :=
  st.hands.map (fun h => h.RawText) ++
    (match st.currentHand with
     | some _ => [st.rawHandText]
     | none => [])

/-- A file system in which every path holds the text `sampleText`. -/
def sampleFiles : Str → Option Str := fun _ => some sampleText

/-- Two hands; in each the hero posts a blind of 1, calls 5 and collects 12. -/
def twoHandsText : Str :=
  ("PokerStars Hand #1:\nDealt to Hero [Ah Kd]\nHero: posts small blind 1\nHero: calls 5\n" ++
   "Hero collected 12 from pot\n" ++
   "PokerStars Hand #2:\nDealt to Hero [Qs Qd]\nHero: posts small blind 1\nHero: calls 5\n" ++
   "Hero collected 12 from pot\n").toList

/-- The first match of `r` from position `pos` on the text `xs ++ R` consumes exactly `xs`
and turns the captures `c` into `c'`. -/
def Fst (r : Re) (pos : Nat) (xs R : Str) (c c' : List Str) : Prop :=
  (Re.run r { pos := pos, rest := xs ++ R, caps := c }).head? =
    some { pos := pos + xs.length, rest := R, caps := c' }

/-- The text `R` is empty or starts with a character outside the class `p`. -/
def StopsAt (p : Char → Bool) (R : Str) : Prop := ∀ c, R.head? = some c → p c = false

/-- The verbs of the action pattern. -/
def actionVerbList : List Str :=
  ["folds".toList, "checks".toList, "calls".toList, "bets".toList, "raises".toList,
   "posts small blind".toList, "posts big blind".toList, "posts the ante".toList]

/-- A decimal literal `\d+` or `\d+\.\d+`. -/
def isDecimalLit (s : Str) : Bool :=
  !(s.takeWhile Re.isDigit).isEmpty &&
    ((s.dropWhile Re.isDigit).isEmpty ||
      ((s.dropWhile Re.isDigit).head? == some '.' &&
        !(s.dropWhile Re.isDigit).tail.isEmpty && (s.dropWhile Re.isDigit).tail.all Re.isDigit))

/-- The amount part of an action line: nothing, or a blank and the amount. -/
def amtPart : Option Str → Str
  | none => []
  | some X => ' ' :: X

/-- The "to" part of an action line: nothing, or ` to ` and the amount. -/
def toPart : Option Str → Str
  | none => []
  | some Y => " to ".toList ++ Y

/-- An action line `<name>: <verb>[ <amount>][ to <amount>]`. -/
def mkActionLine (name verb : Str) (amt toAmt : Option Str) : Str :=
  name ++ (": ".toList ++ (verb ++ (amtPart amt ++ toPart toAmt)))

/-- The captures 3 and 4 after the amount parts of an action line. -/
def capsAfter (c : List Str) (amt toAmt : Option Str) : List Str :=
  let c3 := match amt with
    | some X => c.set 3 X
    | none => c
  match toAmt with
  | some Y => c3.set 4 Y
  | none => c3

open Re in
/-- The part of the action pattern after the verb:
`\s*(\d+(?:\.\d+)?)?\s*(?:to\s+(\d+(?:\.\d+)?))?`. -/
def actionTail : Re :=
  .seq (.star space) (.seq (opt (.grp 3 decimal)) (.seq (.star space)
    (opt (cat [lit "to".toList, plus space, .grp 4 decimal]))))

/-- The action the parser builds for an action line of player `name` with verb `verb` and
amount `amount`: the name is trimmed, the street is the current street once the street
markers of the line itself are taken into account, the sequence number is the counter. -/
def actionOf (st : PState) (line name verb : Str) (amount : F64) : Action :=
  { PlayerName := trimSpace name, Action := verb, Amount := amount,
    Street := nextStreet line st.currentStreet, Sequence := st.actionSequence }

/-- Processing `line` in state `st`, inside the hand `cur`, appends the action `a` to the
actions of the hand (which stays the hand in progress). -/
def AppendsAction (st : PState) (cur : Hand) (line : Str) (a : Action) : Prop :=
  ∃ cur', (step st line).currentHand = some cur' ∧ cur'.Actions = cur.Actions ++ [a]

/-- The amount of an action line: the "to" amount if there is one, else the plain amount if
there is one, else zero. -/
def lineAmount (amt toAmt : Option Str) : F64 :=
  match toAmt, amt with
  | some Y, _ => (ParseFloat Y).1
  | none, some X => (ParseFloat X).1
  | none, none => F64.zero

/-- A state inside a hand, on the flop, with no action yet. -/
def sampleState : PState :=
  { hands := [], currentHand := some (Hand.new "1".toList), currentStreet := "flop".toList,
    actionSequence := 0, rawHandText := "PokerStars Hand #1:\n".toList }

/-- The action line `<name>: <verb> X to Y`. -/
def raiseLine (name verb X Y : Str) : Str :=
  name ++ ": ".toList ++ verb ++ " ".toList ++ X ++ " to ".toList ++ Y

/-- The action line `<name>: <verb> X`. -/
def betLine (name verb X : Str) : Str := name ++ ": ".toList ++ verb ++ " ".toList ++ X

/-- The action line `<name>: <verb>`, without amount. -/
def plainLine (name verb : Str) : Str := name ++ ": ".toList ++ verb

/-- The text starts with a character that is neither blank, nor a digit, nor `t`. -/
def startsWithJunk (junk : Str) : Bool :=
  match junk with
  | [] => false
  | j :: _ => !Re.isReSpace j && !Re.isDigit j && j != 't'

/-- A text with an action whose amount is a string of 310 digits, followed by a fold. -/
def hugeAmountText : Str :=
  "PokerStars Hand #1:\nAlice: bets ".toList ++ List.replicate 310 '9' ++
    "\nAlice: folds\n".toList

/-- The action line `<name>: <verb> <junk>`, its last token arbitrary text. -/
def junkLine (name verb junk : Str) : Str :=
  name ++ ": ".toList ++ verb ++ " ".toList ++ junk

/-- The lines of the scenario after the hand-start line. -/
def scenarioBody : Str :=
  ("Seat 1: Alice (200 in chips)\n*** FLOP *** [Ah Kd 2c]\nAlice: raises 10 to 20\n" ++
   "Total pot 40 | Rake 2\n").toList

/-- The scenario text: a hand-start line with identifier 123456789 (and any `tail` after
the colon), then the seat, flop, action and pot lines. -/
def scenarioText (tail : Str) : Str :=
  "PokerStars Hand #123456789:".toList ++ tail ++ '\n' :: scenarioBody

/-- The hand `h` with the three fields read from the hand-start line replaced. -/
def withMeta (g s : Str) (d : Time) (h : Hand) : Hand :=
  { h with GameType := g, Stakes := s, DateTime := d }

/-- The state `st` with the fields of the hand-start line of the hand in progress replaced
and `p` put in front of the raw text. -/
def frame (g s : Str) (d : Time) (p : Str) (st : PState) : PState :=
  { st with currentHand := st.currentHand.map (withMeta g s d),
            rawHandText := p ++ st.rawHandText }

/-- The state after a hand-start line with identifier 123456789, but for the fields read
from that line and its raw text. -/
def scenarioStart : PState :=
  { hands := [], currentHand := some (Hand.new "123456789".toList),
    currentStreet := "preflop".toList, actionSequence := 0, rawHandText := [] }

/-- Position of a street in the order preflop, flop, turn, river, showdown. -/
def streetRank (s : Str) : Nat :=
  if s = "preflop".toList then 0
  else if s = "flop".toList then 1
  else if s = "turn".toList then 2
  else if s = "river".toList then 3
  else if s = "showdown".toList then 4
  else 0

/-- The street a line announces by its marker, as a position in the order of the streets
(the markers are tested in the order of lines 148-156). -/
def markerRank (line : Str) : Option Nat :=
  if contains line "*** FLOP ***".toList then some 1
  else if contains line "*** TURN ***".toList then some 2
  else if contains line "*** RIVER ***".toList then some 3
  else if contains line "*** SHOW DOWN ***".toList then some 4
  else none

/-- Inside each hand the lines with a street marker announce the streets in forward order:
no marker of an earlier street comes after a marker of a later street. The first argument
is the street reached in the hand in progress (`none` before the first hand). -/
def markersForward : Option Nat → List Str → Bool
  | _, [] => true
  | r, l :: ls =>
    if isHandStart l then markersForward (some 0) ls
    else
      match r with
      | none => markersForward none ls
      | some k =>
        match markerRank l with
        | some j => decide (k ≤ j) && markersForward (some j) ls
        | none => markersForward (some k) ls

/-- The streets of the actions of a hand, in list order, never move backward. -/
def StreetsForward (h : Hand) : Prop :=
  h.Actions.Pairwise (fun a b => streetRank a.Street ≤ streetRank b.Street)

/-- Invariant of the loop for the streets: `r` is the street reached in the hand in
progress. -/
def StreetInv (st : PState) (r : Option Nat) : Prop :=
  (∀ h ∈ st.hands, StreetsForward h) ∧
  match st.currentHand, r with
  | none, none => True
  | some cur, some k =>
    StreetsForward cur ∧ (∀ a ∈ cur.Actions, streetRank a.Street ≤ k) ∧
      streetRank st.currentStreet = k
  | _, _ => False

/-- A hand whose lines announce the turn before the flop. -/
def backwardText : Str :=
  ("PokerStars Hand #1:\n*** TURN *** [Ah Kd 2c] [5s]\nAlice: bets 5\n" ++
   "*** FLOP *** [Ah Kd 2c]\nBob: calls 5\n").toList

/-- Two hands whose lines announce the streets in forward order, with actions before the
first marker and after each marker. -/
def forwardText : Str :=
  ("PokerStars Hand #1:\nAlice: bets 5\n*** FLOP *** [Ah Kd 2c]\nBob: calls 5\n" ++
   "Alice: checks\n*** TURN *** [Ah Kd 2c] [5s]\nBob: bets 9\n" ++
   "*** RIVER *** [Ah Kd 2c 5s] [9h]\nAlice: folds\n" ++
   "PokerStars Hand #2:\nBob: checks\n*** FLOP *** [2h 3h 4h]\nAlice: bets 2\n").toList

/-- The indices of the capture groups of an expression. -/
def Re.groupsIn : Re → List Nat
  | .eps => []
  | .cls _ => []
  | .bol => []
  | .seq a b => Re.groupsIn a ++ Re.groupsIn b
  | .alt a b => Re.groupsIn a ++ Re.groupsIn b
  | .star a => Re.groupsIn a
  | .lazyStar a => Re.groupsIn a
  | .grp i a => i :: Re.groupsIn a

/-- The action kinds of the data model. -/
inductive ActionKind where
  | fold : ActionKind
  | check : ActionKind
  | call : ActionKind
  | bet : ActionKind
  | raise : ActionKind
  | postBlind : ActionKind
  | postAnte : ActionKind
  deriving DecidableEq, Repr

/-- The kind an action string stands for (`none`: no kind of the data model). The parser
stores the verb as it is written in the file. -/
def actionKind (verb : Str) : Option ActionKind :=
  if verb = "folds".toList then some .fold
  else if verb = "checks".toList then some .check
  else if verb = "calls".toList then some .call
  else if verb = "bets".toList then some .bet
  else if verb = "raises".toList then some .raise
  else if verb = "posts small blind".toList then some .postBlind
  else if verb = "posts big blind".toList then some .postBlind
  else if verb = "posts the ante".toList then some .postAnte
  else none

/-- Go `a >= 0` on `float64`. -/
def F64.nonneg : F64 → Bool
  | .nan => false
  | .inf a => !a
  | .fin n m _ => !n || m == 0

/-- The action has a kind of the data model and a non-negative amount. -/
def ActionOK (a : Action) : Prop :=
  a.Action ∈ actionVerbList ∧ (actionKind a.Action).isSome = true ∧ a.Amount.nonneg = true

/-- Invariant of the loop for the actions. -/
def ActionInv (st : PState) : Prop :=
  (∀ h ∈ st.hands, ∀ a ∈ h.Actions, ActionOK a) ∧
  ∀ cur, st.currentHand = some cur → ∀ a ∈ cur.Actions, ActionOK a

/-- The tokens of a list written with single blanks between them. -/
def joinTokens : List Str → Str
  | [] => []
  | [t] => t
  | t :: ts => t ++ ' ' :: joinTokens ts

/-- A card token as the board grammar can list it: not empty, without white space and
without closing bracket. -/
def isToken (t : Str) : Bool :=
  !t.isEmpty && t.all (fun c => !isSpace c && c != ']')

/-- The street names of the board pattern. -/
def boardMarkers : List Str := ["FLOP".toList, "TURN".toList, "RIVER".toList]

/-- The board-cards line `*** <marker> *** [<tokens>]` with one bracketed group. -/
def boardCardsLine (marker : Str) (tokens : List Str) : Str :=
  "*** ".toList ++ (marker ++ (" ***".toList ++ ([' '] ++ (['['] ++ (joinTokens tokens ++ [']'])))))

/-- Two hands: one with flop, turn and river lines as PokerStars writes them, one whose
flop line lists six tokens. -/
def boardText : Str :=
  ("PokerStars Hand #1:\n*** FLOP *** [Ah Kd 2c]\n*** TURN *** [Ah Kd 2c] [5s]\n" ++
   "*** RIVER *** [Ah Kd 2c 5s] [9h]\n" ++
   "PokerStars Hand #2:\n*** FLOP *** [Ah Kd 2c 5s 9h Qd]\n").toList

/-! ## Persistence (`database/models.go`, `repository`) -/

/-- Text of an error of the persistence layer or of the file-system watcher. -/
abbrev ErrText := Str

/-- Go `database.Site`, without `CreatedAt` (filled by the database clock) and the `Hands`
association. -/
structure database.Site where
  ID : Int
  Name : Str
  WatchPath : Str
  Enabled : Bool
  deriving DecidableEq, Repr

/-- Go `database.Hand`, as far as `convertToDBHand` fills it (`ID`, `CreatedAt` and the
associations are left to the database). -/
structure database.Hand where
  SiteID : Int
  HandID : Str
  GameType : Str
  Stakes : Str
  TableName : Str
  DateTime : Time
  HeroName : Str
  Position : Str
  HoleCards : Str
  Board : Str
  Result : F64
  Rake : F64
  TotalPot : F64
  ParsedData : Str
  RawText : Str
  deriving DecidableEq, Repr

/-- The two uses of `json.Marshal` in `convertToDBHand`, taken as parameters. -/
structure JsonEnc where
  cards : List Str → Str
  hand : Hand → Str

/-- Go `convertToDBHand`. -/
def convertToDBHand (enc : JsonEnc) (hand : Hand) (siteID : Int) : database.Hand :=
  { SiteID := siteID, HandID := hand.HandID, GameType := hand.GameType, Stakes := hand.Stakes,
    TableName := hand.TableName, DateTime := hand.DateTime, HeroName := hand.HeroName,
    Position := hand.Position, HoleCards := enc.cards hand.HoleCards,
    Board := enc.cards hand.Board, Result := hand.Result, Rake := hand.Rake,
    TotalPot := hand.TotalPot, ParsedData := enc.hand hand, RawText := hand.RawText }

/-- The interface `HandRepository`, as far as `processFile` calls it, over a state of type
`σ` of the persistence layer: each call answers the state it leaves and its results,
`(found, err)` for `Exists` and `err` for `Create`. -/
structure HandRepository (σ : Type) where
  Exists : σ → Int → Str → σ × Bool × Option ErrText
  Create : σ → database.Hand → σ × Option ErrText

/-- Lines 228-255 of `processFile`: the loop over the hands, from the state `s` and the
counters `saved` and `skipped`. -/
def processHands {σ : Type} (handRepo : HandRepository σ) (enc : JsonEnc) (siteID : Int) :
    List Hand → σ → Nat → Nat → σ × Nat × Nat
  | [], s, saved, skipped => (s, saved, skipped)
  | hand :: hands, s, saved, skipped =>
    match handRepo.Exists s siteID hand.HandID with
    | (s1, _, some _) => processHands handRepo enc siteID hands s1 saved skipped
    | (s1, true, none) => processHands handRepo enc siteID hands s1 saved (skipped + 1)
    | (s1, false, none) =>
      match handRepo.Create s1 (convertToDBHand enc hand siteID) with
      | (s2, some _) => processHands handRepo enc siteID hands s2 saved skipped
      | (s2, none) => processHands handRepo enc siteID hands s2 (saved + 1) skipped

/-- How a call of `processFile` ends. -/
inductive ProcessResult where
  | parseError : ProcessResult
  | noHands : ProcessResult
  | siteError : ProcessResult
  | siteNotFound : ProcessResult
  | processed (saved skipped : Nat) : ProcessResult
  deriving DecidableEq, Repr

/-- Lines 207-257 of `processFile`: what follows the call of `ParseFile`, whose results are
`parsed`; `findByName` is `siteRepo.FindByName`. -/
def afterParse {σ : Type} (findByName : Str → Option database.Site × Option ErrText)
    (handRepo : HandRepository σ) (enc : JsonEnc) (parsed : List Hand × Str × Option Error)
    (s : σ) : ProcessResult × σ :=
  match parsed.2.2 with
  | some _ => (.parseError, s)
  | none =>
    if parsed.1.length = 0 then (.noHands, s)
    else
      match findByName parsed.2.1 with
      | (_, some _) => (.siteError, s)
      | (none, none) => (.siteNotFound, s)
      | (some site, none) =>
        ((ProcessResult.processed (processHands handRepo enc site.ID parsed.1 s 0 0).2.1
            (processHands handRepo enc site.ID parsed.1 s 0 0).2.2),
          (processHands handRepo enc site.ID parsed.1 s 0 0).1)

/-- Go `(*Watcher).processFile`. -/
def processFile {σ : Type} (parser : Manager) (readFile : Str → Option Str)
    (findByName : Str → Option database.Site × Option ErrText) (handRepo : HandRepository σ)
    (enc : JsonEnc) (filePath : Str) (s : σ) : ProcessResult × σ :=
  afterParse findByName handRepo enc (parser.ParseFile readFile filePath) s

/-- The table `sites` behind `siteRepository` (gorm on SQLite): its rows and the next
identifier of the auto-increment key. The connection is taken to work: the only error is
the violation of the `unique` constraint on `name`. -/
structure SiteTable where
  rows : List database.Site
  nextID : Int
  deriving DecidableEq, Repr

/-- The empty table of a new database. -/
def SiteTable.empty : SiteTable := { rows := [], nextID := 1 }

/-- Go `(*siteRepository).FindByName`: `Where("name = ?", name).First(&site)`. SQLite
compares text with `=` byte by byte (collation `BINARY`); no row gives `nil, nil`. -/
def siteRepository.FindByName (t : SiteTable) (name : Str) :
    Option database.Site × Option ErrText :=
  (t.rows.find? (fun r => r.Name = name), none)

/-- Go `(*siteRepository).Create`, `db.Create(site)`, for a site given without identifier
as `initializeSites` does: the row gets the next identifier, unless the name is taken.
`Enabled` has the tag `default:true`, and gorm leaves a zero value of such a field out of
the insert, so `Enabled = false` is stored as the default `true`. -/
def siteRepository.Create (t : SiteTable) (site : database.Site) :
    SiteTable × Option ErrText :=
  if t.rows.any (fun r => r.Name = site.Name) then
    (t, some "UNIQUE constraint failed: sites.name".toList)
  else
    ({ rows := t.rows ++
         [{ site with ID := t.nextID, Enabled := if site.Enabled then site.Enabled else true }],
       nextID := t.nextID + 1 }, none)

/-! ## Configuration (`config.go`) and start-up (`app.go`) -/

/-- Go `config.Site`. -/
structure config.Site where
  Name : Str
  WatchPath : Str
  Enabled : Bool
  deriving DecidableEq, Repr

/-- Go `config.Config`; the map `Sites` as an association list. -/
structure config.Config where
  HeroName : Str
  Sites : List (Str × config.Site)
  DatabasePath : Str
  Theme : Str
  deriving DecidableEq, Repr

/-- Go `config.GetDefaultConfig`. The environment is taken as parameters: `configDir` is
the result of `GetConfigDir()` (`none`: it fails), `defaultWatchPath` the result of
`DetectPokerStarsPath()`, `databasePath` the value of `filepath.Join(configDir, "poker.db")`. -/
def config.GetDefaultConfig (configDir : Option Str) (defaultWatchPath databasePath : Str) :
    Option config.Config :=
  match configDir with
  | none => none
  | some _ =>
    some { HeroName := [],
           Sites := [("pokerstars".toList,
                      { Name := "PokerStars".toList, WatchPath := defaultWatchPath,
                        Enabled := true })],
           DatabasePath := databasePath,
           Theme := "dark".toList }

/-- Go `(*App).initializeSites`, on the table of sites. -/
def initializeSites (sites : List (Str × config.Site)) (t : SiteTable) : SiteTable :=
  sites.foldl
    (fun t entry =>
      match siteRepository.FindByName t entry.2.Name with
      | (_, some _) => t
      | (some _, none) => t
      | (none, none) =>
        (siteRepository.Create t
          { ID := 0, Name := entry.2.Name, WatchPath := entry.2.WatchPath,
            Enabled := entry.2.Enabled }).1)
    t

/-! ## The watcher (`watcher.go`) -/

/-- The methods of `fsnotify.Watcher` that the watcher calls, over a state of type `ω` of
the operating-system watcher. -/
structure FsWatcher (ω : Type) where
  Add : ω → Str → ω × Option ErrText
  Remove : ω → Str → ω × Option ErrText
  Close : ω → ω

/-- A Go channel of paths made by `make(chan string, cap)`: the values in its buffer, oldest
first, its capacity, and whether it has been closed. -/
structure Chan where
  buf : List Str
  cap : Nat
  closed : Bool
  deriving DecidableEq, Repr

/-- What a send `ch <- v` does: it panics on a closed channel, completes when the buffer
has room, and blocks otherwise (until a receive makes room). -/
inductive SendResult where
  | panics : SendResult
  | blocks : SendResult
  | done (ch : Chan) : SendResult
  deriving DecidableEq, Repr

/-- Go `ch <- v`. -/
def Chan.send (ch : Chan) (v : Str) : SendResult :=
  if ch.closed then .panics
  else if ch.buf.length < ch.cap then .done { ch with buf := ch.buf ++ [v] }
  else .blocks

/-- Go `Watcher`, without the parser and the repositories (passed to `processFile`) and the
mutexes. `paths` lists the keys of the map (every stored value is `true`); `debounceMap`
lists each key with its timer, a timer being named by its path and the instant in
milliseconds at which it is due; `stopCh` says whether that channel has been closed.
Three fields hold what the watcher has handed to Go's run time: `timers` are the timers
made by `time.AfterFunc` that have neither fired nor been stopped, oldest first; `sending`
are the paths of the timer functions that have started and not completed their send
`w.processingCh <- filePath`; `deleting` those past the send and before
`delete(w.debounceMap, filePath)`. -/
structure Watcher (ω : Type) where
  watcher : ω
  paths : List Str
  debounceMap : List (Str × Nat)
  stopCh : Bool
  processingCh : Chan
  isRunning : Bool
  timers : List (Str × Nat)
  sending : List Str
  deleting : List Str
  deriving DecidableEq

/-- Go `watcher.New`, after a successful `fsnotify.NewWatcher()` has given `fsWatcher`. -/
def Watcher.New {ω : Type} (fsWatcher : ω) : Watcher ω :=
  { watcher := fsWatcher, paths := [], debounceMap := [], stopCh := false,
    processingCh := { buf := [], cap := 100, closed := false }, isRunning := false,
    timers := [], sending := [], deleting := [] }

/-- Go `(*Watcher).AddPath`; the second component is the returned error. -/
def Watcher.AddPath {ω : Type} (fs : FsWatcher ω) (path : Str) (w : Watcher ω) :
    Watcher ω × Option ErrText :=
  if path ∈ w.paths then (w, none)
  else
    match fs.Add w.watcher path with
    | (os, some err) =>
      ({ w with watcher := os },
        some ("failed to watch path ".toList ++ path ++ ": ".toList ++ err))
    | (os, none) => ({ w with watcher := os, paths := w.paths ++ [path] }, none)

/-- Go `(*Watcher).RemovePath`; the second component is the returned error. -/
def Watcher.RemovePath {ω : Type} (fs : FsWatcher ω) (path : Str) (w : Watcher ω) :
    Watcher ω × Option ErrText :=
  if ¬ path ∈ w.paths then (w, none)
  else
    match fs.Remove w.watcher path with
    | (os, some err) =>
      ({ w with watcher := os },
        some ("failed to unwatch path ".toList ++ path ++ ": ".toList ++ err))
    | (os, none) => ({ w with watcher := os, paths := w.paths.filter (fun p => p ≠ path) }, none)

/-- Go `(*Watcher).Start`, without the goroutines it starts. -/
def Watcher.Start {ω : Type} (w : Watcher ω) : Watcher ω :=
  if w.isRunning then w else { w with isRunning := true }

/-- Go `(*Watcher).Stop`; `none` is the run-time panic of closing a closed channel. The
timers and the timer functions under way are not touched. -/
def Watcher.Stop {ω : Type} (fs : FsWatcher ω) (w : Watcher ω) : Option (Watcher ω) :=
  if ¬ w.isRunning then some w
  else if w.stopCh then none
  else if w.processingCh.closed then none
  else
    some { w with isRunning := false, stopCh := true, watcher := fs.Close w.watcher,
                  processingCh := { w.processingCh with closed := true } }

/-- The delay of `time.AfterFunc` in `debounceFile`, in milliseconds. -/
def debounceDelay : Nat := 1000

/-- Go `(*Watcher).debounceFile`, called at the instant `now`: when the map has a timer for
the path, `timer.Stop()` takes it from the pending timers (nothing happens when it has
fired already); then a new timer, due after the delay, is made and stored in the map. -/
def Watcher.debounceFile {ω : Type} (now : Nat) (filePath : Str) (w : Watcher ω) : Watcher ω :=
  { w with
    timers :=
      (match w.debounceMap.find? (fun e => e.1 = filePath) with
       | some e => w.timers.erase e
       | none => w.timers) ++ [(filePath, now + debounceDelay)],
    debounceMap :=
      w.debounceMap.filter (fun e => e.1 ≠ filePath) ++ [(filePath, now + debounceDelay)] }

/-- The oldest pending timer of a path fires: its function starts and stands at its first
statement, the send. Without a pending timer of the path nothing happens. -/
def Watcher.fire {ω : Type} (filePath : Str) (w : Watcher ω) : Watcher ω :=
  match w.timers.find? (fun e => e.1 = filePath) with
  | some e => { w with timers := w.timers.erase e, sending := w.sending ++ [filePath] }
  | none => w

/-- First statement of the timer function, `w.processingCh <- filePath`, for a function of
the path that stands there: `none` is the run-time panic of a send on a closed channel; on
a full buffer the function stays blocked at the send. -/
def Watcher.sendStep {ω : Type} (filePath : Str) (w : Watcher ω) : Option (Watcher ω) :=
  if filePath ∈ w.sending then
    match w.processingCh.send filePath with
    | .panics => none
    | .blocks => some w
    | .done ch =>
      some { w with processingCh := ch, sending := w.sending.erase filePath,
                    deleting := w.deleting ++ [filePath] }
  else some w

/-- Last statement of the timer function, `delete(w.debounceMap, filePath)`, for a function
of the path that is past its send: the record of the path goes, whichever timer it holds. -/
def Watcher.deleteStep {ω : Type} (filePath : Str) (w : Watcher ω) : Watcher ω :=
  if filePath ∈ w.deleting then
    { w with debounceMap := w.debounceMap.filter (fun e => e.1 ≠ filePath),
             deleting := w.deleting.erase filePath }
  else w

/-- A worker receives from the queue, `filePath, ok := <-w.processingCh`: the oldest path
leaves the buffer; on an empty buffer nothing is received. -/
def Watcher.receive {ω : Type} (w : Watcher ω) : Watcher ω :=
  { w with processingCh := { w.processingCh with buf := w.processingCh.buf.tail } }

/-- The clock reaches `now`: every pending timer that is due by then fires, oldest first;
its function starts and stands at its send. -/
def Watcher.fireDue {ω : Type} (now : Nat) (w : Watcher ω) : Watcher ω :=
  { w with timers := w.timers.filter (fun e => decide (now < e.2)),
           sending := w.sending ++
             (w.timers.filter (fun e => decide (e.2 ≤ now))).map (fun e => e.1) }

/-- Time passes until no timer is pending: every pending timer fires, oldest first. -/
def Watcher.fireAll {ω : Type} (w : Watcher ω) : Watcher ω :=
  { w with timers := [], sending := w.sending ++ w.timers.map (fun e => e.1) }

/-- The steps of the watcher. A notification for a path at an instant: the timers due by
then have fired, then `debounceFile` runs. The clock reaching an instant. Time passing
until no timer is pending. The expiry of the oldest pending timer of a path, whatever the
clock. The send and the delete of a timer function of a path that has started. A receive
by a worker. `Stop`. -/
inductive WStep where
  | notify (now : Nat) (filePath : Str) : WStep
  | clock (now : Nat) : WStep
  | elapse : WStep
  | expiry (filePath : Str) : WStep
  | send (filePath : Str) : WStep
  | delete (filePath : Str) : WStep
  | receive : WStep
  | stop : WStep
  deriving DecidableEq, Repr

/-- One step of the watcher; `none` when it panics. -/
def Watcher.step {ω : Type} (fs : FsWatcher ω) (w : Watcher ω) : WStep → Option (Watcher ω)
  | .notify now filePath => some ((w.fireDue now).debounceFile now filePath)
  | .clock now => some (w.fireDue now)
  | .elapse => some w.fireAll
  | .expiry filePath => some (w.fire filePath)
  | .send filePath => w.sendStep filePath
  | .delete filePath => some (w.deleteStep filePath)
  | .receive => some w.receive
  | .stop => w.Stop fs

/-- A run of the watcher; `none` when a step panics. -/
def Watcher.run {ω : Type} (fs : FsWatcher ω) (steps : List WStep) (w : Watcher ω) :
    Option (Watcher ω) :=
  steps.foldl (fun r s => r.bind (fun w => Watcher.step fs w s)) (some w)

/-! ## Runs, repositories and watchers used by the statements -/

/-- No timer is pending, no timer function is under way and the map has no record. -/
def Watcher.Quiet {ω : Type} (w : Watcher ω) : Prop :=
  w.debounceMap = [] ∧ w.timers = [] ∧ w.sending = [] ∧ w.deleting = []

/-- The instant of a step that carries one. -/
def WStep.instant : WStep → Option Nat
  | .notify now _ => some now
  | .clock now => some now
  | _ => none

/-- The instant of a notification. -/
def WStep.notifyInstant : WStep → Option Nat
  | .notify now _ => some now
  | _ => none

/-- The step is a send or a delete of a timer function of the path. -/
def WStep.ofFunction (filePath : Str) : WStep → Bool
  | .send q => decide (q = filePath)
  | .delete q => decide (q = filePath)
  | _ => false

/-- The step is a notification for the path, a step of the clock, or a send or a delete
of a timer function of the path. -/
def WStep.about (filePath : Str) : WStep → Bool
  | .notify _ q => decide (q = filePath)
  | .clock _ => true
  | .send q => decide (q = filePath)
  | .delete q => decide (q = filePath)
  | _ => false

/-- A notification for a path at an instant, the expiry of its timer when the delay has
passed, and the two statements of the timer function. -/
def debounceRound (filePath : Str) (t : Nat) : List WStep :=
  [WStep.notify t filePath, WStep.clock (t + debounceDelay), WStep.send filePath,
   WStep.delete filePath]

/-- The `n` instants `t`, `t + 2000`, `t + 4000`, ...: each 2000 ms after the one before. -/
def spaced : Nat → Nat → List Nat
  | _, 0 => []
  | t, n + 1 => t :: spaced (t + 2000) n

/-- Invariant of the runs about one path from a queue that held `b0`, after `n` timers
were made and not stopped: the records, timers and timer functions are those of the path;
each of the `n` timers is pending, or its function stands at the send, or it has sent the
path; the queue is open; and a record in the map has a timer or a timer function that
will delete it. -/
def Watcher.Counted {ω : Type} (filePath : Str) (b0 : List Str) (c : Nat) (w : Watcher ω)
    (n : Nat) : Prop :=
  (∀ e ∈ w.debounceMap, e.1 = filePath) ∧ (∀ e ∈ w.timers, e.1 = filePath) ∧
  (∀ x ∈ w.sending, x = filePath) ∧ (∀ x ∈ w.deleting, x = filePath) ∧
  (∃ j, w.processingCh.buf = b0 ++ List.replicate j filePath ∧
    j + w.sending.length + w.timers.length = n) ∧
  w.processingCh.cap = c ∧ w.processingCh.closed = false ∧
  (w.debounceMap ≠ [] → w.timers ≠ [] ∨ w.sending ≠ [] ∨ w.deleting ≠ [])

/-- Invariant of the notifications that each come before the pending timer is due: the
queue still holds `b0`, no timer function has started, and either nothing is pending and
recorded (`k = 0`) or one timer is (`k = 1`), due after the next notification. -/
def Watcher.Waiting {ω : Type} (filePath : Str) (b0 : List Str) (c : Nat) (w : Watcher ω)
    (k : Nat) (ts : List Nat) : Prop :=
  w.processingCh.buf = b0 ∧ w.processingCh.cap = c ∧ w.processingCh.closed = false ∧
  w.sending = [] ∧ w.deleting = [] ∧
  ((k = 0 ∧ w.debounceMap = [] ∧ w.timers = []) ∨
   (k = 1 ∧ ∃ d, w.debounceMap = [(filePath, d)] ∧ w.timers = [(filePath, d)] ∧
      ∀ t ∈ ts.head?, t < d))

/-- The repository of hands as a set of keys: the state lists the keys `(site id, hand
identifier)` in the order of their creation, `Exists` answers membership, `Create` adds the
key of the hand and succeeds. -/
def setRepository : HandRepository (List (Int × Str)) :=
  { Exists := fun s siteID handID => (s, decide ((siteID, handID) ∈ s), none),
    Create := fun s h => (s ++ [(h.SiteID, h.HandID)], none) }

/-- A call of the hand repository with its answer. -/
inductive RepoCall where
  | existsCall (siteID : Int) (handID : Str) (found : Bool) (err : Option ErrText) : RepoCall
  | createCall (hand : database.Hand) (err : Option ErrText) : RepoCall
  deriving DecidableEq, Repr

/-- A hand repository that also records its calls, oldest first. -/
def HandRepository.logged {σ : Type} (repo : HandRepository σ) :
    HandRepository (σ × List RepoCall) :=
  { Exists := fun s siteID handID =>
      (((repo.Exists s.1 siteID handID).1,
        s.2 ++ [RepoCall.existsCall siteID handID (repo.Exists s.1 siteID handID).2.1
                  (repo.Exists s.1 siteID handID).2.2]),
       (repo.Exists s.1 siteID handID).2),
    Create := fun s h =>
      (((repo.Create s.1 h).1, s.2 ++ [RepoCall.createCall h (repo.Create s.1 h).2]),
       (repo.Create s.1 h).2) }

/-- The hand identifier of an existence check. -/
def RepoCall.checked : RepoCall → Option Str
  | .existsCall _ handID _ _ => some handID
  | .createCall _ _ => none

/-- The hand identifier of an existence check that succeeded and reported the hand absent. -/
def RepoCall.absent : RepoCall → Option Str
  | .existsCall _ handID false none => some handID
  | _ => none

/-- The hand identifier of an attempted `Create`. -/
def RepoCall.attempted : RepoCall → Option Str
  | .createCall hand _ => some hand.HandID
  | .existsCall _ _ _ _ => none

/-- A `Create` that succeeded. -/
def RepoCall.isSaved : RepoCall → Bool
  | .createCall _ none => true
  | _ => false

/-- An existence check that succeeded and reported the hand as existing. -/
def RepoCall.isExisting : RepoCall → Bool
  | .existsCall _ _ true none => true
  | _ => false

/-- The calls that the loop of `processFile` makes for one hand: the existence check alone
when it fails or finds the hand, otherwise the check followed by `Create` of the converted
hand. -/
def CallsOfHand (enc : JsonEnc) (siteID : Int) (hand : Hand) (calls : List RepoCall) : Prop :=
  (∃ found err, calls = [RepoCall.existsCall siteID hand.HandID found err] ∧
      (err ≠ none ∨ found = true)) ∨
  (∃ err, calls = [RepoCall.existsCall siteID hand.HandID false none,
                   RepoCall.createCall (convertToDBHand enc hand siteID) err])

/-- The call `Add` of an operating-system watcher that records its calls, oldest first,
and rejects the empty path. -/
def recordingAdd (os : List (Str × Str)) (path : Str) : List (Str × Str) × Option ErrText :=
  (os ++ [("Add".toList, path)],
    if path.isEmpty then some "no such file or directory".toList else none)

/-- The call `Remove` of that watcher. -/
def recordingRemove (os : List (Str × Str)) (path : Str) :
    List (Str × Str) × Option ErrText :=
  (os ++ [("Remove".toList, path)],
    if path.isEmpty then some "can't remove non-existent watch".toList else none)

/-- An operating-system watcher that records the calls of `Add` and `Remove`, oldest
first, and rejects the empty path. -/
def recordingFs : FsWatcher (List (Str × Str)) :=
  { Add := recordingAdd, Remove := recordingRemove, Close := fun os => os }

/-- An operating-system watcher without state. -/
def unitFs : FsWatcher Unit :=
  { Add := fun _ _ => ((), none), Remove := fun _ _ => ((), none), Close := fun _ => () }

/-- The table of sites after `initializeSites` on the default configuration, found by
`GetDefaultConfig` with the given results of the environment. -/
def defaultSiteTable (configDir : Option Str) (defaultWatchPath databasePath : Str) :
    Option SiteTable :=
  (config.GetDefaultConfig configDir defaultWatchPath databasePath).map
    (fun cfg => initializeSites cfg.Sites SiteTable.empty)

/-- An encoder that writes nothing, for runs in which the encoded text plays no role. -/
def emptyEnc : JsonEnc := { cards := fun _ => [], hand := fun _ => [] }

/-! ## Field lemmas for the steps of `ParseContent` -/

section Fields

variable (line : Str) (h : Hand)

@[simp]
theorem setGameType_HandID : (setGameType line h).HandID = h.HandID := by
  unfold setGameType; split <;> rfl
@[simp]
theorem setDateTime_HandID : (setDateTime line h).HandID = h.HandID := by
  unfold setDateTime; split <;> [split <;> rfl; rfl]
@[simp]
theorem setStakes_HandID : (setStakes line h).HandID = h.HandID := by
  unfold setStakes; split <;> [split <;> rfl; rfl]
@[simp]
theorem setTable_HandID : (setTable line h).HandID = h.HandID := by
  unfold setTable; split <;> rfl
@[simp]
theorem addPlayer_HandID : (addPlayer line h).HandID = h.HandID := by
  unfold addPlayer; split <;> rfl
@[simp]
theorem setHoleCards_HandID : (setHoleCards line h).HandID = h.HandID := by
  unfold setHoleCards; split <;> rfl
@[simp]
theorem setBoard_HandID : (setBoard line h).HandID = h.HandID := by
  unfold setBoard; split <;> rfl
@[simp]
theorem addAction_HandID (street : Str) (n : Int) :
    (addAction line street n h).1.HandID = h.HandID := by
  unfold addAction; split <;> rfl
@[simp]
theorem setPot_HandID : (setPot line h).HandID = h.HandID := by
  unfold setPot; split <;> [split <;> rfl; rfl]
@[simp]
theorem addCollected_HandID : (addCollected line h).HandID = h.HandID := by
  unfold addCollected; split <;> [split <;> [split <;> rfl; rfl]; rfl]

@[simp]
theorem setGameType_Actions : (setGameType line h).Actions = h.Actions := by
  unfold setGameType; split <;> rfl
@[simp]
theorem setDateTime_Actions : (setDateTime line h).Actions = h.Actions := by
  unfold setDateTime; split <;> [split <;> rfl; rfl]
@[simp]
theorem setStakes_Actions : (setStakes line h).Actions = h.Actions := by
  unfold setStakes; split <;> [split <;> rfl; rfl]
@[simp]
theorem setTable_Actions : (setTable line h).Actions = h.Actions := by
  unfold setTable; split <;> rfl
@[simp]
theorem addPlayer_Actions : (addPlayer line h).Actions = h.Actions := by
  unfold addPlayer; split <;> rfl
@[simp]
theorem setHoleCards_Actions : (setHoleCards line h).Actions = h.Actions := by
  unfold setHoleCards; split <;> rfl
@[simp]
theorem setBoard_Actions : (setBoard line h).Actions = h.Actions := by
  unfold setBoard; split <;> rfl
@[simp]
theorem setPot_Actions : (setPot line h).Actions = h.Actions := by
  unfold setPot; split <;> [split <;> rfl; rfl]
@[simp]
theorem addCollected_Actions : (addCollected line h).Actions = h.Actions := by
  unfold addCollected; split <;> [split <;> [split <;> rfl; rfl]; rfl]

end Fields

/-- What `addAction` does to the action list and to the counter. -/
theorem addAction_cases (line street : Str) (n : Int) (h : Hand) :
    ((addAction line street n h).1.Actions = h.Actions ∧ (addAction line street n h).2 = n) ∨
    (∃ a : Action, a.Sequence = n ∧ a.Street = street ∧
      (addAction line street n h).1.Actions = h.Actions ++ [a] ∧
      (addAction line street n h).2 = n + 1) := by
  unfold addAction
  split
  · exact Or.inr ⟨_, rfl, rfl, rfl, rfl⟩
  · exact Or.inl ⟨rfl, rfl⟩

theorem seqOK_of_actions_eq {h h' : Hand} (hA : h'.Actions = h.Actions) (hs : SeqOK h) :
    SeqOK h' := by
  unfold SeqOK at *; rw [hA]; exact hs

theorem seqOK_of_actions_nil {h : Hand} (hA : h.Actions = []) : SeqOK h := by
  unfold SeqOK; rw [hA]; rfl

theorem seqOK_append {h h' : Hand} {a : Action} (hs : SeqOK h)
    (ha : a.Sequence = (h.Actions.length : Int)) (hA : h'.Actions = h.Actions ++ [a]) :
    SeqOK h' := by
  unfold SeqOK at *
  rw [hA, List.map_append, hs, List.length_append, List.length_singleton, List.range_succ,
    List.map_append]
  simp [ha]

theorem seqInv_init : SeqInv PState.init := by
  refine ⟨?_, ?_⟩
  · intro h hh; simp [PState.init] at hh
  · intro cur hc; simp [PState.init] at hc

theorem seqInv_step (st : PState) (line : Str) (hinv : SeqInv st) : SeqInv (step st line) := by
  obtain ⟨hh, hc⟩ := hinv
  unfold step
  split
  · -- hand start
    rename_i ms _
    refine ⟨?_, ?_⟩
    · intro h hmem
      simp only [startHand] at hmem
      cases hcur : st.currentHand with
      | none => rw [hcur] at hmem; exact hh h hmem
      | some cur =>
        rw [hcur] at hmem
        simp only [List.mem_append, List.mem_singleton] at hmem
        rcases hmem with hmem | hmem
        · exact hh h hmem
        · subst hmem
          exact seqOK_of_actions_eq rfl (hc cur hcur).1
    · intro cur hcur
      simp only [startHand, Option.some.injEq] at hcur
      subst hcur
      refine ⟨seqOK_of_actions_nil (by simp [Hand.new]), by simp [Hand.new, startHand]⟩
  · split
    · exact ⟨hh, hc⟩
    · rename_i cur hcur
      obtain ⟨hs, hn⟩ := hc cur hcur
      refine ⟨hh, ?_⟩
      intro cur' hcur'
      simp only [inHand, Option.some.injEq] at hcur'
      subst hcur'
      simp only [inHand, addCollected_Actions, setPot_Actions]
      rcases addAction_cases line (nextStreet line st.currentStreet) st.actionSequence
        (setBoard line (setHoleCards line (addPlayer line (setTable line cur)))) with h1 | h1
      · obtain ⟨hA, hN⟩ := h1
        refine ⟨seqOK_of_actions_eq (h := cur) (by simp [hA]) hs, ?_⟩
        rw [hN, hA]; simpa using hn
      · obtain ⟨a, haS, _, hA, hN⟩ := h1
        simp only [setBoard_Actions, setHoleCards_Actions, addPlayer_Actions,
          setTable_Actions] at hA
        refine ⟨seqOK_append (h := cur) hs (by rw [haS, hn]) (by simp [hA]), ?_⟩
        rw [hN, hA, hn]; simp

theorem seqInv_foldl (lines : List Str) (st : PState) (hinv : SeqInv st) :
    SeqInv (lines.foldl step st) := by
  induction lines generalizing st with
  | nil => exact hinv
  | cons l ls ih => exact ih _ (seqInv_step st l hinv)

theorem seqOK_finish (st : PState) (hinv : SeqInv st) : ∀ h ∈ finish st, SeqOK h := by
  intro h hmem
  unfold finish at hmem
  cases hcur : st.currentHand with
  | none => rw [hcur] at hmem; exact hinv.1 h hmem
  | some cur =>
    rw [hcur] at hmem
    simp only [List.mem_append, List.mem_singleton] at hmem
    rcases hmem with hmem | hmem
    · exact hinv.1 h hmem
    · subst hmem
      exact seqOK_of_actions_eq rfl (hinv.2 cur hcur).1

/-- C3. In every hand that `ParseContent` returns, for every input text, the action at list
index `i` has `Sequence = i`: the sequence numbers are 0..n-1 without gaps or repeats. -/
theorem parseContent_sequence_numbers (content : Str) (h : Hand)
    (hmem : h ∈ (PokerStarsParser.ParseContent content).1) (i : Nat)
    (hi : i < h.Actions.length) :
    (h.Actions.get ⟨i, hi⟩).Sequence = (i : Int) := by
  have hs : SeqOK h :=
    seqOK_finish _ (seqInv_foldl (scanLines content).1 PState.init seqInv_init) h hmem
  unfold SeqOK at hs
  have h1 := congrArg (fun l => l.get? i) hs
  simp only [List.get?_eq_getElem?, List.getElem?_map] at h1
  rw [List.getElem?_eq_getElem hi, List.getElem?_eq_getElem (by simpa using hi)] at h1
  simpa using h1

/-! ## Hand identifiers in file order -/

theorem ids_step (st : PState) (line : Str) :
    (step st line).ids = st.ids ++ (handStartID line).toList := by
  unfold step handStartID
  split
  · rename_i ms hms
    rw [hms]
    cases hcur : st.currentHand <;>
      simp [PState.ids, startHand, hcur, Hand.new]
  · rename_i hms
    rw [hms]
    split
    · simp
    · rename_i cur hcur
      simp [PState.ids, inHand, hcur]

theorem ids_foldl (lines : List Str) (st : PState) :
    (lines.foldl step st).ids = st.ids ++ lines.filterMap handStartID := by
  induction lines generalizing st with
  | nil => simp
  | cons l ls ih =>
    rw [List.foldl_cons, ih, ids_step, List.filterMap_cons]
    cases handStartID l <;> simp

theorem ids_finish (st : PState) : (finish st).map (fun h => h.HandID) = st.ids := by
  unfold finish PState.ids
  cases st.currentHand <;> simp

theorem deliver_of_short (ls : List Str) (hs : ∀ l ∈ ls, utf8Len l < maxScanTokenSize) :
    deliver ls = (ls.map dropCR, none) := by
  induction ls with
  | nil => rfl
  | cons l ls ih =>
    have h1 : ¬ maxScanTokenSize ≤ utf8Len l := Nat.not_le.mpr (hs l (List.mem_cons_self _ _))
    have h2 := ih (fun x hx => hs x (List.mem_cons_of_mem _ hx))
    simp [deliver, h1, h2]

theorem scanLines_of_short (content : Str) (hs : shortLines content) :
    scanLines content = ((rawLines content).map dropCR, none) :=
  deliver_of_short _ hs

/-- Identifiers of the returned hands, for a text without over-long line. -/
theorem parseContent_ids (content : Str) (hwf : shortLines content) :
    (PokerStarsParser.ParseContent content).1.map (fun h => h.HandID) =
      ((rawLines content).map dropCR).filterMap handStartID := by
  unfold PokerStarsParser.ParseContent
  rw [ids_finish, ids_foldl, scanLines_of_short content hwf]
  simp [PState.ids, PState.init]

/-! ## The token limit of the scanner -/

theorem rawLinesAux_append (xs : Str) (hxs : '\n' ∉ xs) (rest cur : Str) :
    rawLinesAux (xs ++ '\n' :: rest) cur = (cur ++ xs) :: rawLinesAux rest [] := by
  induction xs generalizing cur with
  | nil => simp [rawLinesAux]
  | cons c cs ih =>
    have hc : c ≠ '\n' := fun h => hxs (h ▸ List.mem_cons_self _ _)
    have hcs : '\n' ∉ cs := fun h => hxs (List.mem_cons_of_mem _ h)
    simp [rawLinesAux, hc, ih hcs]

theorem utf8Len_replicate_a (n : Nat) : utf8Len (List.replicate n 'a') = n := by
  unfold utf8Len
  rw [List.map_replicate, List.sum_replicate]
  simp [Char.utf8Size]

theorem lf_not_mem_replicate_a (n : Nat) : '\n' ∉ List.replicate n 'a' := by
  intro h
  exact absurd (List.eq_of_mem_replicate h) (by decide)

theorem rawLines_longLineText (n : Nat) :
    rawLines (longLineText n) = [List.replicate n 'a', "PokerStars Hand #1:".toList] := by
  unfold rawLines longLineText
  rw [rawLinesAux_append _ (lf_not_mem_replicate_a n)]
  rw [List.nil_append]
  congr 1

theorem scanLines_longLineText (n : Nat) (hn : maxScanTokenSize ≤ n) :
    scanLines (longLineText n) = ([], some Error.ErrTooLong) := by
  unfold scanLines
  rw [rawLines_longLineText]
  unfold deliver
  rw [utf8Len_replicate_a, if_pos hn]

theorem parseContent_longLineText (n : Nat) (hn : maxScanTokenSize ≤ n) :
    PokerStarsParser.ParseContent (longLineText n) = ([], some Error.ErrTooLong) := by
  unfold PokerStarsParser.ParseContent
  rw [scanLines_longLineText n hn]
  rfl

/-- C6, counterexample. On a text whose first line is 65536 letters long and whose second
line is a hand-start line, `ParseContent` returns the error `ErrTooLong` and no hand. -/
theorem parseContent_fails_on_long_line :
    (PokerStarsParser.ParseContent (longLineText 65536)).2 = some Error.ErrTooLong ∧
    (PokerStarsParser.ParseContent (longLineText 65536)).1 = [] ∧
    "PokerStars Hand #1:".toList ∈ rawLines (longLineText 65536) ∧
    isHandStart "PokerStars Hand #1:".toList = true := by
  have hp := parseContent_longLineText 65536 (by decide)
  refine ⟨?_, ?_, ?_, by decide⟩
  · rw [hp]
  · rw [hp]
  · rw [rawLines_longLineText]
    exact List.mem_cons_of_mem _ (List.mem_singleton.mpr rfl)

/-- C6, amended. When no line of the text reaches the scanner's token limit of 65536 bytes,
`ParseContent` returns no error and every line that matches the hand-start signature
produces a hand with that identifier. -/
theorem parseContent_no_error_of_short_lines (content : Str) (hshort : shortLines content) :
    (PokerStarsParser.ParseContent content).2 = none ∧
    ∀ line ∈ (rawLines content).map dropCR, ∀ id, handStartID line = some id →
      ∃ h ∈ (PokerStarsParser.ParseContent content).1, h.HandID = id := by
  refine ⟨?_, ?_⟩
  · simp [PokerStarsParser.ParseContent, scanLines_of_short content hshort]
  · intro line hline id hid
    have hids := parseContent_ids content hshort
    have hmem : id ∈ ((rawLines content).map dropCR).filterMap handStartID :=
      List.mem_filterMap.mpr ⟨line, hline, hid⟩
    rw [← hids] at hmem
    obtain ⟨h, hh, rfl⟩ := List.mem_map.mp hmem
    exact ⟨h, hh, rfl⟩

/-- C6, witness: the sample text has short lines and parses without error. -/
theorem parseContent_no_error_of_short_lines_witness :
    shortLines sampleText ∧ (PokerStarsParser.ParseContent sampleText).2 = none :=
  ⟨by decide, (parseContent_no_error_of_short_lines sampleText (by decide)).1⟩

/-! ## Raw text -/

theorem raws_finish (st : PState) : (finish st).map (fun h => h.RawText) = st.raws := by
  unfold finish PState.raws
  cases st.currentHand <;> simp

@[simp]
theorem unlines_nil : unlines [] = [] := rfl

@[simp]
theorem unlines_cons (l : Str) (ls : List Str) :
    unlines (l :: ls) = l ++ '\n' :: unlines ls := by
  simp [unlines]

theorem unlines_append (a b : List Str) : unlines (a ++ b) = unlines a ++ unlines b := by
  simp [unlines]

theorem step_of_start (st : PState) {line : Str} (h : isHandStart line = true) :
    ∃ ms, step st line = startHand st line ms := by
  unfold isHandStart at h
  unfold step
  cases hm : handStart.FindStringSubmatch line with
  | none => rw [hm] at h; simp at h
  | some ms => exact ⟨ms, rfl⟩

theorem step_of_not_start {st : PState} {line : Str} (h : isHandStart line = false) :
    step st line = match st.currentHand with
      | none => st
      | some cur => inHand st cur line := by
  unfold isHandStart at h
  unfold step
  cases hm : handStart.FindStringSubmatch line with
  | none => rfl
  | some ms => rw [hm] at h; simp at h

theorem raws_foldl_some (lines : List Str) (st : PState) (cur : Hand)
    (hcur : st.currentHand = some cur) :
    (lines.foldl step st).raws =
      st.hands.map (fun h => h.RawText) ++
        [st.rawHandText ++ unlines (lines.takeWhile (fun x => !isHandStart x))] ++
        (handBlocks lines).map unlines := by
  induction lines generalizing st cur with
  | nil => simp [PState.raws, hcur, handBlocks]
  | cons l ls ih =>
    rw [List.foldl_cons]
    cases hl : isHandStart l with
    | true =>
      obtain ⟨ms, hms⟩ := step_of_start st hl
      rw [hms, ih (startHand st l ms) _ rfl]
      simp [startHand, hcur, handBlocks, hl]
    | false =>
      rw [step_of_not_start hl, hcur, ih (inHand st cur l) _ rfl]
      simp [inHand, handBlocks, hl]

theorem raws_foldl_none (lines : List Str) (st : PState) (hcur : st.currentHand = none) :
    (lines.foldl step st).raws =
      st.hands.map (fun h => h.RawText) ++ (handBlocks lines).map unlines := by
  induction lines generalizing st with
  | nil => simp [PState.raws, hcur, handBlocks]
  | cons l ls ih =>
    rw [List.foldl_cons]
    cases hl : isHandStart l with
    | true =>
      obtain ⟨ms, hms⟩ := step_of_start st hl
      rw [hms, raws_foldl_some ls (startHand st l ms) _ rfl]
      simp [startHand, hcur, handBlocks, hl]
    | false =>
      rw [step_of_not_start hl, hcur, ih st hcur]
      simp [handBlocks, hl]

theorem join_handBlocks (lines : List Str) :
    ((handBlocks lines).map unlines).flatten =
      unlines (lines.dropWhile (fun x => !isHandStart x)) := by
  induction lines with
  | nil => rfl
  | cons l ls ih =>
    cases hl : isHandStart l with
    | true =>
      simp only [handBlocks, hl, if_true, List.map_cons, List.flatten_cons, ih, unlines_cons,
        List.dropWhile_cons, Bool.not_true, Bool.false_eq_true, if_false]
      rw [List.append_assoc, List.cons_append, ← unlines_append,
        List.takeWhile_append_dropWhile]
    | false =>
      simp [handBlocks, hl, ih, List.dropWhile_cons]

theorem unlines_rawLinesAux (s cur : Str) (hcur : '\n' ∉ cur)
    (hend : (s = [] ∧ cur = []) ∨ s.getLast? = some '\n') :
    unlines (rawLinesAux s cur) = cur ++ s := by
  induction s generalizing cur with
  | nil =>
    rcases hend with ⟨_, h⟩ | h
    · subst h; simp [rawLinesAux]
    · simp at h
  | cons c cs ih =>
    have hlast : (c :: cs).getLast? = some '\n' := by
      rcases hend with ⟨h, _⟩ | h
      · simp at h
      · exact h
    by_cases hc : c = '\n'
    · subst hc
      have hcs : (cs = [] ∧ ([] : Str) = []) ∨ cs.getLast? = some '\n' := by
        cases cs with
        | nil => exact Or.inl ⟨rfl, rfl⟩
        | cons d ds => right; simpa [List.getLast?_cons_cons] using hlast
      simp [rawLinesAux, ih [] (by simp) hcs]
    · have hcs : (cs = [] ∧ cur ++ [c] = []) ∨ cs.getLast? = some '\n' := by
        cases cs with
        | nil => simp at hlast; exact absurd hlast hc
        | cons d ds => right; simpa [List.getLast?_cons_cons] using hlast
      have hcur' : '\n' ∉ cur ++ [c] := by
        simp only [List.mem_append, List.mem_singleton, not_or]
        exact ⟨hcur, fun h => hc h.symm⟩
      simp [rawLinesAux, hc, ih (cur ++ [c]) hcur' hcs]

theorem mem_of_mem_rawLinesAux (s cur l : Str) (c : Char) (hl : l ∈ rawLinesAux s cur)
    (hc : c ∈ l) : c ∈ cur ∨ c ∈ s := by
  induction s generalizing cur with
  | nil =>
    unfold rawLinesAux at hl
    split at hl
    · simp at hl
    · simp only [List.mem_singleton] at hl; subst hl; exact Or.inl hc
  | cons d ds ih =>
    unfold rawLinesAux at hl
    split at hl
    · simp only [List.mem_cons] at hl
      rcases hl with hl | hl
      · subst hl; exact Or.inl hc
      · rcases ih [] hl with h | h
        · simp at h
        · exact Or.inr (List.mem_cons_of_mem _ h)
    · rcases ih (cur ++ [d]) hl with h | h
      · simp only [List.mem_append, List.mem_singleton] at h
        rcases h with h | h
        · exact Or.inl h
        · subst h; exact Or.inr (List.mem_cons_self _ _)
      · exact Or.inr (List.mem_cons_of_mem _ h)

theorem dropCR_of_no_cr (l : Str) (h : '\r' ∉ l) : dropCR l = l := by
  unfold dropCR
  split
  · rename_i hl
    exact absurd (List.mem_of_getLast?_eq_some hl) h
  · rfl

theorem map_dropCR_rawLines (content : Str) (hcr : '\r' ∉ content) :
    (rawLines content).map dropCR = rawLines content := by
  have : ∀ l ∈ rawLines content, dropCR l = l := by
    intro l hl
    apply dropCR_of_no_cr
    intro hc
    rcases mem_of_mem_rawLinesAux content [] l '\r' hl hc with h | h
    · simp at h
    · exact hcr h
  calc (rawLines content).map dropCR = (rawLines content).map id := List.map_congr_left this
    _ = rawLines content := List.map_id _

/-- C10. For a text in which every line ends with a line feed, without carriage return and
without over-long line, the `RawText` of the returned hands are the hand blocks of the text
verbatim (each from its hand-start line up to the next hand-start line or the end), and the
text is what precedes the first hand-start line followed by the `RawText`s in order. -/
theorem parseContent_rawText_verbatim (content : Str)
    (hlf : content = [] ∨ content.getLast? = some '\n') (hcr : '\r' ∉ content)
    (hshort : shortLines content) :
    (PokerStarsParser.ParseContent content).1.map (fun h => h.RawText) =
      (handBlocks (rawLines content)).map unlines ∧
    unlines ((rawLines content).takeWhile (fun l => !isHandStart l)) ++
      ((PokerStarsParser.ParseContent content).1.map (fun h => h.RawText)).flatten = content := by
  have hraws : (PokerStarsParser.ParseContent content).1.map (fun h => h.RawText) =
      (handBlocks (rawLines content)).map unlines := by
    unfold PokerStarsParser.ParseContent
    rw [raws_finish, scanLines_of_short content hshort, map_dropCR_rawLines content hcr,
      raws_foldl_none _ _ rfl]
    simp [PState.init]
  refine ⟨hraws, ?_⟩
  rw [hraws, join_handBlocks, ← unlines_append, List.takeWhile_append_dropWhile]
  have := unlines_rawLinesAux content [] (by simp)
    (hlf.imp (fun h => ⟨h, rfl⟩) id)
  simpa [rawLines] using this

/-- C10, witness: the sample text ends with a line feed, has no carriage return and
no over-long line; its raw text is its single hand block. -/
theorem parseContent_rawText_verbatim_witness :
    (sampleText = [] ∨ sampleText.getLast? = some '\n') ∧ '\r' ∉ sampleText ∧
    shortLines sampleText ∧
    (PokerStarsParser.ParseContent sampleText).1.map (fun h => h.RawText) =
      (handBlocks (rawLines sampleText)).map unlines :=
  ⟨by decide, by decide, by decide,
    (parseContent_rawText_verbatim sampleText (by decide) (by decide) (by decide)).1⟩

/-! ## The manager -/

theorem newManager_parsers :
    NewManager.parsers = [(PokerStarsParser.GetSiteName, NewPokerStarsParser)] := rfl

/-- C9. For a text that does not contain the signature `PokerStars Hand #` (it matches no
registered parser), `ParseContent` of the manager built by `NewManager` returns an empty
hand list, an empty site name and no error. -/
theorem manager_parseContent_unrecognized (content : Str)
    (h : contains content "PokerStars Hand #".toList = false) :
    NewManager.ParseContent content = ([], [], none) := by
  unfold Manager.ParseContent
  rw [newManager_parsers]
  have hc : NewPokerStarsParser.CanParse content = false := h
  simp [tryParsers, hc]

/-- C9, witness: a text without the signature. -/
theorem manager_parseContent_unrecognized_witness :
    contains "hello world\n".toList "PokerStars Hand #".toList = false ∧
    NewManager.ParseContent "hello world\n".toList = ([], [], none) :=
  ⟨by decide, manager_parseContent_unrecognized "hello world\n".toList (by decide)⟩

/-- C4, the code at the failing input. `readFileContent` returns the empty text without
reading: for a file whose content is a PokerStars hand, `Manager.ParseFile` returns no hand
and no site name, while `Manager.ParseContent` on the content of the file returns one hand
with site name "pokerstars". -/
theorem manager_parseFile_ignores_file :
    sampleFiles "hands.txt".toList = some sampleText ∧
    NewManager.ParseFile sampleFiles "hands.txt".toList = ([], [], none) ∧
    (NewManager.ParseContent sampleText).1.length = 1 ∧
    (NewManager.ParseContent sampleText).2.1 = "pokerstars".toList ∧
    (NewManager.ParseContent sampleText).2.2 = none := by
  refine ⟨rfl, ?_, ?_, ?_, ?_⟩ <;> decide

/-! ## Concrete scenarios -/

/-- C1, the code at the failing input. In a text of two hands in each of which the hero
posts 1, calls 5 and collects 12, the hand closed by the end of the input has `Result` 6,
but the hand closed by the next hand-start line keeps `Result` 12: what the hero invested
in it (6, by the code's own `invested`) is not subtracted. -/
theorem parseContent_result_not_finalized_before_next_hand :
    (PokerStarsParser.ParseContent twoHandsText).2 = none ∧
    (PokerStarsParser.ParseContent twoHandsText).1.map (fun h => h.HandID) =
      ["1".toList, "2".toList] ∧
    (PokerStarsParser.ParseContent twoHandsText).1.map (fun h => h.HeroName) =
      ["Hero".toList, "Hero".toList] ∧
    (PokerStarsParser.ParseContent twoHandsText).1.map
      (fun h => h.Actions.map (fun a => (a.PlayerName, a.Amount))) =
      [[("Hero".toList, F64.ofNat 1), ("Hero".toList, F64.ofNat 5)],
       [("Hero".toList, F64.ofNat 1), ("Hero".toList, F64.ofNat 5)]] ∧
    (PokerStarsParser.ParseContent twoHandsText).1.map invested =
      [F64.ofNat 6, F64.ofNat 6] ∧
    (PokerStarsParser.ParseContent twoHandsText).1.map (fun h => h.Result) =
      [F64.ofNat 12, F64.ofNat 6] := by
  refine ⟨?_, ?_, ?_, ?_, ?_, ?_⟩ <;> decide

/-- C3, witness: the second action of the first hand of the two-hand text has sequence
number 1. -/
theorem parseContent_sequence_numbers_witness :
    ∃ h, h ∈ (PokerStarsParser.ParseContent twoHandsText).1 ∧
      ∃ hi : 1 < h.Actions.length, (h.Actions.get ⟨1, hi⟩).Sequence = 1 :=
  ⟨(PokerStarsParser.ParseContent twoHandsText).1.headD (Hand.new []), by decide, by decide,
    parseContent_sequence_numbers twoHandsText _ (by decide) 1 (by decide)⟩

/-! ## First matches of the patterns -/

theorem head?_append_of_head? {α : Type} {l1 l2 : List α} {a : α} (h : l1.head? = some a) :
    (l1 ++ l2).head? = some a := by
  cases l1 with
  | nil => simp at h
  | cons x xs => simpa using h

theorem head?_flatMap_of_head? {α β : Type} {l : List α} {f : α → List β} {a : α} {b : β}
    (h : l.head? = some a) (hf : (f a).head? = some b) : (l.flatMap f).head? = some b := by
  cases l with
  | nil => simp at h
  | cons x xs =>
    simp only [List.head?_cons, Option.some.injEq] at h
    subst h
    rw [List.flatMap_cons]
    exact head?_append_of_head? hf

theorem fst_seq {a b : Re} {pos : Nat} {xs ys R : Str} {c c1 c2 : List Str}
    (ha : Fst a pos xs (ys ++ R) c c1) (hb : Fst b (pos + xs.length) ys R c1 c2) :
    Fst (.seq a b) pos (xs ++ ys) R c c2 := by
  unfold Fst at *
  rw [List.append_assoc, List.length_append, ← Nat.add_assoc]
  simp only [Re.run]
  exact head?_flatMap_of_head? ha hb

theorem fst_eps (pos : Nat) (R : Str) (c : List Str) : Fst .eps pos [] R c c := by
  simp [Fst, Re.run]

theorem fst_bol (R : Str) (c : List Str) : Fst .bol 0 [] R c c := by
  simp [Fst, Re.run]

theorem fst_cls {p : Char → Bool} {x : Char} (hx : p x = true) (pos : Nat) (R : Str)
    (c : List Str) : Fst (.cls p) pos [x] R c c := by
  simp [Fst, Re.run, hx]

theorem fst_chr (x : Char) (pos : Nat) (R : Str) (c : List Str) :
    Fst (Re.chr x) pos [x] R c c :=
  fst_cls (by simp) pos R c

theorem fst_lit (w : Str) (pos : Nat) (R : Str) (c : List Str) :
    Fst (Re.lit w) pos w R c c := by
  induction w generalizing pos with
  | nil => exact fst_eps pos R c
  | cons x xs ih =>
    have h := fst_seq (fst_chr x pos (xs ++ R) c) (ih (pos + [x].length))
    simpa [Re.lit] using h

theorem run_cls_of_stopsAt {p : Char → Bool} {R : Str} (hR : StopsAt p R) (pos : Nat)
    (c : List Str) : Re.run (.cls p) { pos := pos, rest := R, caps := c } = [] := by
  cases R with
  | nil => simp [Re.run]
  | cons x xs => simp [Re.run, hR x rfl]

theorem starGreedy_cls {p : Char → Bool} (xs R : Str) (hxs : ∀ x ∈ xs, p x = true)
    (hR : StopsAt p R) (fuel pos : Nat) (c : List Str) (hfuel : xs.length ≤ fuel) :
    (starGreedy (fun t => Re.run (.cls p) t) fuel
      { pos := pos, rest := xs ++ R, caps := c }).head? =
      some { pos := pos + xs.length, rest := R, caps := c } := by
  induction xs generalizing fuel pos with
  | nil =>
    cases fuel with
    | zero => simp [starGreedy]
    | succ f => simp [starGreedy, run_cls_of_stopsAt hR]
  | cons x xs ih =>
    cases fuel with
    | zero => simp at hfuel
    | succ f =>
      have hx : p x = true := hxs x (List.mem_cons_self _ _)
      have h := ih (fun y hy => hxs y (List.mem_cons_of_mem _ hy)) f (pos + 1)
        (by simpa using hfuel)
      have hstep : Re.run (.cls p) { pos := pos, rest := x :: (xs ++ R), caps := c } =
          [{ pos := pos + 1, rest := xs ++ R, caps := c }] := by
        simp [Re.run, hx]
      have hgoal : starGreedy (fun t => Re.run (.cls p) t) (f + 1)
          { pos := pos, rest := x :: xs ++ R, caps := c } =
          starGreedy (fun t => Re.run (.cls p) t) f
            { pos := pos + 1, rest := xs ++ R, caps := c } ++
          [{ pos := pos, rest := x :: (xs ++ R), caps := c }] := by
        rw [List.cons_append, starGreedy]
        simp only [hstep]
        simp
      rw [hgoal]
      refine head?_append_of_head? ?_
      rw [h]
      simp [Nat.add_assoc, Nat.add_comm 1]

theorem fst_star_cls {p : Char → Bool} {xs R : Str} (hxs : ∀ x ∈ xs, p x = true)
    (hR : StopsAt p R) (pos : Nat) (c : List Str) : Fst (.star (.cls p)) pos xs R c c := by
  unfold Fst
  simp only [Re.run]
  exact starGreedy_cls xs R hxs hR _ pos c (by simp)

theorem fst_plus_cls {p : Char → Bool} {xs R : Str} (hne : xs ≠ []) (hxs : ∀ x ∈ xs, p x = true)
    (hR : StopsAt p R) (pos : Nat) (c : List Str) : Fst (Re.plus (.cls p)) pos xs R c c := by
  cases xs with
  | nil => exact absurd rfl hne
  | cons x xs =>
    have h1 := fst_cls (hxs x (List.mem_cons_self _ _)) pos (xs ++ R) c
    have h2 := fst_star_cls (fun y hy => hxs y (List.mem_cons_of_mem _ hy)) hR
      (pos + [x].length) c
    exact fst_seq h1 h2

theorem take_length_sub (xs R : Str) : (xs ++ R).take ((xs ++ R).length - R.length) = xs := by
  simp

theorem fst_grp {a : Re} {pos : Nat} {xs R : Str} {c c1 : List Str} (i : Nat)
    (ha : Fst a pos xs R c c1) : Fst (.grp i a) pos xs R c (c1.set i xs) := by
  unfold Fst at *
  simp only [Re.run, List.head?_map, ha, Option.map_some', take_length_sub]

theorem fst_alt_left {a b : Re} {pos : Nat} {xs R : Str} {c c1 : List Str}
    (ha : Fst a pos xs R c c1) : Fst (.alt a b) pos xs R c c1 := by
  unfold Fst at *
  simp only [Re.run]
  exact head?_append_of_head? ha

theorem fst_alt_right {a b : Re} {pos : Nat} {xs R : Str} {c c1 : List Str}
    (ha : Re.run a { pos := pos, rest := xs ++ R, caps := c } = [])
    (hb : Fst b pos xs R c c1) : Fst (.alt a b) pos xs R c c1 := by
  unfold Fst at *
  simp only [Re.run, ha, List.nil_append]
  exact hb

theorem findFrom_of_head? {r : Re} {n pos : Nat} {s : Str} {t : MState}
    (h : (Re.run r { pos := pos, rest := s, caps := List.replicate (n + 1) [] }).head? = some t) :
    Re.findFrom r n pos s = some (t.caps.set 0 (s.take (s.length - t.rest.length))) := by
  cases s with
  | nil =>
    unfold Re.findFrom
    cases hr : Re.run r { pos := pos, rest := [], caps := List.replicate (n + 1) [] } with
    | nil => rw [hr] at h; simp at h
    | cons u us => rw [hr] at h; simp at h; subst h; simp
  | cons x xs =>
    unfold Re.findFrom
    cases hr : Re.run r { pos := pos, rest := x :: xs, caps := List.replicate (n + 1) [] } with
    | nil => rw [hr] at h; simp at h
    | cons u us => rw [hr] at h; simp at h; subst h; simp

theorem stopsAt_nil (p : Char → Bool) : StopsAt p [] := by
  intro c h; simp at h

theorem stopsAt_cons {p : Char → Bool} {x : Char} (hx : p x = false) (R : Str) :
    StopsAt p (x :: R) := by
  intro c h; simp at h; subst h; exact hx

theorem fst_actionVerbs {v : Str} (hv : v ∈ actionVerbList) (pos : Nat) (R : Str)
    (c : List Str) : Fst actionVerbs pos v R c c := by
  have hlit := fst_lit v pos R c
  simp only [actionVerbList, List.mem_cons, List.mem_singleton, List.not_mem_nil,
    or_false] at hv
  unfold actionVerbs
  rcases hv with h | h | h | h | h | h | h | h <;> subst h
  · exact fst_alt_left hlit
  · exact fst_alt_right (by simp [Re.run, Re.lit, Re.chr]) (fst_alt_left hlit)
  · exact fst_alt_right (by simp [Re.run, Re.lit, Re.chr]) (fst_alt_right (by simp [Re.run, Re.lit, Re.chr]) (fst_alt_left hlit))
  · exact fst_alt_right (by simp [Re.run, Re.lit, Re.chr]) (fst_alt_right (by simp [Re.run, Re.lit, Re.chr]) (fst_alt_right (by simp [Re.run, Re.lit, Re.chr]) (fst_alt_left hlit)))
  · exact fst_alt_right (by simp [Re.run, Re.lit, Re.chr]) (fst_alt_right (by simp [Re.run, Re.lit, Re.chr]) (fst_alt_right (by simp [Re.run, Re.lit, Re.chr]) (fst_alt_right (by simp [Re.run, Re.lit, Re.chr]) (fst_alt_left hlit))))
  · exact fst_alt_right (by simp [Re.run, Re.lit, Re.chr]) (fst_alt_right (by simp [Re.run, Re.lit, Re.chr]) (fst_alt_right (by simp [Re.run, Re.lit, Re.chr]) (fst_alt_right (by simp [Re.run, Re.lit, Re.chr]) (fst_alt_right (by simp [Re.run, Re.lit, Re.chr]) (fst_alt_left hlit)))))
  · exact fst_alt_right (by simp [Re.run, Re.lit, Re.chr]) (fst_alt_right (by simp [Re.run, Re.lit, Re.chr]) (fst_alt_right (by simp [Re.run, Re.lit, Re.chr]) (fst_alt_right (by simp [Re.run, Re.lit, Re.chr]) (fst_alt_right (by simp [Re.run, Re.lit, Re.chr]) (fst_alt_right (by simp [Re.run, Re.lit, Re.chr]) (fst_alt_left hlit))))))
  · exact fst_alt_right (by simp [Re.run, Re.lit, Re.chr]) (fst_alt_right (by simp [Re.run, Re.lit, Re.chr]) (fst_alt_right (by simp [Re.run, Re.lit, Re.chr]) (fst_alt_right (by simp [Re.run, Re.lit, Re.chr]) (fst_alt_right (by simp [Re.run, Re.lit, Re.chr]) (fst_alt_right (by simp [Re.run, Re.lit, Re.chr]) (fst_alt_right (by simp [Re.run, Re.lit, Re.chr]) hlit))))))

theorem run_seq_of_nil {a b : Re} {s : MState} (h : Re.run a s = []) :
    Re.run (.seq a b) s = [] := by
  show (Re.run a s).flatMap (fun t => Re.run b t) = []
  rw [h]; rfl

theorem run_grp_of_nil {a : Re} {s : MState} (i : Nat) (h : Re.run a s = []) :
    Re.run (.grp i a) s = [] := by
  show (Re.run a s).map _ = []
  rw [h]; rfl

theorem decimal_split {X : Str} (h : isDecimalLit X = true) :
    ∃ ip : Str, ip ≠ [] ∧ (∀ c ∈ ip, Re.isDigit c = true) ∧
      (X = ip ∨ ∃ fp : Str, fp ≠ [] ∧ (∀ c ∈ fp, Re.isDigit c = true) ∧ X = ip ++ '.' :: fp) := by
  unfold isDecimalLit at h
  simp only [Bool.and_eq_true, Bool.or_eq_true, Bool.not_eq_true', List.isEmpty_eq_true,
    beq_iff_eq, List.all_eq_true] at h
  obtain ⟨hip, hr⟩ := h
  have hsplit : X = X.takeWhile Re.isDigit ++ X.dropWhile Re.isDigit :=
    (List.takeWhile_append_dropWhile _ _).symm
  refine ⟨X.takeWhile Re.isDigit, ?_, fun c hc => (List.mem_takeWhile_imp hc), ?_⟩
  · intro h0; rw [h0] at hip; simp at hip
  · rcases hr with hr | ⟨⟨hh, hne⟩, hall⟩
    · left
      rw [hr, List.append_nil] at hsplit
      exact hsplit
    · right
      cases hd : X.dropWhile Re.isDigit with
      | nil => rw [hd] at hh; simp at hh
      | cons d ds =>
        rw [hd] at hh hne hall
        simp only [List.head?_cons, Option.some.injEq] at hh
        subst hh
        refine ⟨ds, ?_, hall, ?_⟩
        · intro h0; rw [h0] at hne; simp at hne
        · rw [hd] at hsplit; exact hsplit

theorem decimal_head {X : Str} (h : isDecimalLit X = true) :
    ∃ d X', X = d :: X' ∧ Re.isDigit d = true := by
  obtain ⟨ip, hne, hdig, hX⟩ := decimal_split h
  cases ip with
  | nil => exact absurd rfl hne
  | cons d ds =>
    rcases hX with hX | ⟨fp, _, _, hX⟩
    · exact ⟨d, ds, hX, hdig d (List.mem_cons_self _ _)⟩
    · exact ⟨d, ds ++ '.' :: fp, by simpa using hX, hdig d (List.mem_cons_self _ _)⟩

theorem fst_decimal {X R : Str} (hX : isDecimalLit X = true)
    (hR : StopsAt Re.isDigitOrDot R) (pos : Nat) (c : List Str) :
    Fst Re.decimal pos X R c c := by
  have hRd : StopsAt Re.isDigit R := by
    intro x hx
    have := hR x hx
    simp only [Re.isDigitOrDot, Bool.or_eq_false_iff] at this
    exact this.1
  have hRdot : Re.run (Re.chr '.') { pos := pos + X.length, rest := R, caps := c } = [] := by
    apply run_cls_of_stopsAt
    intro x hx
    have := hR x hx
    simp only [Re.isDigitOrDot, Bool.or_eq_false_iff] at this
    exact this.2
  obtain ⟨ip, hne, hdig, hcase⟩ := decimal_split hX
  unfold Re.decimal
  rcases hcase with h | ⟨fp, hfne, hfdig, h⟩
  · subst h
    have h1 : Fst (Re.plus Re.digit) pos X ([] ++ R) c c := fst_plus_cls hne hdig hRd pos c
    have h2 : Fst (Re.opt (.seq (Re.chr '.') (Re.plus Re.digit))) (pos + X.length) [] R c c := by
      refine fst_alt_right ?_ (fst_eps _ R c)
      exact run_seq_of_nil hRdot
    simpa using fst_seq h1 h2
  · subst h
    have h1 : Fst (Re.plus Re.digit) pos ip (('.' :: fp) ++ R) c c :=
      fst_plus_cls hne hdig (stopsAt_cons (by decide) _) pos c
    have h2 : Fst (Re.opt (.seq (Re.chr '.') (Re.plus Re.digit))) (pos + ip.length)
        ('.' :: fp) R c c :=
      fst_alt_left (fst_seq (fst_chr '.' _ (fp ++ R) c) (fst_plus_cls hfne hfdig hRd _ c))
    exact fst_seq h1 h2

theorem stopsAt_decimal_space {X R : Str} (hX : isDecimalLit X = true) :
    StopsAt Re.isReSpace (X ++ R) := by
  obtain ⟨d, X', h, hd⟩ := decimal_head hX
  subst h
  apply stopsAt_cons
  revert hd
  simp only [Re.isDigit, Re.isReSpace]
  intro hd
  by_contra hsp
  simp only [Bool.not_eq_false, Bool.or_eq_true, beq_iff_eq] at hsp
  rcases hsp with (((h | h) | h) | h) | h <;> subst h <;> revert hd <;> decide

theorem fst_toPart {Y : Str} (hY : isDecimalLit Y = true) (pos : Nat) (c : List Str) :
    Fst (Re.opt (Re.cat [Re.lit "to".toList, Re.plus Re.space, .grp 4 Re.decimal])) pos
      ("to ".toList ++ Y) [] c (c.set 4 Y) := by
  have h3 : Fst (.grp 4 Re.decimal) (pos + 2 + 1) Y [] c (c.set 4 Y) :=
    fst_grp 4 (fst_decimal hY (stopsAt_nil _) _ c)
  have h2 : Fst (Re.plus Re.space) (pos + 2) [' '] (Y ++ []) c c :=
    fst_plus_cls (by simp) (by simp [Re.isReSpace]) (stopsAt_decimal_space hY) _ c
  have h1 : Fst (Re.lit "to".toList) pos "to".toList ([' '] ++ Y ++ []) c c := fst_lit _ _ _ _
  have h23 := fst_seq h2 h3
  have h123 : Fst (.seq (Re.lit "to".toList) (.seq (Re.plus Re.space) (.grp 4 Re.decimal))) pos
      ("to".toList ++ ([' '] ++ Y)) [] c (c.set 4 Y) :=
    fst_seq (by simpa using h1) (by simpa using h23)
  exact fst_alt_left (by simpa [Re.cat] using h123)

theorem run_decimal_nil {R : Str} (hR : StopsAt Re.isDigit R) (pos : Nat) (c : List Str) :
    Re.run Re.decimal { pos := pos, rest := R, caps := c } = [] :=
  run_seq_of_nil (run_seq_of_nil (run_cls_of_stopsAt hR pos c))

theorem run_toPart_nil {R : Str} (hR : StopsAt (fun x => x == 't') R) (pos : Nat)
    (c : List Str) :
    Re.run (Re.cat [Re.lit "to".toList, Re.plus Re.space, .grp 4 Re.decimal])
      { pos := pos, rest := R, caps := c } = [] :=
  run_seq_of_nil (run_seq_of_nil (run_cls_of_stopsAt hR pos c))

theorem fst_actionTail (amt toAmt : Option Str)
    (hamt : ∀ X, amt = some X → isDecimalLit X = true)
    (hto : ∀ Y, toAmt = some Y → isDecimalLit Y = true) (pos : Nat) (c : List Str) :
    Fst actionTail pos (amtPart amt ++ toPart toAmt) [] c (capsAfter c amt toAmt) := by
  unfold actionTail
  cases amt with
  | some X =>
    have hX := hamt X rfl
    cases toAmt with
    | some Y =>
      have hY := hto Y rfl
      show Fst _ pos ([' '] ++ (X ++ ([' '] ++ ("to ".toList ++ Y)))) [] c ((c.set 3 X).set 4 Y)
      exact fst_seq
        (fst_star_cls (by simp [Re.isReSpace]) (by simpa using stopsAt_decimal_space hX) pos c)
        (fst_seq
          (fst_alt_left (fst_grp 3 (fst_decimal hX (stopsAt_cons (by decide) _) _ c)))
          (fst_seq
            (fst_star_cls (by simp [Re.isReSpace]) (stopsAt_cons (by decide) _) _ _)
            (fst_toPart hY _ _)))
    | none =>
      show Fst _ pos ([' '] ++ (X ++ ([] ++ []))) [] c (c.set 3 X)
      exact fst_seq
        (fst_star_cls (by simp [Re.isReSpace]) (by simpa using stopsAt_decimal_space (R := []) hX) pos c)
        (fst_seq
          (fst_alt_left (fst_grp 3 (fst_decimal hX (stopsAt_nil _) _ c)))
          (fst_seq
            (fst_star_cls (by simp) (stopsAt_nil _) _ _)
            (fst_alt_right (run_toPart_nil (stopsAt_nil _) _ _) (fst_eps _ _ _))))
  | none =>
    cases toAmt with
    | some Y =>
      have hY := hto Y rfl
      show Fst _ pos ([' '] ++ ([] ++ ([] ++ ("to ".toList ++ Y)))) [] c (c.set 4 Y)
      exact fst_seq
        (fst_star_cls (by simp [Re.isReSpace]) (stopsAt_cons (by decide) _) pos c)
        (fst_seq
          (fst_alt_right (run_grp_of_nil 3 (run_decimal_nil (stopsAt_cons (by decide) _) _ _))
            (fst_eps _ _ _))
          (fst_seq
            (fst_star_cls (by simp) (stopsAt_cons (by decide) _) _ _)
            (fst_toPart hY _ _)))
    | none =>
      show Fst _ pos ([] ++ ([] ++ ([] ++ []))) [] c c
      exact fst_seq
        (fst_star_cls (by simp) (stopsAt_nil _) pos c)
        (fst_seq
          (fst_alt_right (run_grp_of_nil 3 (run_decimal_nil (stopsAt_nil _) _ _))
            (fst_eps _ _ _))
          (fst_seq
            (fst_star_cls (by simp) (stopsAt_nil _) _ _)
            (fst_alt_right (run_toPart_nil (stopsAt_nil _) _ _) (fst_eps _ _ _))))

theorem stopsAt_verb {v : Str} (hv : v ∈ actionVerbList) (R : Str) :
    StopsAt Re.isReSpace (v ++ R) := by
  simp only [actionVerbList, List.mem_cons, List.mem_singleton, List.not_mem_nil,
    or_false] at hv
  rcases hv with h | h | h | h | h | h | h | h <;> subst h <;>
    exact stopsAt_cons (by decide) _

theorem actionLine_re_eq :
    actionLine.re = .seq .bol (.seq (.grp 1 (Re.plus (Re.notChr ':'))) (.seq (Re.chr ':')
      (.seq (Re.plus Re.space) (.seq (.grp 2 actionVerbs) actionTail)))) := rfl

/-- The action pattern on a line `<name>: <verb><tl><R>`, when the first match of the part
of the pattern after the verb consumes `tl`. -/
theorem actionLine_find_of_tail (name verb tl R : Str) (c' : List Str) (hname : name ≠ [])
    (hcolon : ':' ∉ name) (hv : verb ∈ actionVerbList)
    (htail : ∀ pos, Fst actionTail pos tl R
      (((List.replicate 5 []).set 1 name).set 2 verb) c') :
    actionLine.FindStringSubmatch (name ++ (": ".toList ++ (verb ++ (tl ++ R)))) =
      some (c'.set 0 (name ++ (": ".toList ++ (verb ++ tl)))) := by
  have h : Fst actionLine.re 0
      ([] ++ (name ++ ([':'] ++ ([' '] ++ (verb ++ tl))))) R (List.replicate 5 []) c' := by
    rw [actionLine_re_eq]
    refine fst_seq (fst_bol _ _) (fst_seq (fst_grp 1 (fst_plus_cls hname ?_ ?_ _ _))
      (fst_seq (fst_chr ':' _ _ _) (fst_seq (fst_plus_cls (by simp) (by simp [Re.isReSpace]) ?_ _ _)
        (fst_seq (fst_grp 2 (fst_actionVerbs hv _ _ _)) (htail _)))))
    · intro x hx
      have : x ≠ ':' := fun h => hcolon (h ▸ hx)
      simpa [Re.notChr] using this
    · exact stopsAt_cons (by simp) _
    · simpa using stopsAt_verb hv (tl ++ R)
  unfold Fst at h
  have e : name ++ (": ".toList ++ (verb ++ (tl ++ R))) =
      [] ++ (name ++ ([':'] ++ ([' '] ++ (verb ++ tl)))) ++ R := by
    simp
  unfold Regexp.FindStringSubmatch
  have hn : actionLine.ngroups + 1 = 5 := rfl
  rw [e, findFrom_of_head? (hn ▸ h)]
  simp only [take_length_sub]
  simp

/-- The submatches of the action pattern on an action line. -/
theorem actionLine_find (name verb : Str) (amt toAmt : Option Str) (hname : name ≠ [])
    (hcolon : ':' ∉ name) (hv : verb ∈ actionVerbList)
    (hamt : ∀ X, amt = some X → isDecimalLit X = true)
    (hto : ∀ Y, toAmt = some Y → isDecimalLit Y = true) :
    actionLine.FindStringSubmatch (mkActionLine name verb amt toAmt) =
      some [mkActionLine name verb amt toAmt, name, verb, amt.getD [], toAmt.getD []] := by
  have h := actionLine_find_of_tail name verb (amtPart amt ++ toPart toAmt) [] _ hname hcolon hv
    (fun pos => fst_actionTail amt toAmt hamt hto pos _)
  rw [List.append_nil] at h
  unfold mkActionLine
  rw [h]
  cases amt <;> cases toAmt <;> simp [capsAfter, List.replicate]

/-! ## Action lines inside a hand -/

theorem step_appends_action (st : PState) (cur : Hand) (line : Str) (m : List Str)
    (hcur : st.currentHand = some cur) (hstart : isHandStart line = false)
    (hm : actionLine.FindStringSubmatch line = some m) :
    AppendsAction st cur line
      { PlayerName := trimSpace (m.getD 1 []), Action := m.getD 2 [], Amount := actionAmount m,
        Street := nextStreet line st.currentStreet, Sequence := st.actionSequence } := by
  unfold AppendsAction
  rw [step_of_not_start hstart, hcur]
  refine ⟨_, rfl, ?_⟩
  simp only [inHand, addCollected_Actions, setPot_Actions]
  unfold addAction
  rw [hm]
  simp

theorem mem_of_contains {s sub : Str} (h : contains s sub = true) : ∀ c ∈ sub, c ∈ s := by
  induction s with
  | nil =>
    unfold contains at h
    intro c hc
    simp only [List.isEmpty_eq_true] at h
    subst h
    simp at hc
  | cons x xs ih =>
    unfold contains at h
    simp only [Bool.or_eq_true] at h
    intro c hc
    rcases h with h | h
    · exact (List.isPrefixOf_iff_prefix.mp h).subset hc
    · exact List.mem_cons_of_mem _ (ih h c hc)

theorem nextStreet_of_no_star {line : Str} (h : '*' ∉ line) (street : Str) :
    nextStreet line street = street := by
  have hno : ∀ sub : Str, '*' ∈ sub → contains line sub = false := by
    intro sub hsub
    cases hc : contains line sub with
    | false => rfl
    | true => exact absurd (mem_of_contains hc '*' hsub) h
  unfold nextStreet
  rw [hno _ (by decide), hno _ (by decide), hno _ (by decide), hno _ (by decide)]
  simp

theorem decimal_chars {X : Str} (hX : isDecimalLit X = true) :
    ∀ c ∈ X, Re.isDigitOrDot c = true := by
  obtain ⟨ip, _, hip, hcase⟩ := decimal_split hX
  intro c hc
  rcases hcase with h | ⟨fp, _, hfp, h⟩
  · subst h; simp [Re.isDigitOrDot, hip c hc]
  · subst h
    simp only [List.mem_append, List.mem_cons] at hc
    rcases hc with hc | hc | hc
    · simp [Re.isDigitOrDot, hip c hc]
    · subst hc; decide
    · simp [Re.isDigitOrDot, hfp c hc]

theorem star_not_mem_actionLine (name verb : Str) (amt toAmt : Option Str)
    (hstar : '*' ∉ name) (hv : verb ∈ actionVerbList)
    (hamt : ∀ X, amt = some X → isDecimalLit X = true)
    (hto : ∀ Y, toAmt = some Y → isDecimalLit Y = true) :
    '*' ∉ mkActionLine name verb amt toAmt := by
  have hverb : '*' ∉ verb := by
    simp only [actionVerbList, List.mem_cons, List.mem_singleton, List.not_mem_nil,
      or_false] at hv
    rcases hv with h | h | h | h | h | h | h | h <;> subst h <;> decide
  have hdec : ∀ X, isDecimalLit X = true → '*' ∉ X := by
    intro X hX hmem
    have := decimal_chars hX '*' hmem
    revert this; decide
  have h1 : '*' ∉ amtPart amt := by
    cases amt with
    | none => simp [amtPart]
    | some X =>
      have := hdec X (hamt X rfl)
      simp only [amtPart, List.mem_cons, not_or]
      exact ⟨by decide, this⟩
  have h2 : '*' ∉ toPart toAmt := by
    cases toAmt with
    | none => simp [toPart]
    | some Y =>
      have := hdec Y (hto Y rfl)
      simp only [toPart, List.mem_append, not_or]
      exact ⟨by decide, this⟩
  simp only [mkActionLine, List.mem_append, not_or]
  exact ⟨hstar, by decide, hverb, h1, h2⟩

theorem decimal_ne_nil {X : Str} (hX : isDecimalLit X = true) : X ≠ [] := by
  obtain ⟨d, X', h, _⟩ := decimal_head hX
  subst h; simp

/-- An action line `<name>: <verb>[ <amount>][ to <amount>]` inside a hand appends the
action with the "to" amount if there is one, else the plain amount if there is one, else
zero. -/
theorem step_action_line (st : PState) (cur : Hand) (name verb : Str) (amt toAmt : Option Str)
    (hcur : st.currentHand = some cur) (hname : name ≠ []) (hcolon : ':' ∉ name)
    (hv : verb ∈ actionVerbList) (hamt : ∀ X, amt = some X → isDecimalLit X = true)
    (hto : ∀ Y, toAmt = some Y → isDecimalLit Y = true)
    (hstart : isHandStart (mkActionLine name verb amt toAmt) = false) :
    AppendsAction st cur (mkActionLine name verb amt toAmt)
      (actionOf st (mkActionLine name verb amt toAmt) name verb
        (lineAmount amt toAmt)) := by
  have h := step_appends_action st cur _ _ hcur hstart
    (actionLine_find name verb amt toAmt hname hcolon hv hamt hto)
  have e : actionAmount
      [mkActionLine name verb amt toAmt, name, verb, amt.getD [], toAmt.getD []] =
      lineAmount amt toAmt := by
    cases amt with
    | none =>
      cases toAmt with
      | none => simp [actionAmount, lineAmount]
      | some Y => simp [actionAmount, lineAmount, decimal_ne_nil (hto Y rfl)]
    | some X =>
      cases toAmt with
      | none => simp [actionAmount, lineAmount, decimal_ne_nil (hamt X rfl)]
      | some Y => simp [actionAmount, lineAmount, decimal_ne_nil (hto Y rfl)]
  rw [e] at h
  exact h

theorem raiseLine_eq (name verb X Y : Str) :
    raiseLine name verb X Y = mkActionLine name verb (some X) (some Y) := by
  simp [raiseLine, mkActionLine, amtPart, toPart]

theorem betLine_eq (name verb X : Str) :
    betLine name verb X = mkActionLine name verb (some X) none := by
  simp [betLine, mkActionLine, amtPart, toPart]

theorem plainLine_eq (name verb : Str) :
    plainLine name verb = mkActionLine name verb none none := by
  simp [plainLine, mkActionLine, amtPart, toPart]

/-! ## Numeric fields -/

theorem parseFloat_error_cases (s : Str) :
    ((ParseFloat s).2 = some .ErrRange → (ParseFloat s).1 = .inf false) ∧
    ((ParseFloat s).2 = some .ErrSyntax → (ParseFloat s).1 = F64.zero) := by
  unfold ParseFloat
  simp only
  split
  · simp
  · split
    · split <;> simp_all
    · split
      · split <;> simp_all
      · simp

theorem fst_actionTail_junk (junk : Str) (hj : startsWithJunk junk = true) (pos : Nat)
    (c : List Str) : Fst actionTail pos [' '] junk c c := by
  cases junk with
  | nil => simp [startsWithJunk] at hj
  | cons j js =>
    simp only [startsWithJunk, Bool.and_eq_true, Bool.not_eq_true', bne_iff_ne, ne_eq] at hj
    obtain ⟨⟨hsp, hdig⟩, ht⟩ := hj
    unfold actionTail
    show Fst _ pos ([' '] ++ ([] ++ ([] ++ []))) (j :: js) c c
    exact fst_seq
      (fst_star_cls (by simp [Re.isReSpace]) (stopsAt_cons hsp _) pos c)
      (fst_seq
        (fst_alt_right (run_grp_of_nil 3 (run_decimal_nil (stopsAt_cons hdig _) _ _))
          (fst_eps _ _ _))
        (fst_seq
          (fst_star_cls (by simp) (stopsAt_cons hsp _) _ _)
          (fst_alt_right (run_toPart_nil (stopsAt_cons (by simpa using ht) _) _ _)
            (fst_eps _ _ _))))

/-- An action line whose amount token is not numeric matches the action pattern up to the
blank after the verb, without amount. -/
theorem actionLine_find_junk (name verb junk : Str) (hname : name ≠ []) (hcolon : ':' ∉ name)
    (hv : verb ∈ actionVerbList) (hj : startsWithJunk junk = true) :
    actionLine.FindStringSubmatch (name ++ ": ".toList ++ verb ++ " ".toList ++ junk) =
      some [name ++ ": ".toList ++ verb ++ " ".toList, name, verb, [], []] := by
  have h := actionLine_find_of_tail name verb [' '] junk _ hname hcolon hv
    (fun pos => fst_actionTail_junk junk hj pos _)
  have e : name ++ ": ".toList ++ verb ++ " ".toList ++ junk =
      name ++ (": ".toList ++ (verb ++ ([' '] ++ junk))) := by simp
  rw [e, h]
  simp [List.replicate]

/-- C7, counterexample. An action line whose amount is a string of 310 digits matches the
action grammar; `ParseFloat` rejects the digits as out of range, and the action is recorded
with amount `+Inf`, not zero. -/
theorem out_of_range_amount_is_infinite :
    (ParseFloat (List.replicate 310 '9')).2 = some NumError.ErrRange ∧
    (PokerStarsParser.ParseContent hugeAmountText).2 = none ∧
    (PokerStarsParser.ParseContent hugeAmountText).1.map
      (fun h => h.Actions.map (fun a => (a.Action, a.Amount))) =
      [[("bets".toList, F64.inf false), ("folds".toList, F64.zero)]] := by
  refine ⟨?_, ?_, ?_⟩ <;> decide!

section MoreFields

variable (line : Str) (h : Hand)

@[simp]
theorem setTable_Players : (setTable line h).Players = h.Players := by
  unfold setTable; split <;> rfl
@[simp]
theorem setHoleCards_Players : (setHoleCards line h).Players = h.Players := by
  unfold setHoleCards; split <;> rfl
@[simp]
theorem setBoard_Players : (setBoard line h).Players = h.Players := by
  unfold setBoard; split <;> rfl
@[simp]
theorem addAction_Players (street : Str) (n : Int) :
    (addAction line street n h).1.Players = h.Players := by
  unfold addAction; split <;> rfl
@[simp]
theorem setPot_Players : (setPot line h).Players = h.Players := by
  unfold setPot; split <;> [split <;> rfl; rfl]
@[simp]
theorem addCollected_Players : (addCollected line h).Players = h.Players := by
  unfold addCollected; split <;> [split <;> [split <;> rfl; rfl]; rfl]
@[simp]
theorem addCollected_TotalPot : (addCollected line h).TotalPot = h.TotalPot := by
  unfold addCollected; split <;> [split <;> [split <;> rfl; rfl]; rfl]
@[simp]
theorem addCollected_Rake : (addCollected line h).Rake = h.Rake := by
  unfold addCollected; split <;> [split <;> [split <;> rfl; rfl]; rfl]
@[simp]
theorem addCollected_HeroName : (addCollected line h).HeroName = h.HeroName := by
  unfold addCollected; split <;> [split <;> [split <;> rfl; rfl]; rfl]
@[simp]
theorem setTable_Result : (setTable line h).Result = h.Result := by
  unfold setTable; split <;> rfl
@[simp]
theorem addPlayer_Result : (addPlayer line h).Result = h.Result := by
  unfold addPlayer; split <;> rfl
@[simp]
theorem setHoleCards_Result : (setHoleCards line h).Result = h.Result := by
  unfold setHoleCards; split <;> rfl
@[simp]
theorem setBoard_Result : (setBoard line h).Result = h.Result := by
  unfold setBoard; split <;> rfl
@[simp]
theorem addAction_Result (street : Str) (n : Int) :
    (addAction line street n h).1.Result = h.Result := by
  unfold addAction; split <;> rfl
@[simp]
theorem setPot_Result : (setPot line h).Result = h.Result := by
  unfold setPot; split <;> [split <;> rfl; rfl]

end MoreFields

theorem lt_length_of_getD_ne_nil {m : List Str} {k : Nat} (h : m.getD k [] ≠ []) :
    k < m.length := by
  by_contra hk
  exact h (by simp [List.getD_eq_getElem?_getD, List.getElem?_eq_none (Nat.le_of_not_lt hk)])

theorem parseFloat_nil : (ParseFloat []).2 = some NumError.ErrSyntax := by decide

theorem ne_nil_of_errRange {s : Str} (h : (ParseFloat s).2 = some NumError.ErrRange) :
    s ≠ [] := by
  intro hs
  subst hs
  rw [parseFloat_nil] at h
  cases h

theorem actionAmount_cases (m : List Str) :
    (m.getD 3 [] = [] → m.getD 4 [] = [] → actionAmount m = F64.zero) ∧
    (m.getD 4 [] = [] → (ParseFloat (m.getD 3 [])).2 = some NumError.ErrRange →
      actionAmount m = F64.inf false) ∧
    ((ParseFloat (m.getD 4 [])).2 = some NumError.ErrRange →
      actionAmount m = F64.inf false) := by
  have hdef : actionAmount m =
      if 4 < m.length ∧ m.getD 4 [] ≠ [] then (ParseFloat (m.getD 4 [])).1
      else if 3 < m.length ∧ m.getD 3 [] ≠ [] then (ParseFloat (m.getD 3 [])).1
      else F64.zero := rfl
  rw [hdef]
  refine ⟨?_, ?_, ?_⟩
  · intro h3 h4
    rw [if_neg (fun h => h.2 h4), if_neg (fun h => h.2 h3)]
  · intro h4 hr
    have h3 := ne_nil_of_errRange hr
    rw [if_neg (fun h => h.2 h4), if_pos ⟨lt_length_of_getD_ne_nil h3, h3⟩]
    exact (parseFloat_error_cases _).1 hr
  · intro hr
    have h4 := ne_nil_of_errRange hr
    rw [if_pos ⟨lt_length_of_getD_ne_nil h4, h4⟩]
    exact (parseFloat_error_cases _).1 hr

/-- C7, amended. Inside a hand a line never aborts the parse: the hand stays in progress and
the hands already closed are kept. The numeric fields are what `ParseFloat` returns for the
captured literal, the error being dropped: an action whose amount captures are empty has
amount zero, in particular on a line `<name>: <verb> <junk>` with a non-numeric token; an
action, stack, pot, rake or collected amount whose literal `ParseFloat` rejects as out of
range is `+Inf` (the value returned with `ErrRange`), in particular on a line
`<name>: <verb> D` with an out-of-range digit string `D`; the action or player is appended
all the same. -/
theorem best_effort_numerics (st : PState) (cur : Hand) (hcur : st.currentHand = some cur) :
    (∀ line, isHandStart line = false →
      ∃ cur', (step st line).currentHand = some cur' ∧ (step st line).hands = st.hands ∧
        (∀ m, actionLine.FindStringSubmatch line = some m →
          ∃ a, cur'.Actions = cur.Actions ++ [a] ∧
            (m.getD 3 [] = [] → m.getD 4 [] = [] → a.Amount = F64.zero) ∧
            (m.getD 4 [] = [] → (ParseFloat (m.getD 3 [])).2 = some NumError.ErrRange →
              a.Amount = F64.inf false) ∧
            ((ParseFloat (m.getD 4 [])).2 = some NumError.ErrRange →
              a.Amount = F64.inf false)) ∧
        (∀ m, playerInfo.FindStringSubmatch line = some m →
          ∃ p, cur'.Players = cur.Players ++ [p] ∧ p.Stack = (ParseFloat (m.getD 3 [])).1) ∧
        (∀ m, potLine.FindStringSubmatch line = some m →
          cur'.TotalPot = (ParseFloat (m.getD 1 [])).1 ∧
          (m.getD 2 [] ≠ [] → cur'.Rake = (ParseFloat (m.getD 2 [])).1)) ∧
        (∀ m, collectRegex.FindStringSubmatch line = some m → cur'.HeroName ≠ [] →
          contains line cur'.HeroName = true → contains line "collected".toList = true →
          cur'.Result = F64.add cur.Result (ParseFloat (m.getD 1 [])).1)) ∧
    (∀ s, (ParseFloat s).2 = some NumError.ErrRange → (ParseFloat s).1 = F64.inf false) ∧
    (∀ name verb junk, name ≠ [] → ':' ∉ name → verb ∈ actionVerbList →
      startsWithJunk junk = true → isHandStart (junkLine name verb junk) = false →
      AppendsAction st cur (junkLine name verb junk)
        (actionOf st (junkLine name verb junk) name verb F64.zero)) ∧
    (∀ name verb D, name ≠ [] → ':' ∉ name → verb ∈ actionVerbList →
      isDecimalLit D = true → (ParseFloat D).2 = some NumError.ErrRange →
      isHandStart (betLine name verb D) = false →
      AppendsAction st cur (betLine name verb D)
        (actionOf st (betLine name verb D) name verb (F64.inf false))) := by
  refine ⟨?_, fun s => (parseFloat_error_cases s).1, ?_, ?_⟩
  · intro line hstart
    rw [step_of_not_start hstart, hcur]
    refine ⟨_, rfl, rfl, ?_, ?_, ?_, ?_⟩
    · intro m hm
      refine ⟨{ PlayerName := trimSpace (m.getD 1 []), Action := m.getD 2 [],
                Amount := actionAmount m, Street := nextStreet line st.currentStreet,
                Sequence := st.actionSequence }, ?_, actionAmount_cases m⟩
      simp only [inHand, addCollected_Actions, setPot_Actions]
      unfold addAction
      rw [hm]
      simp
    · intro m hm
      refine ⟨{ Name := trimSpace (m.getD 2 []), Seat := (Atoi (m.getD 1 [])).1,
                Stack := (ParseFloat (m.getD 3 [])).1, Position := [] }, ?_, rfl⟩
      simp only [inHand, addCollected_Players, setPot_Players, addAction_Players,
        setBoard_Players, setHoleCards_Players]
      unfold addPlayer
      rw [hm]
      simp
    · intro m hm
      simp only [inHand, addCollected_TotalPot, addCollected_Rake]
      unfold setPot
      rw [hm]
      refine ⟨?_, ?_⟩
      · simp only []
        split <;> rfl
      · intro h2
        simp only []
        rw [if_pos ⟨lt_length_of_getD_ne_nil h2, h2⟩]
    · intro m hm hhero hc1 hc2
      simp only [inHand, addCollected_HeroName] at hhero hc1
      unfold addCollected
      rw [if_pos ⟨hhero, hc1⟩, if_pos hc2, hm]
      simp only [setPot_Result, addAction_Result, setBoard_Result, setHoleCards_Result,
        addPlayer_Result, setTable_Result]
  · intro name verb junk hname hcolon hv hj hstart
    have h := step_appends_action st cur _ _ hcur hstart
      (actionLine_find_junk name verb junk hname hcolon hv hj)
    exact h
  · intro name verb D hname hcolon hv hD hr hstart
    rw [betLine_eq] at hstart ⊢
    have h := step_action_line st cur name verb (some D) none hcur hname hcolon hv
      (fun Z hz => by cases hz; exact hD) (fun Z hz => by cases hz) hstart
    have e : lineAmount (some D) none = F64.inf false := (parseFloat_error_cases D).1 hr
    rw [e] at h
    exact h

/-- C7, witness: the line `Alice: bets abc` inside a hand appends an action with amount
zero. -/
theorem best_effort_numerics_witness :
    sampleState.currentHand = some (Hand.new "1".toList) ∧
    startsWithJunk "abc".toList = true ∧
    isHandStart (junkLine "Alice".toList "bets".toList "abc".toList) = false ∧
    AppendsAction sampleState (Hand.new "1".toList)
      (junkLine "Alice".toList "bets".toList "abc".toList)
      (actionOf sampleState (junkLine "Alice".toList "bets".toList "abc".toList)
        "Alice".toList "bets".toList F64.zero) :=
  ⟨rfl, by decide, by decide,
    (best_effort_numerics sampleState (Hand.new "1".toList) rfl).2.2.1 "Alice".toList
      "bets".toList "abc".toList (by decide) (by decide) (by decide) (by decide) (by decide)⟩

/-! ## Hand-start lines -/

theorem prefix_of_run_lit (w : Str) (s : MState) (h : Re.run (Re.lit w) s ≠ []) :
    w <+: s.rest := by
  induction w generalizing s with
  | nil => exact List.nil_prefix
  | cons c cs ih =>
    have hrun : Re.run (Re.lit (c :: cs)) s =
        (Re.run (Re.chr c) s).flatMap (fun t => Re.run (Re.lit cs) t) := rfl
    rw [hrun] at h
    obtain ⟨pos, rest, caps⟩ := s
    cases rest with
    | nil => exact absurd rfl h
    | cons x xs =>
      by_cases hx : (x == c) = true
      · have h1 : Re.run (Re.chr c) { pos := pos, rest := x :: xs, caps := caps } =
            [{ pos := pos + 1, rest := xs, caps := caps }] := by
          simp [Re.run, Re.chr, hx]
        rw [h1] at h
        simp only [List.flatMap_cons, List.flatMap_nil, List.append_nil] at h
        have := ih _ h
        simp only [beq_iff_eq] at hx
        subst hx
        exact (List.prefix_cons_inj x).mpr this
      · have h1 : Re.run (Re.chr c) { pos := pos, rest := x :: xs, caps := caps } = [] := by
          simp [Re.run, Re.chr, hx]
        rw [h1] at h
        exact absurd rfl h

theorem contains_of_findFrom_lit (w : Str) (r : Re) (n : Nat) (s : Str) (pos : Nat)
    (m : List Str) (h : Re.findFrom (.seq (Re.lit w) r) n pos s = some m) :
    contains s w = true := by
  have key : ∀ (st : MState), Re.run (.seq (Re.lit w) r) st ≠ [] → w <+: st.rest := by
    intro st hne
    apply prefix_of_run_lit
    intro h0
    exact hne (run_seq_of_nil h0)
  induction s generalizing pos with
  | nil =>
    unfold Re.findFrom at h
    split at h
    · rename_i t ts hrun
      have := key _ (by rw [hrun]; simp)
      simp only [List.prefix_nil] at this
      subst this
      rfl
    · cases h
  | cons c cs ih =>
    unfold Re.findFrom at h
    unfold contains
    split at h
    · rename_i t ts hrun
      have := key _ (by rw [hrun]; simp)
      simp [List.isPrefixOf_iff_prefix.mpr this]
    · simp [ih _ h]

theorem handStart_re_eq :
    handStart.re = .seq (Re.lit "PokerStars Hand #".toList)
      (.seq (.grp 1 (Re.plus Re.digit)) (Re.chr ':')) := rfl

/-- A line that matches the hand-start pattern contains the signature. -/
theorem contains_signature_of_isHandStart {line : Str} (h : isHandStart line = true) :
    contains line "PokerStars Hand #".toList = true := by
  unfold isHandStart Regexp.FindStringSubmatch at h
  rw [handStart_re_eq] at h
  cases hf : Re.findFrom (.seq (Re.lit "PokerStars Hand #".toList)
      (.seq (.grp 1 (Re.plus Re.digit)) (Re.chr ':'))) handStart.ngroups 0 line with
  | none => rw [hf] at h; cases h
  | some m => exact contains_of_findFrom_lit _ _ _ _ _ m hf

theorem not_isHandStart_of_no_hash {line : Str} (h : '#' ∉ line) :
    isHandStart line = false := by
  cases hs : isHandStart line with
  | false => rfl
  | true =>
    exact absurd (mem_of_contains (contains_signature_of_isHandStart hs) '#' (by decide)) h

theorem hash_not_mem_actionLine (name verb : Str) (amt toAmt : Option Str)
    (hhash : '#' ∉ name) (hv : verb ∈ actionVerbList)
    (hamt : ∀ X, amt = some X → isDecimalLit X = true)
    (hto : ∀ Y, toAmt = some Y → isDecimalLit Y = true) :
    '#' ∉ mkActionLine name verb amt toAmt := by
  have hverb : '#' ∉ verb := by
    simp only [actionVerbList, List.mem_cons, List.mem_singleton, List.not_mem_nil,
      or_false] at hv
    rcases hv with h | h | h | h | h | h | h | h <;> subst h <;> decide
  have hdec : ∀ X, isDecimalLit X = true → '#' ∉ X := by
    intro X hX hmem
    have := decimal_chars hX '#' hmem
    revert this; decide
  have h1 : '#' ∉ amtPart amt := by
    cases amt with
    | none => simp [amtPart]
    | some X =>
      have := hdec X (hamt X rfl)
      simp only [amtPart, List.mem_cons, not_or]
      exact ⟨by decide, this⟩
  have h2 : '#' ∉ toPart toAmt := by
    cases toAmt with
    | none => simp [toPart]
    | some Y =>
      have := hdec Y (hto Y rfl)
      simp only [toPart, List.mem_append, not_or]
      exact ⟨by decide, this⟩
  simp only [mkActionLine, List.mem_append, not_or]
  exact ⟨hhash, by decide, hverb, h1, h2⟩

/-- C8. Inside a hand, for a player name without colon, a verb of the action grammar and
decimal literals `X`, `Y`: the line `<name>: <verb> X to Y` appends an action with amount
`Y` (the float `ParseFloat` reads from it), the line `<name>: <verb> X` one with amount `X`,
the line `<name>: <verb>` one with amount zero; in each case the action carries the trimmed
name, the verb, the sequence counter and the current street (the street in force before
the line, unless the name itself contains a street marker, which needs a `*`). The lines
are lines inside the hand, not hand-start lines; that is so whenever the name has no `#`. -/
theorem action_line_amount (st : PState) (cur : Hand) (name verb X Y : Str)
    (hcur : st.currentHand = some cur) (hname : name ≠ []) (hcolon : ':' ∉ name)
    (hv : verb ∈ actionVerbList) (hX : isDecimalLit X = true) (hY : isDecimalLit Y = true) :
    (isHandStart (raiseLine name verb X Y) = false →
      AppendsAction st cur (raiseLine name verb X Y)
        (actionOf st (raiseLine name verb X Y) name verb (ParseFloat Y).1)) ∧
    (isHandStart (betLine name verb X) = false →
      AppendsAction st cur (betLine name verb X)
        (actionOf st (betLine name verb X) name verb (ParseFloat X).1)) ∧
    (isHandStart (plainLine name verb) = false →
      AppendsAction st cur (plainLine name verb)
        (actionOf st (plainLine name verb) name verb F64.zero)) ∧
    ('*' ∉ name →
      nextStreet (raiseLine name verb X Y) st.currentStreet = st.currentStreet ∧
      nextStreet (betLine name verb X) st.currentStreet = st.currentStreet ∧
      nextStreet (plainLine name verb) st.currentStreet = st.currentStreet) ∧
    ('#' ∉ name →
      isHandStart (raiseLine name verb X Y) = false ∧
      isHandStart (betLine name verb X) = false ∧
      isHandStart (plainLine name verb) = false) := by
  have hs : ∀ Z, some X = some Z → isDecimalLit Z = true := fun Z h => by
    cases h; exact hX
  have ht : ∀ Z, some Y = some Z → isDecimalLit Z = true := fun Z h => by
    cases h; exact hY
  have hn : ∀ Z, (none : Option Str) = some Z → isDecimalLit Z = true := fun Z h => by
    cases h
  rw [raiseLine_eq, betLine_eq, plainLine_eq]
  refine ⟨?_, ?_, ?_, ?_, ?_⟩
  · intro hstart
    exact step_action_line st cur name verb (some X) (some Y) hcur hname hcolon hv hs ht hstart
  · intro hstart
    exact step_action_line st cur name verb (some X) none hcur hname hcolon hv hs hn hstart
  · intro hstart
    exact step_action_line st cur name verb none none hcur hname hcolon hv hn hn hstart
  · intro hstar
    exact ⟨nextStreet_of_no_star (star_not_mem_actionLine name verb _ _ hstar hv hs ht) _,
      nextStreet_of_no_star (star_not_mem_actionLine name verb _ _ hstar hv hs hn) _,
      nextStreet_of_no_star (star_not_mem_actionLine name verb _ _ hstar hv hn hn) _⟩
  · intro hhash
    exact ⟨not_isHandStart_of_no_hash (hash_not_mem_actionLine name verb _ _ hhash hv hs ht),
      not_isHandStart_of_no_hash (hash_not_mem_actionLine name verb _ _ hhash hv hs hn),
      not_isHandStart_of_no_hash (hash_not_mem_actionLine name verb _ _ hhash hv hn hn)⟩

/-- C8, witness: the line `Alice: raises 10 to 20` inside a hand appends an action with
the amount read from `20`. -/
theorem action_line_amount_witness :
    sampleState.currentHand = some (Hand.new "1".toList) ∧
    isHandStart (raiseLine "Alice".toList "raises".toList "10".toList "20".toList) = false ∧
    AppendsAction sampleState (Hand.new "1".toList)
      (raiseLine "Alice".toList "raises".toList "10".toList "20".toList)
      (actionOf sampleState (raiseLine "Alice".toList "raises".toList "10".toList "20".toList)
        "Alice".toList "raises".toList (ParseFloat "20".toList).1) :=
  ⟨rfl, by decide,
    (action_line_amount sampleState (Hand.new "1".toList) "Alice".toList "raises".toList
      "10".toList "20".toList rfl (by decide) (by decide) (by decide) (by decide)
      (by decide)).1 (by decide)⟩

/-- The submatches of the hand-start pattern on a line that begins with the signature, a
non-empty digit string and a colon. -/
theorem handStart_find_canonical (ds rest : Str) (hne : ds ≠ [])
    (hds : ∀ c ∈ ds, Re.isDigit c = true) :
    handStart.FindStringSubmatch ("PokerStars Hand #".toList ++ ds ++ ':' :: rest) =
      some ["PokerStars Hand #".toList ++ ds ++ [':'], ds] := by
  have h : Fst handStart.re 0 ("PokerStars Hand #".toList ++ (ds ++ [':'])) rest
      (List.replicate 2 []) ((List.replicate 2 []).set 1 ds) := by
    rw [handStart_re_eq]
    exact fst_seq (fst_lit _ _ _ _)
      (fst_seq (fst_grp 1 (fst_plus_cls hne hds (stopsAt_cons (by decide) _) _ _))
        (fst_chr ':' _ _ _))
  unfold Fst at h
  have e : "PokerStars Hand #".toList ++ ds ++ ':' :: rest =
      "PokerStars Hand #".toList ++ (ds ++ [':']) ++ rest := by simp
  unfold Regexp.FindStringSubmatch
  have hn : handStart.ngroups + 1 = 2 := rfl
  rw [e, findFrom_of_head? (hn ▸ h)]
  simp only [take_length_sub]
  simp [List.replicate]

theorem handStartID_canonical (ds rest : Str) (hne : ds ≠ [])
    (hds : ∀ c ∈ ds, Re.isDigit c = true) :
    handStartID ("PokerStars Hand #".toList ++ ds ++ ':' :: rest) = some ds := by
  unfold handStartID
  rw [handStart_find_canonical ds rest hne hds]
  rfl

/-! ## The scenario, with any hand-start line -/

section Frame

variable (g s : Str) (d : Time) (line : Str) (h : Hand)

theorem setTable_withMeta : setTable line (withMeta g s d h) = withMeta g s d (setTable line h) := by
  unfold setTable; split <;> rfl
theorem addPlayer_withMeta :
    addPlayer line (withMeta g s d h) = withMeta g s d (addPlayer line h) := by
  unfold addPlayer; split <;> rfl
theorem setHoleCards_withMeta :
    setHoleCards line (withMeta g s d h) = withMeta g s d (setHoleCards line h) := by
  unfold setHoleCards; split <;> rfl
theorem setBoard_withMeta : setBoard line (withMeta g s d h) = withMeta g s d (setBoard line h) := by
  unfold setBoard; split <;> rfl
theorem addAction_withMeta (street : Str) (n : Int) :
    addAction line street n (withMeta g s d h) =
      (withMeta g s d (addAction line street n h).1, (addAction line street n h).2) := by
  unfold addAction; split <;> rfl
theorem setPot_withMeta : setPot line (withMeta g s d h) = withMeta g s d (setPot line h) := by
  unfold setPot; split <;> [split <;> rfl; rfl]
theorem addCollected_withMeta :
    addCollected line (withMeta g s d h) = withMeta g s d (addCollected line h) := by
  unfold addCollected
  have e : (withMeta g s d h).HeroName = h.HeroName := rfl
  rw [e]
  split <;> [split <;> [split <;> rfl; rfl]; rfl]

end Frame

theorem step_frame (g s : Str) (d : Time) (p : Str) (st : PState) (line : Str)
    (hl : isHandStart line = false) :
    step (frame g s d p st) line = frame g s d p (step st line) := by
  rw [step_of_not_start hl, step_of_not_start hl]
  cases hcur : st.currentHand with
  | none => simp [frame, hcur]
  | some cur =>
    simp only [frame, hcur, Option.map_some', inHand, setTable_withMeta, addPlayer_withMeta,
      setHoleCards_withMeta, setBoard_withMeta, addAction_withMeta, setPot_withMeta,
      addCollected_withMeta, List.append_assoc]

theorem foldl_step_frame (g s : Str) (d : Time) (p : Str) (lines : List Str) (st : PState)
    (hl : ∀ l ∈ lines, isHandStart l = false) :
    lines.foldl step (frame g s d p st) = frame g s d p (lines.foldl step st) := by
  induction lines generalizing st with
  | nil => rfl
  | cons l ls ih =>
    rw [List.foldl_cons, List.foldl_cons, step_frame g s d p st l (hl l (List.mem_cons_self _ _)),
      ih _ (fun x hx => hl x (List.mem_cons_of_mem _ hx))]

theorem setGameType_eq (line : Str) (h : Hand) :
    ∃ g, setGameType line h = { h with GameType := g } := by
  unfold setGameType
  split
  · exact ⟨_, rfl⟩
  · exact ⟨h.GameType, rfl⟩

theorem setDateTime_eq (line : Str) (h : Hand) :
    ∃ d, setDateTime line h = { h with DateTime := d } := by
  unfold setDateTime
  split
  · split
    · exact ⟨_, rfl⟩
    · exact ⟨h.DateTime, rfl⟩
  · exact ⟨h.DateTime, rfl⟩

theorem setStakes_eq (line : Str) (h : Hand) :
    ∃ s, setStakes line h = { h with Stakes := s } := by
  unfold setStakes
  split
  · split
    · exact ⟨_, rfl⟩
    · exact ⟨h.Stakes, rfl⟩
  · exact ⟨h.Stakes, rfl⟩

theorem startHand_meta (line : Str) (h : Hand) :
    ∃ g s d, setStakes line (setDateTime line (setGameType line h)) = withMeta g s d h := by
  obtain ⟨g, hg⟩ := setGameType_eq line h
  obtain ⟨d, hd⟩ := setDateTime_eq line { h with GameType := g }
  obtain ⟨s, hs⟩ := setStakes_eq line { h with GameType := g, DateTime := d }
  refine ⟨g, s, d, ?_⟩
  rw [hg, hd, hs]
  rfl

theorem dropCR_append_of_no_cr_end (a tail : Str) (hlast : a.getLast? ≠ some '\r') :
    ∃ tail', dropCR (a ++ tail) = a ++ tail' := by
  unfold dropCR
  cases tail with
  | nil =>
    refine ⟨[], ?_⟩
    rw [List.append_nil, if_neg hlast]
  | cons t ts =>
    split
    · exact ⟨(t :: ts).dropLast, List.dropLast_append_of_ne_nil _ (by simp)⟩
    · exact ⟨t :: ts, rfl⟩

theorem scanLines_scenarioText (tail : Str) (hlf : '\n' ∉ tail)
    (hshort : utf8Len ("PokerStars Hand #123456789:".toList ++ tail) < maxScanTokenSize) :
    scanLines (scenarioText tail) =
      (dropCR ("PokerStars Hand #123456789:".toList ++ tail) :: (scanLines scenarioBody).1,
       none) := by
  have hnl : '\n' ∉ "PokerStars Hand #123456789:".toList ++ tail := by
    simp only [List.mem_append, not_or]
    exact ⟨by decide, hlf⟩
  have hb : (deliver (rawLines scenarioBody)).2 = none := by decide
  have hraw : rawLines (scenarioText tail) =
      ("PokerStars Hand #123456789:".toList ++ tail) :: rawLines scenarioBody := by
    unfold scenarioText rawLines
    rw [rawLinesAux_append _ hnl, List.nil_append]
  have hdel : ∀ (l : Str) (ls : List Str), ¬ maxScanTokenSize ≤ utf8Len l →
      deliver (l :: ls) = (dropCR l :: (deliver ls).1, (deliver ls).2) := by
    intro l ls h
    simp [deliver, h]
  unfold scanLines
  rw [hraw, hdel _ _ (Nat.not_le.mpr hshort), hb]

/-- C5. Parsing the text made of a hand-start line with identifier 123456789 (whatever
follows the colon on that line), the seat line of Alice with 200 chips, the flop line with
board Ah Kd 2c, the line `Alice: raises 10 to 20` and the line `Total pot 40 | Rake 2`
yields exactly one hand, with that identifier, the player Alice with stack 200, the board
Ah, Kd, 2c, exactly one action (Alice, raises, flop, sequence 0, amount 20), total pot 40
and rake 2. -/
theorem parseContent_concrete_scenario (tail : Str) (hlf : '\n' ∉ tail)
    (hshort : utf8Len ("PokerStars Hand #123456789:".toList ++ tail) < maxScanTokenSize) :
    ∃ h : Hand, PokerStarsParser.ParseContent (scenarioText tail) = ([h], none) ∧
      h.HandID = "123456789".toList ∧
      h.Players = [{ Name := "Alice".toList, Seat := 1, Stack := F64.ofNat 200,
                     Position := [] }] ∧
      h.Board = ["Ah".toList, "Kd".toList, "2c".toList] ∧
      h.Actions = [{ PlayerName := "Alice".toList, Action := "raises".toList,
                     Amount := F64.ofNat 20, Street := "flop".toList, Sequence := 0 }] ∧
      h.TotalPot = F64.ofNat 40 ∧ h.Rake = F64.ofNat 2 := by
  obtain ⟨tail', hcr⟩ := dropCR_append_of_no_cr_end "PokerStars Hand #123456789:".toList tail
    (by decide)
  have hfind := handStart_find_canonical "123456789".toList tail' (by decide) (by decide)
  obtain ⟨g, s, d, hmeta⟩ :=
    startHand_meta ("PokerStars Hand #123456789:".toList ++ tail') (Hand.new "123456789".toList)
  have hstep : step PState.init ("PokerStars Hand #123456789:".toList ++ tail') =
      frame g s d ("PokerStars Hand #123456789:".toList ++ tail' ++ "\n".toList)
        scenarioStart := by
    have e : "PokerStars Hand #123456789:".toList ++ tail' =
        "PokerStars Hand #".toList ++ "123456789".toList ++ ':' :: tail' := by simp
    unfold step
    rw [e, hfind, ← e]
    simp only [startHand, PState.init, frame, scenarioStart, Option.map_some', List.append_nil]
    have e2 : [("PokerStars Hand #".toList ++ "123456789".toList ++ [':']),
        "123456789".toList].getD 1 [] = "123456789".toList := rfl
    rw [e2, hmeta]
  have hbody : ∀ l ∈ (scanLines scenarioBody).1, isHandStart l = false := by decide
  have hands4 : ((scanLines scenarioBody).1.foldl step scenarioStart).hands = [] := by decide
  obtain ⟨H, hH, h1, h2, h3, h4, h5, h6⟩ : ∃ H : Hand,
      ((scanLines scenarioBody).1.foldl step scenarioStart).currentHand = some H ∧
      H.HandID = "123456789".toList ∧
      H.Players = [{ Name := "Alice".toList, Seat := 1, Stack := F64.ofNat 200,
                     Position := [] }] ∧
      H.Board = ["Ah".toList, "Kd".toList, "2c".toList] ∧
      H.Actions = [{ PlayerName := "Alice".toList, Action := "raises".toList,
                     Amount := F64.ofNat 20, Street := "flop".toList, Sequence := 0 }] ∧
      H.TotalPot = F64.ofNat 40 ∧ H.Rake = F64.ofNat 2 := by
    refine ⟨(((scanLines scenarioBody).1.foldl step scenarioStart).currentHand).getD
      (Hand.new []), ?_, ?_, ?_, ?_, ?_, ?_, ?_⟩ <;> decide
  unfold PokerStarsParser.ParseContent
  rw [scanLines_scenarioText tail hlf hshort, hcr]
  simp only [List.foldl_cons]
  rw [hstep, foldl_step_frame g s d _ _ _ hbody]
  have hfin : finish (frame g s d ("PokerStars Hand #123456789:".toList ++ tail' ++ "\n".toList)
      ((scanLines scenarioBody).1.foldl step scenarioStart)) =
      [{ withMeta g s d H with
          RawText := "PokerStars Hand #123456789:".toList ++ tail' ++ "\n".toList ++
            ((scanLines scenarioBody).1.foldl step scenarioStart).rawHandText,
          Result := F64.sub H.Result (invested (withMeta g s d H)) }] := by
    simp only [finish, frame, hH, hands4, Option.map_some', List.nil_append]
    rfl
  rw [hfin]
  exact ⟨_, rfl, h1, h2, h3, h4, h5, h6⟩

/-- C5, witness: the scenario with the hand-start line
`PokerStars Hand #123456789: Hold'em No Limit`. -/
theorem parseContent_concrete_scenario_witness :
    '\n' ∉ " Hold'em No Limit".toList ∧
    utf8Len ("PokerStars Hand #123456789:".toList ++ " Hold'em No Limit".toList) <
      maxScanTokenSize ∧
    ∃ h : Hand,
      PokerStarsParser.ParseContent (scenarioText " Hold'em No Limit".toList) = ([h], none) ∧
      h.HandID = "123456789".toList ∧
      h.Players = [{ Name := "Alice".toList, Seat := 1, Stack := F64.ofNat 200,
                     Position := [] }] ∧
      h.Board = ["Ah".toList, "Kd".toList, "2c".toList] ∧
      h.Actions = [{ PlayerName := "Alice".toList, Action := "raises".toList,
                     Amount := F64.ofNat 20, Street := "flop".toList, Sequence := 0 }] ∧
      h.TotalPot = F64.ofNat 40 ∧ h.Rake = F64.ofNat 2 :=
  ⟨by decide, by decide,
    parseContent_concrete_scenario " Hold'em No Limit".toList (by decide) (by decide)⟩

/-- C2. For a well-formed text (no line reaches the scanner's token limit) the hands that
`ParseContent` returns are, in file order, one per line that matches the hand-start
signature: their `HandID`s are the digit strings of those lines, so a text with `k`
hand-start lines yields exactly `k` hands. The digit string of a line that begins with
`PokerStars Hand #<digits>:` is `<digits>`. -/
theorem parseContent_hands_in_file_order (content : Str) (hwf : shortLines content) :
    (PokerStarsParser.ParseContent content).1.map (fun h => h.HandID) =
      ((rawLines content).map dropCR).filterMap handStartID ∧
    (PokerStarsParser.ParseContent content).1.length =
      (((rawLines content).map dropCR).filter isHandStart).length ∧
    (∀ ds rest : Str, ds ≠ [] → (∀ c ∈ ds, Re.isDigit c = true) →
      handStartID ("PokerStars Hand #".toList ++ ds ++ ':' :: rest) = some ds) := by
  have hids := parseContent_ids content hwf
  refine ⟨hids, ?_, handStartID_canonical⟩
  have hlen := congrArg List.length hids
  rw [List.length_map] at hlen
  rw [hlen]
  generalize (rawLines content).map dropCR = ls
  induction ls with
  | nil => rfl
  | cons l ls ih =>
    rw [List.filterMap_cons, List.filter_cons]
    have e1 : handStartID l = (handStart.FindStringSubmatch l).map (fun ms => ms.getD 1 []) :=
      rfl
    have e2 : isHandStart l = (handStart.FindStringSubmatch l).isSome := rfl
    rw [e1, e2]
    cases handStart.FindStringSubmatch l <;> simp [ih]

/-- C2, witness: the two-hand text has short lines and yields two hands. -/
theorem parseContent_hands_in_file_order_witness :
    shortLines twoHandsText ∧
    (PokerStarsParser.ParseContent twoHandsText).1.map (fun h => h.HandID) =
      ((rawLines twoHandsText).map dropCR).filterMap handStartID ∧
    (PokerStarsParser.ParseContent twoHandsText).1.length = 2 :=
  ⟨by decide, (parseContent_hands_in_file_order twoHandsText (by decide)).1, by decide⟩

/-! ## The signature test and the hands -/

theorem infix_of_contains {s sub : Str} (h : contains s sub = true) : sub <:+: s := by
  induction s with
  | nil =>
    unfold contains at h
    simp only [List.isEmpty_eq_true] at h
    subst h
    exact List.infix_refl _
  | cons x xs ih =>
    unfold contains at h
    simp only [Bool.or_eq_true] at h
    rcases h with h | h
    · exact (List.isPrefixOf_iff_prefix.mp h).isInfix
    · exact (ih h).trans (List.suffix_cons x xs).isInfix

theorem contains_of_infix {s sub : Str} (h : sub <:+: s) : contains s sub = true := by
  induction s with
  | nil =>
    have : sub = [] := List.eq_nil_of_infix_nil h
    subst this
    rfl
  | cons x xs ih =>
    unfold contains
    simp only [Bool.or_eq_true]
    rcases List.infix_cons_iff.mp h with h | h
    · exact Or.inl (List.isPrefixOf_iff_prefix.mpr h)
    · exact Or.inr (ih h)

theorem infix_of_mem_rawLinesAux (s cur l : Str) (hl : l ∈ rawLinesAux s cur) :
    l <:+: cur ++ s := by
  induction s generalizing cur with
  | nil =>
    unfold rawLinesAux at hl
    split at hl
    · simp at hl
    · simp only [List.mem_singleton] at hl
      subst hl
      simp
  | cons d ds ih =>
    unfold rawLinesAux at hl
    split at hl
    · simp only [List.mem_cons] at hl
      rcases hl with hl | hl
      · subst hl
        exact (List.prefix_append _ _).isInfix
      · have h1 := ih [] hl
        rw [List.nil_append] at h1
        exact h1.trans ((List.suffix_cons d ds).isInfix.trans
          (List.suffix_append cur (d :: ds)).isInfix)
    · have h1 := ih (cur ++ [d]) hl
      simpa using h1

theorem dropCR_prefix_of (l : Str) : dropCR l <+: l := by
  unfold dropCR
  split
  · exact List.dropLast_prefix l
  · exact List.prefix_refl l

theorem mem_deliver (ls : List Str) (l : Str) (hl : l ∈ (deliver ls).1) :
    ∃ r ∈ ls, l = dropCR r := by
  induction ls with
  | nil => simp [deliver] at hl
  | cons x xs ih =>
    unfold deliver at hl
    split at hl
    · simp at hl
    · simp only [List.mem_cons] at hl
      rcases hl with hl | hl
      · exact ⟨x, List.mem_cons_self _ _, hl⟩
      · obtain ⟨r, hr, e⟩ := ih hl
        exact ⟨r, List.mem_cons_of_mem _ hr, e⟩

theorem infix_of_mem_scanLines (content l : Str) (hl : l ∈ (scanLines content).1) :
    l <:+: content := by
  obtain ⟨r, hr, e⟩ := mem_deliver _ l hl
  subst e
  have h1 := infix_of_mem_rawLinesAux content [] r hr
  rw [List.nil_append] at h1
  exact (dropCR_prefix_of r).isInfix.trans h1

/-- Identifiers of the returned hands: the captures of the delivered hand-start lines. -/
theorem parseContent_ids_delivered (content : Str) :
    (PokerStarsParser.ParseContent content).1.map (fun h => h.HandID) =
      (scanLines content).1.filterMap handStartID := by
  unfold PokerStarsParser.ParseContent
  rw [ids_finish, ids_foldl]
  simp [PState.ids, PState.init]

theorem canParse_of_hand (content : Str)
    (h : (PokerStarsParser.ParseContent content).1 ≠ []) :
    PokerStarsParser.CanParse content = true := by
  have hids := parseContent_ids_delivered content
  cases hh : (PokerStarsParser.ParseContent content).1 with
  | nil => exact absurd hh h
  | cons x xs =>
    rw [hh] at hids
    have hmem : x.HandID ∈ (scanLines content).1.filterMap handStartID := by
      rw [← hids]; simp
    obtain ⟨line, hline, hid⟩ := List.mem_filterMap.mp hmem
    have hstart : isHandStart line = true := by
      unfold handStartID at hid
      unfold isHandStart
      cases hf : handStart.FindStringSubmatch line with
      | none => rw [hf] at hid; cases hid
      | some m => rfl
    have h1 := infix_of_contains (contains_signature_of_isHandStart hstart)
    exact contains_of_infix (h1.trans (infix_of_mem_scanLines content line hline))

/-- C20. The signature test never loses hands: if `ParseContent` of the PokerStars parser
returns a hand then `CanParse` is true; so `ParseContent` of the manager built by
`NewManager` returns the hand list of the PokerStars parser (the empty list when the text
is not recognized), with site name "pokerstars" exactly when the text contains
`PokerStars Hand #`, and the empty site name otherwise. -/
theorem manager_parseContent_keeps_hands (content : Str) :
    ((PokerStarsParser.ParseContent content).1 ≠ [] →
      PokerStarsParser.CanParse content = true) ∧
    (NewManager.ParseContent content).1 = (PokerStarsParser.ParseContent content).1 ∧
    ((NewManager.ParseContent content).2.1 = "pokerstars".toList ↔
      contains content "PokerStars Hand #".toList = true) ∧
    (contains content "PokerStars Hand #".toList = false →
      (NewManager.ParseContent content).2.1 = []) := by
  have hdef : NewManager.ParseContent content =
      if PokerStarsParser.CanParse content = true then
        ((PokerStarsParser.ParseContent content).1, "pokerstars".toList,
          (PokerStarsParser.ParseContent content).2)
      else ([], [], none) := rfl
  have hcp : PokerStarsParser.CanParse content = contains content "PokerStars Hand #".toList :=
    rfl
  rw [hdef, ← hcp]
  refine ⟨canParse_of_hand content, ?_, ?_, ?_⟩
  · cases hc : PokerStarsParser.CanParse content with
    | true => rw [if_pos rfl]
    | false =>
      rw [if_neg (by decide)]
      by_contra hne
      have := canParse_of_hand content (fun h0 => hne h0.symm)
      rw [hc] at this
      cases this
  · cases hc : PokerStarsParser.CanParse content with
    | true => rw [if_pos rfl]; exact ⟨fun _ => rfl, fun _ => rfl⟩
    | false =>
      rw [if_neg (by decide)]
      exact ⟨fun h => absurd h (by decide), fun h => by cases h⟩
  · intro h
    rw [h, if_neg (by decide)]

/-! ## Streets -/

theorem streetRank_nextStreet (line street : Str) :
    streetRank (nextStreet line street) = (markerRank line).getD (streetRank street) := by
  unfold nextStreet markerRank
  split
  · rfl
  · split
    · rfl
    · split
      · rfl
      · split
        · rfl
        · rfl

theorem streetInv_init : StreetInv PState.init none := by
  refine ⟨?_, ?_⟩
  · intro h hh; simp [PState.init] at hh
  · simp [PState.init]

theorem streetInv_foldl (lines : List Str) (st : PState) (r : Option Nat)
    (hinv : StreetInv st r) (hfw : markersForward r lines = true) :
    ∃ r', StreetInv (lines.foldl step st) r' := by
  induction lines generalizing st r with
  | nil => exact ⟨r, hinv⟩
  | cons l ls ih =>
    rw [List.foldl_cons]
    obtain ⟨hh, hc⟩ := hinv
    unfold markersForward at hfw
    cases hl : isHandStart l with
    | true =>
      rw [hl, if_pos rfl] at hfw
      obtain ⟨ms, hms⟩ := step_of_start st hl
      rw [hms]
      refine ih _ (some 0) ⟨?_, ?_⟩ hfw
      · intro h hmem
        simp only [startHand] at hmem
        cases hcur : st.currentHand with
        | none => rw [hcur] at hmem; exact hh h hmem
        | some cur =>
          rw [hcur] at hmem hc
          simp only [List.mem_append, List.mem_singleton] at hmem
          rcases hmem with hmem | hmem
          · exact hh h hmem
          · subst hmem
            cases r with
            | none => exact absurd hc id
            | some k => exact hc.1
      · simp only [startHand]
        refine ⟨?_, ?_, by decide⟩
        · simp [StreetsForward, Hand.new]
        · simp [Hand.new]
    | false =>
      rw [hl, if_neg (by decide)] at hfw
      rw [step_of_not_start hl]
      cases hcur : st.currentHand with
      | none =>
        rw [hcur] at hc
        cases r with
        | none => exact ih st none ⟨hh, by rw [hcur]; trivial⟩ hfw
        | some k => exact absurd hc id
      | some cur =>
        rw [hcur] at hc
        cases r with
        | none => exact absurd hc id
        | some k =>
          obtain ⟨hsf, hle, hrk⟩ := hc
          simp only at hfw
          have hrank := streetRank_nextStreet l st.currentStreet
          -- the street after the line, and the rest of the hypothesis
          obtain ⟨j, hj, hkj, hrest⟩ : ∃ j, streetRank (nextStreet l st.currentStreet) = j ∧
              k ≤ j ∧ markersForward (some j) ls = true := by
            cases hm : markerRank l with
            | none =>
              rw [hm] at hfw hrank
              exact ⟨k, by simpa [hrk] using hrank, Nat.le_refl k, hfw⟩
            | some j =>
              rw [hm] at hfw hrank
              simp only [Bool.and_eq_true, decide_eq_true_eq] at hfw
              exact ⟨j, by simpa using hrank, hfw.1, hfw.2⟩
          refine ih _ (some j) ⟨hh, ?_⟩ hrest
          simp only [inHand, addCollected_Actions, setPot_Actions]
          rcases addAction_cases l (nextStreet l st.currentStreet) st.actionSequence
            (setBoard l (setHoleCards l (addPlayer l (setTable l cur)))) with h1 | h1
          · obtain ⟨hA, _⟩ := h1
            simp only [setBoard_Actions, setHoleCards_Actions, addPlayer_Actions,
              setTable_Actions] at hA
            refine ⟨?_, ?_, hj⟩
            · unfold StreetsForward
              simp only [addCollected_Actions, setPot_Actions, hA]
              exact hsf
            · intro a ha
              simp only [addCollected_Actions, setPot_Actions, hA] at ha
              exact Nat.le_trans (hle a ha) hkj
          · obtain ⟨a, _, haS, hA, _⟩ := h1
            simp only [setBoard_Actions, setHoleCards_Actions, addPlayer_Actions,
              setTable_Actions] at hA
            refine ⟨?_, ?_, hj⟩
            · unfold StreetsForward
              simp only [addCollected_Actions, setPot_Actions, hA]
              rw [List.pairwise_append]
              refine ⟨hsf, List.pairwise_singleton _ _, ?_⟩
              intro x hx y hy
              simp only [List.mem_singleton] at hy
              subst hy
              rw [haS, hj]
              exact Nat.le_trans (hle x hx) hkj
            · intro x hx
              simp only [addCollected_Actions, setPot_Actions, hA, List.mem_append,
                List.mem_singleton] at hx
              rcases hx with hx | hx
              · exact Nat.le_trans (hle x hx) hkj
              · subst hx
                rw [haS, hj]

theorem streetsForward_finish (st : PState) (r : Option Nat) (hinv : StreetInv st r) :
    ∀ h ∈ finish st, StreetsForward h := by
  intro h hmem
  obtain ⟨hh, hc⟩ := hinv
  unfold finish at hmem
  cases hcur : st.currentHand with
  | none => rw [hcur] at hmem; exact hh h hmem
  | some cur =>
    rw [hcur] at hmem hc
    simp only [List.mem_append, List.mem_singleton] at hmem
    rcases hmem with hmem | hmem
    · exact hh h hmem
    · subst hmem
      cases r with
      | none => exact absurd hc id
      | some k => exact hc.1

/-- C11, counterexample. In a hand whose lines announce the turn before the flop, the
action after the flop marker has street flop although the action before it has street
turn: the streets move backward. -/
theorem streets_follow_markers_backward :
    (PokerStarsParser.ParseContent backwardText).1.map
      (fun h => h.Actions.map (fun a => (a.Sequence, a.Street))) =
      [[(0, "turn".toList), (1, "flop".toList)]] ∧
    streetRank "flop".toList < streetRank "turn".toList ∧
    ¬ ∀ h ∈ (PokerStarsParser.ParseContent backwardText).1, StreetsForward h := by
  refine ⟨by decide, by decide, ?_⟩
  intro hall
  have hmem : (PokerStarsParser.ParseContent backwardText).1.headD (Hand.new []) ∈
      (PokerStarsParser.ParseContent backwardText).1 := by decide
  have hsf := hall _ hmem
  unfold StreetsForward at hsf
  have hA : ((PokerStarsParser.ParseContent backwardText).1.headD (Hand.new [])).Actions.map
      (fun a => streetRank a.Street) = [2, 1] := by decide
  have hp : List.Pairwise (fun (x y : Nat) => x ≤ y)
      (((PokerStarsParser.ParseContent backwardText).1.headD (Hand.new [])).Actions.map
        (fun a => streetRank a.Street)) := List.pairwise_map.mpr hsf
  rw [hA] at hp
  simp at hp

/-- C11, amended. When inside each hand the lines with a street marker announce the streets
in forward order (FLOP, TURN, RIVER, SHOW DOWN), the streets of the actions of every returned
hand, read in list order (the order of the sequence numbers), only move forward through
preflop < flop < turn < river < showdown. -/
theorem streets_forward_of_markers_forward (content : Str)
    (hfw : markersForward none (scanLines content).1 = true) :
    ∀ h ∈ (PokerStarsParser.ParseContent content).1, StreetsForward h := by
  obtain ⟨r, hinv⟩ := streetInv_foldl (scanLines content).1 PState.init none streetInv_init hfw
  exact streetsForward_finish _ r hinv

/-- C11, witness: two hands with markers in forward order. The first has five actions on
the streets preflop, flop, flop, turn, river, the second two actions on preflop and flop. -/
theorem streets_forward_of_markers_forward_witness :
    markersForward none (scanLines forwardText).1 = true ∧
    (PokerStarsParser.ParseContent forwardText).1.map
        (fun h => h.Actions.map (fun a => a.Street)) =
      [["preflop".toList, "flop".toList, "flop".toList, "turn".toList, "river".toList],
       ["preflop".toList, "flop".toList]] ∧
    ∀ h ∈ (PokerStarsParser.ParseContent forwardText).1, StreetsForward h :=
  ⟨by decide, by decide, streets_forward_of_markers_forward forwardText (by decide)⟩

/-! ## Every match of a pattern -/

theorem starGreedy_rel (Q : MState → MState → Prop) (hrefl : ∀ s, Q s s)
    (htrans : ∀ a b c, Q a b → Q b c → Q a c) (step : MState → List MState)
    (hstep : ∀ s t, t ∈ step s → Q s t) (fuel : Nat) (s t : MState)
    (ht : t ∈ starGreedy step fuel s) : Q s t := by
  induction fuel generalizing s with
  | zero =>
    simp only [starGreedy, List.mem_singleton] at ht
    subst ht; exact hrefl _
  | succ f ih =>
    simp only [starGreedy, List.mem_append, List.mem_flatMap, List.mem_filter,
      List.mem_singleton] at ht
    rcases ht with ⟨u, ⟨hu, _⟩, htu⟩ | ht
    · exact htrans _ _ _ (hstep s u hu) (ih u htu)
    · subst ht; exact hrefl _

theorem starLazy_rel (Q : MState → MState → Prop) (hrefl : ∀ s, Q s s)
    (htrans : ∀ a b c, Q a b → Q b c → Q a c) (step : MState → List MState)
    (hstep : ∀ s t, t ∈ step s → Q s t) (fuel : Nat) (s t : MState)
    (ht : t ∈ starLazy step fuel s) : Q s t := by
  induction fuel generalizing s with
  | zero =>
    simp only [starLazy, List.mem_singleton] at ht
    subst ht; exact hrefl _
  | succ f ih =>
    simp only [starLazy, List.mem_cons, List.mem_flatMap, List.mem_filter] at ht
    rcases ht with ht | ⟨u, ⟨hu, _⟩, htu⟩
    · subst ht; exact hrefl _
    · exact htrans _ _ _ (hstep s u hu) (ih u htu)

/-- A relation between matcher states that holds across one character, is reflexive and
transitive, and survives the recording of the groups `ok` allows, holds between the start
and every match of an expression whose groups are all allowed. -/
theorem run_rel (Q : MState → MState → Prop) (ok : Nat → Prop) (hrefl : ∀ s, Q s s)
    (htrans : ∀ a b c, Q a b → Q b c → Q a c)
    (hcls : ∀ (s : MState) (c : Char) (cs : Str), s.rest = c :: cs →
      Q s { s with pos := s.pos + 1, rest := cs })
    (hgrp : ∀ (i : Nat) (s t : MState), ok i → Q s t →
      Q s { t with caps := t.caps.set i (s.rest.take (s.rest.length - t.rest.length)) })
    (r : Re) (hr : ∀ i ∈ r.groupsIn, ok i) (s t : MState) (ht : t ∈ Re.run r s) : Q s t := by
  induction r generalizing s t with
  | eps =>
    simp only [Re.run, List.mem_singleton] at ht
    subst ht; exact hrefl _
  | cls p =>
    unfold Re.run at ht
    split at ht
    · simp at ht
    · rename_i c cs hrest
      split at ht
      · simp only [List.mem_singleton] at ht
        subst ht
        exact hcls s c cs hrest
      · simp at ht
  | bol =>
    unfold Re.run at ht
    split at ht
    · simp only [List.mem_singleton] at ht
      subst ht; exact hrefl _
    · simp at ht
  | seq a b iha ihb =>
    simp only [Re.run, List.mem_flatMap] at ht
    obtain ⟨u, hu, htu⟩ := ht
    exact htrans _ _ _
      (iha (fun i hi => hr i (by simp [Re.groupsIn, hi])) s u hu)
      (ihb (fun i hi => hr i (by simp [Re.groupsIn, hi])) u t htu)
  | alt a b iha ihb =>
    simp only [Re.run, List.mem_append] at ht
    rcases ht with ht | ht
    · exact iha (fun i hi => hr i (by simp [Re.groupsIn, hi])) s t ht
    · exact ihb (fun i hi => hr i (by simp [Re.groupsIn, hi])) s t ht
  | star a iha =>
    simp only [Re.run] at ht
    exact starGreedy_rel Q hrefl htrans _
      (fun s t h => iha (fun i hi => hr i (by simpa [Re.groupsIn] using hi)) s t h) _ s t ht
  | lazyStar a iha =>
    simp only [Re.run] at ht
    exact starLazy_rel Q hrefl htrans _
      (fun s t h => iha (fun i hi => hr i (by simpa [Re.groupsIn] using hi)) s t h) _ s t ht
  | grp i a iha =>
    simp only [Re.run, List.mem_map] at ht
    obtain ⟨u, hu, rfl⟩ := ht
    exact hgrp i s u (hr i (by simp [Re.groupsIn]))
      (iha (fun j hj => hr j (by simp [Re.groupsIn, hj])) s u hu)

/-- Every match keeps the number of captures. -/
theorem run_caps_length (r : Re) (s t : MState) (ht : t ∈ Re.run r s) :
    t.caps.length = s.caps.length :=
  run_rel (fun s t => t.caps.length = s.caps.length) (fun _ => True) (fun _ => rfl)
    (fun _ _ _ h1 h2 => h2.trans h1) (fun _ _ _ _ => rfl)
    (fun _ _ _ _ h => by simpa using h) r (fun _ _ => trivial) s t ht

/-- Every match leaves alone the captures of the groups the expression does not have. -/
theorem run_caps_frame (k : Nat) (r : Re) (hk : k ∉ r.groupsIn) (s t : MState)
    (ht : t ∈ Re.run r s) : t.caps[k]? = s.caps[k]? :=
  run_rel (fun s t => t.caps[k]? = s.caps[k]?) (fun i => i ≠ k) (fun _ => rfl)
    (fun _ _ _ h1 h2 => h2.trans h1) (fun _ _ _ _ => rfl)
    (fun i _ _ hi h => by
      simp only [List.getElem?_set_ne hi]
      exact h)
    r (fun i hi hik => hk (hik ▸ hi)) s t ht

theorem rest_of_mem_run_lit (w : Str) (s t : MState) (ht : t ∈ Re.run (Re.lit w) s) :
    s.rest = w ++ t.rest ∧ t.caps = s.caps := by
  induction w generalizing s with
  | nil =>
    simp only [Re.lit, Re.run, List.mem_singleton] at ht
    subst ht; exact ⟨rfl, rfl⟩
  | cons c cs ih =>
    have hrun : Re.run (Re.lit (c :: cs)) s =
        (Re.run (Re.chr c) s).flatMap (fun t => Re.run (Re.lit cs) t) := rfl
    rw [hrun, List.mem_flatMap] at ht
    obtain ⟨u, hu, htu⟩ := ht
    obtain ⟨h1, h2⟩ := ih u htu
    unfold Re.chr Re.run at hu
    split at hu
    · simp at hu
    · rename_i x xs hrest
      split at hu
      · rename_i hx
        simp only [List.mem_singleton] at hu
        subst hu
        simp only [beq_iff_eq] at hx
        subst hx
        simp only at h1 h2
        exact ⟨by rw [hrest, h1]; rfl, h2⟩
      · simp at hu

theorem mem_run_alt {a b : Re} {s t : MState} :
    t ∈ Re.run (.alt a b) s ↔ t ∈ Re.run a s ∨ t ∈ Re.run b s := by
  show t ∈ Re.run a s ++ Re.run b s ↔ _
  exact List.mem_append

theorem mem_run_seq {a b : Re} {s t : MState} :
    t ∈ Re.run (.seq a b) s ↔ ∃ u, u ∈ Re.run a s ∧ t ∈ Re.run b u := by
  show t ∈ (Re.run a s).flatMap (fun u => Re.run b u) ↔ _
  exact List.mem_flatMap

theorem mem_run_grp {a : Re} {i : Nat} {s t : MState} :
    t ∈ Re.run (.grp i a) s ↔ ∃ u, u ∈ Re.run a s ∧
      t = { u with caps := u.caps.set i (s.rest.take (s.rest.length - u.rest.length)) } := by
  show t ∈ (Re.run a s).map _ ↔ _
  rw [List.mem_map]
  constructor
  · rintro ⟨u, hu, rfl⟩; exact ⟨u, hu, rfl⟩
  · rintro ⟨u, hu, rfl⟩; exact ⟨u, hu, rfl⟩

theorem verb_of_mem_run_actionVerbs (s t : MState) (ht : t ∈ Re.run actionVerbs s) :
    ∃ v ∈ actionVerbList, s.rest = v ++ t.rest ∧ t.caps = s.caps := by
  unfold actionVerbs at ht
  simp only [mem_run_alt] at ht
  rcases ht with h | h | h | h | h | h | h | h <;>
    exact ⟨_, by simp [actionVerbList], rest_of_mem_run_lit _ s t h⟩

theorem findFrom_some (r : Re) (n : Nat) (s : Str) (pos : Nat) (m : List Str)
    (h : Re.findFrom r n pos s = some m) :
    ∃ (pos' : Nat) (s' : Str) (t : MState) (w : Str),
      t ∈ Re.run r { pos := pos', rest := s', caps := List.replicate (n + 1) [] } ∧
      m = t.caps.set 0 w := by
  induction s generalizing pos with
  | nil =>
    unfold Re.findFrom at h
    split at h
    · rename_i t ts hrun
      simp only [Option.some.injEq] at h
      exact ⟨pos, [], t, [], by rw [hrun]; simp, h.symm⟩
    · cases h
  | cons c cs ih =>
    unfold Re.findFrom at h
    split at h
    · rename_i t ts hrun
      simp only [Option.some.injEq] at h
      exact ⟨pos, c :: cs, t, _, by rw [hrun]; simp, h.symm⟩
    · exact ih _ h

theorem actionTail_groups : 2 ∉ actionTail.groupsIn := by decide

/-- The second submatch of the action pattern is always one of the eight verbs. -/
theorem actionLine_verb (line : Str) (m : List Str)
    (h : actionLine.FindStringSubmatch line = some m) : m.getD 2 [] ∈ actionVerbList := by
  unfold Regexp.FindStringSubmatch at h
  obtain ⟨pos, s', t, w, ht, hm⟩ := findFrom_some _ _ _ _ _ h
  rw [actionLine_re_eq] at ht
  simp only [mem_run_seq] at ht
  obtain ⟨s1, hs1, s2, hs2, s3, hs3, s4, hs4, s5, hs5, ht⟩ := ht
  obtain ⟨u5, hu5, hs5⟩ := mem_run_grp.mp hs5
  obtain ⟨v, hv, hrest, hcaps⟩ := verb_of_mem_run_actionVerbs s4 u5 hu5
  -- the number of captures stays 5
  have hlen : u5.caps.length = 5 := by
    rw [run_caps_length _ _ _ hu5, run_caps_length _ _ _ hs4, run_caps_length _ _ _ hs3,
      run_caps_length _ _ _ hs2, run_caps_length _ _ _ hs1]
    rfl
  have h5 : s5.caps[2]? = some v := by
    rw [hs5]
    simp only
    rw [hrest, take_length_sub, List.getElem?_set_self (by omega)]
  have ht2 : t.caps[2]? = some v := by
    rw [run_caps_frame 2 actionTail actionTail_groups s5 t ht, h5]
  rw [hm, List.getD_eq_getElem?_getD, List.getElem?_set_ne (by decide), ht2]
  exact hv

/-! ## Action kinds and amounts -/

theorem actionKind_of_verb {v : Str} (hv : v ∈ actionVerbList) :
    (actionKind v).isSome = true := by
  simp only [actionVerbList, List.mem_cons, List.mem_singleton, List.not_mem_nil,
    or_false] at hv
  rcases hv with h | h | h | h | h | h | h | h <;> subst h <;> decide

theorem mkFin_nonneg (m : Nat) (e : Int) : (F64.mkFin false m e).nonneg = true := by
  unfold F64.mkFin
  split <;> rfl

theorem roundRat_nonneg (n d : Nat) : (F64.roundRat false n d).nonneg = true := by
  have key : ∀ (c : Prop) [Decidable c] (m : Nat) (e : Int),
      (if c then F64.inf false else F64.mkFin false m e).nonneg = true := by
    intro c _ m e
    split
    · rfl
    · exact mkFin_nonneg _ _
  unfold F64.roundRat
  split
  · rfl
  · exact key _ _ _

theorem parseFloat_nonneg (s : Str) : (ParseFloat s).1.nonneg = true := by
  unfold ParseFloat
  simp only
  split
  · rfl
  · split
    · split <;> exact roundRat_nonneg _ _
    · split
      · split <;> exact roundRat_nonneg _ _
      · rfl

theorem actionAmount_nonneg (m : List Str) : (actionAmount m).nonneg = true := by
  have hdef : actionAmount m =
      if 4 < m.length ∧ m.getD 4 [] ≠ [] then (ParseFloat (m.getD 4 [])).1
      else if 3 < m.length ∧ m.getD 3 [] ≠ [] then (ParseFloat (m.getD 3 [])).1
      else F64.zero := rfl
  rw [hdef]
  split
  · exact parseFloat_nonneg _
  · split
    · exact parseFloat_nonneg _
    · rfl

theorem addAction_ok (line street : Str) (n : Int) (h : Hand)
    (hok : ∀ a ∈ h.Actions, ActionOK a) :
    ∀ a ∈ (addAction line street n h).1.Actions, ActionOK a := by
  unfold addAction
  split
  · rename_i m hm
    intro a ha
    simp only [List.mem_append, List.mem_singleton] at ha
    rcases ha with ha | ha
    · exact hok a ha
    · subst ha
      have hv := actionLine_verb line m hm
      exact ⟨hv, actionKind_of_verb hv, actionAmount_nonneg m⟩
  · exact hok

theorem actionInv_init : ActionInv PState.init := by
  refine ⟨?_, ?_⟩
  · intro h hh; simp [PState.init] at hh
  · intro cur hc; simp [PState.init] at hc

theorem actionInv_step (st : PState) (line : Str) (hinv : ActionInv st) :
    ActionInv (step st line) := by
  obtain ⟨hh, hc⟩ := hinv
  cases hl : isHandStart line with
  | true =>
    obtain ⟨ms, hms⟩ := step_of_start st hl
    rw [hms]
    refine ⟨?_, ?_⟩
    · intro h hmem
      simp only [startHand] at hmem
      cases hcur : st.currentHand with
      | none => rw [hcur] at hmem; exact hh h hmem
      | some cur =>
        rw [hcur] at hmem
        simp only [List.mem_append, List.mem_singleton] at hmem
        rcases hmem with hmem | hmem
        · exact hh h hmem
        · subst hmem
          exact hc cur hcur
    · intro cur hcur a ha
      simp only [startHand, Option.some.injEq] at hcur
      subst hcur
      simp [Hand.new] at ha
  | false =>
    rw [step_of_not_start hl]
    cases hcur : st.currentHand with
    | none => exact ⟨hh, fun cur h => by rw [hcur] at h; cases h⟩
    | some cur =>
      refine ⟨hh, ?_⟩
      intro cur' hcur' a ha
      simp only [inHand, Option.some.injEq] at hcur'
      subst hcur'
      simp only [addCollected_Actions, setPot_Actions] at ha
      refine addAction_ok line _ _ _ ?_ a ha
      intro b hb
      simp only [setBoard_Actions, setHoleCards_Actions, addPlayer_Actions,
        setTable_Actions] at hb
      exact hc cur hcur b hb

theorem actionInv_foldl (lines : List Str) (st : PState) (hinv : ActionInv st) :
    ActionInv (lines.foldl step st) := by
  induction lines generalizing st with
  | nil => exact hinv
  | cons l ls ih => exact ih _ (actionInv_step st l hinv)

/-- C13. For every input text, every action of every returned hand has as action string one
of the eight verbs of the action grammar, each of which stands for one of the seven kinds
of the data model (fold, check, call, bet, raise, post-blind, post-ante), and an amount that
is non-negative (`Amount >= 0`; it may be `+Inf`). -/
theorem parseContent_action_kinds (content : Str) (h : Hand)
    (hmem : h ∈ (PokerStarsParser.ParseContent content).1) (a : Action)
    (ha : a ∈ h.Actions) :
    a.Action ∈ actionVerbList ∧ (actionKind a.Action).isSome = true ∧
      a.Amount.nonneg = true := by
  have hinv := actionInv_foldl (scanLines content).1 PState.init actionInv_init
  obtain ⟨hh, hc⟩ := hinv
  unfold PokerStarsParser.ParseContent finish at hmem
  cases hcur : ((scanLines content).1.foldl step PState.init).currentHand with
  | none =>
    rw [hcur] at hmem
    exact hh h hmem a ha
  | some cur =>
    rw [hcur] at hmem
    simp only [List.mem_append, List.mem_singleton] at hmem
    rcases hmem with hmem | hmem
    · exact hh h hmem a ha
    · subst hmem
      exact hc cur hcur a ha

/-- C13, witness: the first action of the first hand of the two-hand text. -/
theorem parseContent_action_kinds_witness :
    ∃ h, h ∈ (PokerStarsParser.ParseContent twoHandsText).1 ∧
      ∃ a, a ∈ h.Actions ∧ a.Action = "posts small blind".toList ∧
        actionKind a.Action = some ActionKind.postBlind ∧ a.Amount.nonneg = true :=
  ⟨(PokerStarsParser.ParseContent twoHandsText).1.headD (Hand.new []), by decide,
    ((PokerStarsParser.ParseContent twoHandsText).1.headD (Hand.new [])).Actions.headD
      (actionOf sampleState [] [] [] F64.zero),
    by decide, by decide, by decide,
    (parseContent_action_kinds twoHandsText
      ((PokerStarsParser.ParseContent twoHandsText).1.headD (Hand.new [])) (by decide)
      (((PokerStarsParser.ParseContent twoHandsText).1.headD (Hand.new [])).Actions.headD
        (actionOf sampleState [] [] [] F64.zero)) (by decide)).2.2⟩

/-! ## Board -/

section BoardFields

variable (line : Str) (h : Hand)

@[simp]
theorem setPot_Board : (setPot line h).Board = h.Board := by
  unfold setPot; split <;> [split <;> rfl; rfl]
@[simp]
theorem addCollected_Board : (addCollected line h).Board = h.Board := by
  unfold addCollected; split <;> [split <;> [split <;> rfl; rfl]; rfl]
@[simp]
theorem addAction_Board (street : Str) (n : Int) :
    (addAction line street n h).1.Board = h.Board := by
  unfold addAction; split <;> rfl

end BoardFields

theorem fieldsAux_token (t rest cur : Str) (ht : ∀ c ∈ t, isSpace c = false) :
    fieldsAux (t ++ rest) cur = fieldsAux rest (cur ++ t) := by
  induction t generalizing cur with
  | nil => simp
  | cons c cs ih =>
    have hc : isSpace c = false := ht c (List.mem_cons_self _ _)
    have h := ih (cur ++ [c]) (fun x hx => ht x (List.mem_cons_of_mem _ hx))
    have e : fieldsAux (c :: cs ++ rest) cur = fieldsAux (cs ++ rest) (cur ++ [c]) := by
      rw [List.cons_append, fieldsAux, if_neg (by simp [hc])]
    rw [e, h]
    simp

theorem fields_joinTokens (tokens : List Str) (ht : ∀ t ∈ tokens, isToken t = true) :
    fields (joinTokens tokens) = tokens := by
  have hsp : ∀ t ∈ tokens, ∀ c ∈ t, isSpace c = false := by
    intro t htm c hc
    have := ht t htm
    simp only [isToken, Bool.and_eq_true, List.all_eq_true, Bool.not_eq_true',
      bne_iff_ne] at this
    exact (this.2 c hc).1
  have hne : ∀ t ∈ tokens, t ≠ [] := by
    intro t htm h0
    have := ht t htm
    subst h0
    simp [isToken] at this
  unfold fields
  induction tokens with
  | nil => rfl
  | cons t ts ih =>
    have ht1 := hsp t (List.mem_cons_self _ _)
    have hn1 := hne t (List.mem_cons_self _ _)
    cases ts with
    | nil =>
      have h := fieldsAux_token t [] [] ht1
      simp only [List.append_nil, List.nil_append] at h
      simp only [joinTokens]
      rw [h]
      simp [fieldsAux, hn1]
    | cons u us =>
      have h := fieldsAux_token t (' ' :: joinTokens (u :: us)) [] ht1
      have ih' := ih (fun x hx => ht x (List.mem_cons_of_mem _ hx))
        (fun x hx => hsp x (List.mem_cons_of_mem _ hx))
        (fun x hx => hne x (List.mem_cons_of_mem _ hx))
      simp only [joinTokens]
      rw [h]
      have hspace : isSpace ' ' = true := by decide
      simp only [List.nil_append, fieldsAux, hspace, if_true]
      simp [hn1, ih']

theorem isToken_chars {tokens : List Str} (ht : ∀ t ∈ tokens, isToken t = true) :
    ∀ c ∈ joinTokens tokens, (c != ']') = true := by
  induction tokens with
  | nil => intro c hc; simp [joinTokens] at hc
  | cons t ts ih =>
    have h1 : ∀ c ∈ t, (c != ']') = true := by
      intro c hc
      have := ht t (List.mem_cons_self _ _)
      simp only [isToken, Bool.and_eq_true, List.all_eq_true] at this
      exact (this.2 c hc).2
    cases ts with
    | nil => simpa [joinTokens] using h1
    | cons u us =>
      intro c hc
      simp only [joinTokens, List.mem_append, List.mem_cons] at hc
      rcases hc with hc | hc | hc
      · exact h1 c hc
      · subst hc; decide
      · exact ih (fun x hx => ht x (List.mem_cons_of_mem _ hx)) c hc

theorem joinTokens_ne_nil {tokens : List Str} (hne : tokens ≠ [])
    (ht : ∀ t ∈ tokens, isToken t = true) : joinTokens tokens ≠ [] := by
  cases tokens with
  | nil => exact absurd rfl hne
  | cons t ts =>
    have h1 : t ≠ [] := by
      intro h0
      have := ht t (List.mem_cons_self _ _)
      subst h0
      simp [isToken] at this
    cases ts with
    | nil => simpa [joinTokens] using h1
    | cons u us => simp [joinTokens]

theorem boardLine_re_eq :
    boardLine.re = .seq (Re.lit "*** ".toList)
      (.seq (.grp 1 (.alt (Re.lit "FLOP".toList) (.alt (Re.lit "TURN".toList)
        (Re.lit "RIVER".toList))))
      (.seq (Re.lit " ***".toList) (.seq (Re.plus Re.space) (.seq (Re.chr '[')
        (.seq (.grp 2 (Re.plus (Re.notChr ']'))) (Re.chr ']')))))) := rfl

theorem fst_boardMarker {marker : Str} (hm : marker ∈ boardMarkers) (pos : Nat) (R : Str)
    (c : List Str) :
    Fst (.alt (Re.lit "FLOP".toList) (.alt (Re.lit "TURN".toList) (Re.lit "RIVER".toList)))
      pos marker R c c := by
  have hlit := fst_lit marker pos R c
  simp only [boardMarkers, List.mem_cons, List.mem_singleton, List.not_mem_nil,
    or_false] at hm
  rcases hm with h | h | h <;> subst h
  · exact fst_alt_left hlit
  · exact fst_alt_right (by simp [Re.run, Re.lit, Re.chr]) (fst_alt_left hlit)
  · exact fst_alt_right (by simp [Re.run, Re.lit, Re.chr])
      (fst_alt_right (by simp [Re.run, Re.lit, Re.chr]) hlit)

/-- The submatches of the board pattern on a board-cards line with one group. -/
theorem boardLine_find (marker : Str) (tokens : List Str) (hm : marker ∈ boardMarkers)
    (hne : tokens ≠ []) (ht : ∀ t ∈ tokens, isToken t = true) :
    boardLine.FindStringSubmatch (boardCardsLine marker tokens) =
      some [boardCardsLine marker tokens, marker, joinTokens tokens] := by
  have h : Fst boardLine.re 0 (boardCardsLine marker tokens) [] (List.replicate 3 [])
      (((List.replicate 3 []).set 1 marker).set 2 (joinTokens tokens)) := by
    rw [boardLine_re_eq]
    unfold boardCardsLine
    refine fst_seq (fst_lit _ _ _ _) (fst_seq (fst_grp 1 (fst_boardMarker hm _ _ _))
      (fst_seq (fst_lit _ _ _ _) (fst_seq (fst_plus_cls (by simp) (by simp [Re.isReSpace])
        (stopsAt_cons (by decide) _) _ _) (fst_seq (fst_chr '[' _ _ _)
          (fst_seq (fst_grp 2 (fst_plus_cls (joinTokens_ne_nil hne ht) ?_
            (stopsAt_cons (by simp [Re.notChr]) _) _ _)) (fst_chr ']' _ _ _))))))
    intro x hx
    simpa [Re.notChr] using isToken_chars ht x hx
  unfold Fst at h
  unfold Regexp.FindStringSubmatch
  have hn : boardLine.ngroups + 1 = 3 := rfl
  rw [List.append_nil] at h
  rw [findFrom_of_head? (hn ▸ h)]
  simp [List.replicate]

/-- C12, counterexample. A hand with the flop, turn and river lines as PokerStars writes
them ends with a board of four cards (the river card, in the second bracket, is not read),
and a hand whose flop line lists six tokens has a board of six entries. -/
theorem board_not_five_cards :
    (PokerStarsParser.ParseContent boardText).2 = none ∧
    (PokerStarsParser.ParseContent boardText).1.map (fun h => h.Board) =
      [["Ah".toList, "Kd".toList, "2c".toList, "5s".toList],
       ["Ah".toList, "Kd".toList, "2c".toList, "5s".toList, "9h".toList, "Qd".toList]] ∧
    (PokerStarsParser.ParseContent boardText).1.map (fun h => h.Board.length) = [4, 6] := by
  refine ⟨?_, ?_, ?_⟩ <;> decide

/-- C12, amended. Inside a hand, a board-cards line with one bracketed group,
`*** FLOP|TURN|RIVER *** [t1 ... tn]`, replaces the board of the hand by the ordered list of
the tokens `t1 ... tn`, whatever their number; a line the board pattern does not match
leaves the board as it is. -/
theorem board_line_sets_board (st : PState) (cur : Hand) (hcur : st.currentHand = some cur) :
    (∀ (marker : Str) (tokens : List Str), marker ∈ boardMarkers → tokens ≠ [] →
      (∀ t ∈ tokens, isToken t = true) → isHandStart (boardCardsLine marker tokens) = false →
      ∃ cur', (step st (boardCardsLine marker tokens)).currentHand = some cur' ∧
        cur'.Board = tokens) ∧
    (∀ line : Str, isHandStart line = false → boardLine.FindStringSubmatch line = none →
      ∃ cur', (step st line).currentHand = some cur' ∧ cur'.Board = cur.Board) := by
  refine ⟨?_, ?_⟩
  · intro marker tokens hm hne ht hstart
    rw [step_of_not_start hstart, hcur]
    refine ⟨_, rfl, ?_⟩
    simp only [inHand, addCollected_Board, setPot_Board, addAction_Board]
    unfold setBoard
    rw [boardLine_find marker tokens hm hne ht]
    simp only []
    exact fields_joinTokens tokens ht
  · intro line hstart hnone
    rw [step_of_not_start hstart, hcur]
    refine ⟨_, rfl, ?_⟩
    simp only [inHand, addCollected_Board, setPot_Board, addAction_Board]
    unfold setBoard
    rw [hnone]
    simp only []
    unfold setHoleCards
    split <;> (unfold addPlayer; split <;> (unfold setTable; split <;> rfl))

/-- C12, witness: a flop line with three cards inside a hand. -/
theorem board_line_sets_board_witness :
    sampleState.currentHand = some (Hand.new "1".toList) ∧
    isHandStart (boardCardsLine "FLOP".toList ["Ah".toList, "Kd".toList, "2c".toList]) = false ∧
    ∃ cur',
      (step sampleState
        (boardCardsLine "FLOP".toList ["Ah".toList, "Kd".toList, "2c".toList])).currentHand =
        some cur' ∧
      cur'.Board = ["Ah".toList, "Kd".toList, "2c".toList] :=
  ⟨rfl, by decide,
    (board_line_sets_board sampleState (Hand.new "1".toList) rfl).1 "FLOP".toList
      ["Ah".toList, "Kd".toList, "2c".toList] (by decide) (by decide) (by decide) (by decide)⟩

theorem processHands_cons {σ : Type} (repo : HandRepository σ) (enc : JsonEnc) (siteID : Int)
    (hand : Hand) (hands : List Hand) (s : σ) (saved skipped : Nat) :
    processHands repo enc siteID (hand :: hands) s saved skipped =
      match repo.Exists s siteID hand.HandID with
      | (s1, _, some _) => processHands repo enc siteID hands s1 saved skipped
      | (s1, true, none) => processHands repo enc siteID hands s1 saved (skipped + 1)
      | (s1, false, none) =>
        match repo.Create s1 (convertToDBHand enc hand siteID) with
        | (s2, some _) => processHands repo enc siteID hands s2 saved skipped
        | (s2, none) => processHands repo enc siteID hands s2 (saved + 1) skipped := rfl

/-- The loop on the set repository: the keys it creates are new, pairwise distinct, and are
the keys of the hands that the store lacked; the rest of the hands are skipped. -/
theorem processHands_setRepository (enc : JsonEnc) (siteID : Int) (hands : List Hand) :
    ∀ (s : List (Int × Str)) (saved skipped : Nat),
      ∃ created : List (Int × Str),
        processHands setRepository enc siteID hands s saved skipped =
          (s ++ created, saved + created.length, skipped + (hands.length - created.length)) ∧
        created.length ≤ hands.length ∧ created.Nodup ∧
        (∀ k, k ∈ created ↔ k ∉ s ∧ ∃ h ∈ hands, k = (siteID, h.HandID)) := by
  induction hands with
  | nil => intro s saved skipped; exact ⟨[], by simp [processHands], by simp, by simp, by simp⟩
  | cons hand hands ih =>
    intro s saved skipped
    by_cases hk : (siteID, hand.HandID) ∈ s
    · obtain ⟨created, he, hl, hn, hm⟩ := ih s saved (skipped + 1)
      refine ⟨created, ?_, ?_, hn, ?_⟩
      · have e1 : setRepository.Exists s siteID hand.HandID = (s, true, none) := by
          simp [setRepository, hk]
        rw [processHands_cons, e1]
        show processHands _ enc siteID hands s saved (skipped + 1) = _
        rw [he]
        simp only [List.length_cons, Prod.mk.injEq, true_and]
        omega
      · simp only [List.length_cons]; omega
      · intro k
        rw [hm k]
        constructor
        · rintro ⟨h1, h, hh, rfl⟩; exact ⟨h1, h, List.mem_cons_of_mem _ hh, rfl⟩
        · rintro ⟨h1, h, hh, rfl⟩
          rcases List.mem_cons.mp hh with rfl | hh
          · exact absurd hk h1
          · exact ⟨h1, h, hh, rfl⟩
    · obtain ⟨created, he, hl, hn, hm⟩ := ih (s ++ [(siteID, hand.HandID)]) (saved + 1) skipped
      refine ⟨(siteID, hand.HandID) :: created, ?_, ?_, ?_, ?_⟩
      · have e1 : setRepository.Exists s siteID hand.HandID = (s, false, none) := by
          simp [setRepository, hk]
        have e2 : setRepository.Create s (convertToDBHand enc hand siteID) =
            (s ++ [(siteID, hand.HandID)], none) := rfl
        rw [processHands_cons, e1]
        show (match setRepository.Create s (convertToDBHand enc hand siteID) with
          | (s2, some _) => processHands setRepository enc siteID hands s2 saved skipped
          | (s2, none) => processHands setRepository enc siteID hands s2 (saved + 1) skipped) = _
        rw [e2]
        show processHands _ enc siteID hands (s ++ [(siteID, hand.HandID)]) (saved + 1)
              skipped = _
        rw [he]
        simp only [List.length_cons, Prod.mk.injEq, List.append_assoc, List.singleton_append,
          true_and]
        omega
      · simp only [List.length_cons]; omega
      · refine List.nodup_cons.mpr ⟨?_, hn⟩
        intro hc
        exact ((hm _).mp hc).1 (by simp)
      · intro k
        rw [List.mem_cons, hm k]
        constructor
        · rintro (rfl | ⟨h1, h, hh, rfl⟩)
          · exact ⟨hk, hand, List.mem_cons_self _ _, rfl⟩
          · exact ⟨fun hc => h1 (List.mem_append_left _ hc), h, List.mem_cons_of_mem _ hh, rfl⟩
        · rintro ⟨h1, h, hh, rfl⟩
          by_cases he2 : (siteID, h.HandID) = (siteID, hand.HandID)
          · exact Or.inl he2
          · right
            rcases List.mem_cons.mp hh with rfl | hh
            · exact absurd rfl he2
            · refine ⟨?_, h, hh, rfl⟩
              intro hc
              rcases List.mem_append.mp hc with hc | hc
              · exact h1 hc
              · exact he2 (by simpa using hc)

theorem count_eq_one_of_nodup {α : Type} [BEq α] [LawfulBEq α] (a : α) :
    ∀ l : List α, l.Nodup → a ∈ l → l.count a = 1 := by
  intro l
  induction l with
  | nil => intro _ h; simp at h
  | cons b t ih =>
    intro hn hm
    obtain ⟨hb, ht⟩ := List.nodup_cons.mp hn
    rw [List.count_cons]
    by_cases hba : b = a
    · subst hba
      rw [List.count_eq_zero_of_not_mem hb]
      simp
    · rcases List.mem_cons.mp hm with h | h
      · exact absurd h.symm hba
      · rw [ih ht h]
        simp [hba]

/-- C14. On a repository of hands that is a set of keys (`Exists` answers membership,
`Create` adds the key and succeeds), the loop of `processFile` over a list of hands, run a
second time over the same list, creates nothing (the store is unchanged, `saved = 0`,
`skipped` is the number of hands); after the first pass the key of every hand is in the
store, every key that the store lacked has been created exactly once, also when the list
repeats an identifier, and `saved` counts the distinct new identifiers. -/
theorem processHands_idempotent (enc : JsonEnc) (siteID : Int) (hands : List Hand)
    (s0 : List (Int × Str)) :
    processHands setRepository enc siteID hands
        (processHands setRepository enc siteID hands s0 0 0).1 0 0 =
      ((processHands setRepository enc siteID hands s0 0 0).1, 0, hands.length) ∧
    (∀ h ∈ hands, (siteID, h.HandID) ∈ (processHands setRepository enc siteID hands s0 0 0).1) ∧
    (∀ h ∈ hands, (siteID, h.HandID) ∉ s0 →
      (processHands setRepository enc siteID hands s0 0 0).1.count (siteID, h.HandID) = 1) ∧
    (processHands setRepository enc siteID hands s0 0 0).2.1 =
      (((hands.map (fun h => h.HandID)).dedup).filter
        (fun id => decide ((siteID, id) ∉ s0))).length ∧
    (processHands setRepository enc siteID hands s0 0 0).2.1 +
      (processHands setRepository enc siteID hands s0 0 0).2.2 = hands.length := by
  obtain ⟨created, he, hl, hn, hm⟩ := processHands_setRepository enc siteID hands s0 0 0
  have hall : ∀ h ∈ hands, (siteID, h.HandID) ∈ s0 ++ created := by
    intro h hh
    by_cases hk : (siteID, h.HandID) ∈ s0
    · exact List.mem_append_left _ hk
    · exact List.mem_append_right _ ((hm _).mpr ⟨hk, h, hh, rfl⟩)
  rw [he]
  refine ⟨?_, hall, ?_, ?_, ?_⟩
  · obtain ⟨created2, he2, hl2, hn2, hm2⟩ :=
      processHands_setRepository enc siteID hands (s0 ++ created) 0 0
    have hnil : created2 = [] := by
      apply List.eq_nil_iff_forall_not_mem.mpr
      intro k hk
      obtain ⟨h1, h, hh, rfl⟩ := (hm2 k).mp hk
      exact h1 (hall h hh)
    subst hnil
    simpa using he2
  · intro h hh hk
    show (s0 ++ created).count (siteID, h.HandID) = 1
    rw [List.count_append, List.count_eq_zero_of_not_mem hk, Nat.zero_add]
    exact count_eq_one_of_nodup _ _ hn ((hm _).mpr ⟨hk, h, hh, rfl⟩)
  · show 0 + created.length = _
    rw [Nat.zero_add]
    have hp : List.Perm (created.map Prod.snd) (((hands.map (fun h => h.HandID)).dedup).filter
        (fun id => decide ((siteID, id) ∉ s0))) := by
      refine (List.perm_ext_iff_of_nodup ?_ ((List.nodup_dedup _).filter _)).mpr ?_
      · refine (List.nodup_map_iff_inj_on hn).mpr ?_
        intro x hx y hy hxy
        obtain ⟨_, h, _, rfl⟩ := (hm x).mp hx
        obtain ⟨_, h2, _, rfl⟩ := (hm y).mp hy
        simp only at hxy
        rw [hxy]
      · intro id
        simp only [List.mem_map, List.mem_filter, List.mem_dedup, decide_eq_true_eq]
        constructor
        · rintro ⟨k, hk, rfl⟩
          obtain ⟨h1, h, hh, rfl⟩ := (hm k).mp hk
          exact ⟨⟨h, hh, rfl⟩, h1⟩
        · rintro ⟨⟨h, hh, rfl⟩, h1⟩
          exact ⟨(siteID, h.HandID), (hm _).mpr ⟨h1, h, hh, rfl⟩, rfl⟩
    rw [← hp.length_eq, List.length_map]
  · show 0 + created.length + (0 + (hands.length - created.length)) = hands.length
    omega

theorem logged_Exists {σ : Type} (repo : HandRepository σ) (s : σ) (log : List RepoCall)
    (siteID : Int) (handID : Str) :
    repo.logged.Exists (s, log) siteID handID =
      (((repo.Exists s siteID handID).1,
        log ++ [RepoCall.existsCall siteID handID (repo.Exists s siteID handID).2.1
                  (repo.Exists s siteID handID).2.2]),
       (repo.Exists s siteID handID).2) := rfl

theorem logged_Create {σ : Type} (repo : HandRepository σ) (s : σ) (log : List RepoCall)
    (h : database.Hand) :
    repo.logged.Create (s, log) h =
      (((repo.Create s h).1, log ++ [RepoCall.createCall h (repo.Create s h).2]),
       (repo.Create s h).2) := rfl

theorem processHands_check_failed {σ : Type} (repo : HandRepository σ) (enc : JsonEnc)
    (siteID : Int) (hand : Hand) (hands : List Hand) (s s1 : σ) (found : Bool) (e : ErrText)
    (saved skipped : Nat) (hE : repo.Exists s siteID hand.HandID = (s1, found, some e)) :
    processHands repo enc siteID (hand :: hands) s saved skipped =
      processHands repo enc siteID hands s1 saved skipped := by
  rw [processHands_cons, hE]
  cases found <;> rfl

theorem processHands_found {σ : Type} (repo : HandRepository σ) (enc : JsonEnc)
    (siteID : Int) (hand : Hand) (hands : List Hand) (s s1 : σ)
    (saved skipped : Nat) (hE : repo.Exists s siteID hand.HandID = (s1, true, none)) :
    processHands repo enc siteID (hand :: hands) s saved skipped =
      processHands repo enc siteID hands s1 saved (skipped + 1) := by
  rw [processHands_cons, hE]

theorem processHands_create_failed {σ : Type} (repo : HandRepository σ) (enc : JsonEnc)
    (siteID : Int) (hand : Hand) (hands : List Hand) (s s1 s2 : σ) (e : ErrText)
    (saved skipped : Nat) (hE : repo.Exists s siteID hand.HandID = (s1, false, none))
    (hC : repo.Create s1 (convertToDBHand enc hand siteID) = (s2, some e)) :
    processHands repo enc siteID (hand :: hands) s saved skipped =
      processHands repo enc siteID hands s2 saved skipped := by
  rw [processHands_cons, hE]
  show (match repo.Create s1 (convertToDBHand enc hand siteID) with
    | (s2, some _) => processHands repo enc siteID hands s2 saved skipped
    | (s2, none) => processHands repo enc siteID hands s2 (saved + 1) skipped) = _
  rw [hC]

theorem processHands_created {σ : Type} (repo : HandRepository σ) (enc : JsonEnc)
    (siteID : Int) (hand : Hand) (hands : List Hand) (s s1 s2 : σ)
    (saved skipped : Nat) (hE : repo.Exists s siteID hand.HandID = (s1, false, none))
    (hC : repo.Create s1 (convertToDBHand enc hand siteID) = (s2, none)) :
    processHands repo enc siteID (hand :: hands) s saved skipped =
      processHands repo enc siteID hands s2 (saved + 1) skipped := by
  rw [processHands_cons, hE]
  show (match repo.Create s1 (convertToDBHand enc hand siteID) with
    | (s2, some _) => processHands repo enc siteID hands s2 saved skipped
    | (s2, none) => processHands repo enc siteID hands s2 (saved + 1) skipped) = _
  rw [hC]

/-- The loop on a recording repository: the record grows by one block of calls per hand,
the counters by the successful creations and the hands found, and the repository under the
record goes through the states of the loop on the repository itself. -/
theorem processHands_logged {σ : Type} (repo : HandRepository σ) (enc : JsonEnc)
    (siteID : Int) (hands : List Hand) :
    ∀ (s : σ) (log : List RepoCall) (saved skipped : Nat),
      ∃ blocks : List (List RepoCall),
        List.Forall₂ (CallsOfHand enc siteID) hands blocks ∧
        (processHands repo.logged enc siteID hands (s, log) saved skipped).1.2 =
          log ++ blocks.flatten ∧
        (processHands repo.logged enc siteID hands (s, log) saved skipped).2.1 =
          saved + blocks.flatten.countP RepoCall.isSaved ∧
        (processHands repo.logged enc siteID hands (s, log) saved skipped).2.2 =
          skipped + blocks.flatten.countP RepoCall.isExisting ∧
        processHands repo enc siteID hands s saved skipped =
          ((processHands repo.logged enc siteID hands (s, log) saved skipped).1.1,
           (processHands repo.logged enc siteID hands (s, log) saved skipped).2) := by
  induction hands with
  | nil =>
    intro s log saved skipped
    exact ⟨[], List.Forall₂.nil, by simp [processHands], by simp [processHands],
      by simp [processHands], by simp [processHands]⟩
  | cons hand hands ih =>
    intro s log saved skipped
    rcases hE : repo.Exists s siteID hand.HandID with ⟨s1, found, err⟩
    have hL := logged_Exists repo s log siteID hand.HandID
    rw [hE] at hL
    cases err with
    | some e =>
      rw [processHands_check_failed repo enc siteID hand hands s s1 found e saved skipped hE,
        processHands_check_failed repo.logged enc siteID hand hands _ _ found e saved skipped hL]
      obtain ⟨blocks, hb, h1, h2, h3, h4⟩ :=
        ih s1 (log ++ [RepoCall.existsCall siteID hand.HandID found (some e)]) saved skipped
      refine ⟨[RepoCall.existsCall siteID hand.HandID found (some e)] :: blocks,
        List.Forall₂.cons (Or.inl ⟨found, some e, rfl, Or.inl (by simp)⟩) hb, ?_, ?_, ?_, h4⟩
      · simpa using h1
      · simpa [RepoCall.isSaved] using h2
      · simpa [RepoCall.isExisting] using h3
    | none =>
      cases found with
      | true =>
        rw [processHands_found repo enc siteID hand hands s s1 saved skipped hE,
          processHands_found repo.logged enc siteID hand hands _ _ saved skipped hL]
        obtain ⟨blocks, hb, h1, h2, h3, h4⟩ :=
          ih s1 (log ++ [RepoCall.existsCall siteID hand.HandID true none]) saved (skipped + 1)
        refine ⟨[RepoCall.existsCall siteID hand.HandID true none] :: blocks,
          List.Forall₂.cons (Or.inl ⟨true, none, rfl, Or.inr rfl⟩) hb, ?_, ?_, ?_, h4⟩
        · simpa using h1
        · simpa [RepoCall.isSaved] using h2
        · rw [h3]
          simp [RepoCall.isExisting]
          omega
      | false =>
        rcases hC : repo.Create s1 (convertToDBHand enc hand siteID) with ⟨s2, cerr⟩
        have hLC := logged_Create repo s1
          (log ++ [RepoCall.existsCall siteID hand.HandID false none])
          (convertToDBHand enc hand siteID)
        rw [hC] at hLC
        cases cerr with
        | some e =>
          rw [processHands_create_failed repo enc siteID hand hands s s1 s2 e saved skipped hE hC,
            processHands_create_failed repo.logged enc siteID hand hands _ _ _ e saved skipped
              hL hLC]
          obtain ⟨blocks, hb, h1, h2, h3, h4⟩ :=
            ih s2 (log ++ [RepoCall.existsCall siteID hand.HandID false none] ++
              [RepoCall.createCall (convertToDBHand enc hand siteID) (some e)]) saved skipped
          refine ⟨[RepoCall.existsCall siteID hand.HandID false none,
              RepoCall.createCall (convertToDBHand enc hand siteID) (some e)] :: blocks,
            List.Forall₂.cons (Or.inr ⟨some e, rfl⟩) hb, ?_, ?_, ?_, h4⟩
          · simpa using h1
          · simpa [RepoCall.isSaved] using h2
          · simpa [RepoCall.isExisting] using h3
        | none =>
          rw [processHands_created repo enc siteID hand hands s s1 s2 saved skipped hE hC,
            processHands_created repo.logged enc siteID hand hands _ _ _ saved skipped hL hLC]
          obtain ⟨blocks, hb, h1, h2, h3, h4⟩ :=
            ih s2 (log ++ [RepoCall.existsCall siteID hand.HandID false none] ++
              [RepoCall.createCall (convertToDBHand enc hand siteID) none]) (saved + 1) skipped
          refine ⟨[RepoCall.existsCall siteID hand.HandID false none,
              RepoCall.createCall (convertToDBHand enc hand siteID) none] :: blocks,
            List.Forall₂.cons (Or.inr ⟨none, rfl⟩) hb, ?_, ?_, ?_, h4⟩
          · simpa using h1
          · rw [h2]
            simp [RepoCall.isSaved]
            omega
          · simpa [RepoCall.isExisting] using h3

/-- The checks and the creations in the blocks of calls of a list of hands. -/
theorem callsOfHand_blocks (enc : JsonEnc) (siteID : Int) (hands : List Hand)
    (blocks : List (List RepoCall)) (hb : List.Forall₂ (CallsOfHand enc siteID) hands blocks) :
    blocks.flatten.filterMap RepoCall.checked = hands.map (fun h => h.HandID) ∧
    blocks.flatten.filterMap RepoCall.attempted = blocks.flatten.filterMap RepoCall.absent := by
  induction hb with
  | nil => exact ⟨rfl, rfl⟩
  | cons hc _ ih =>
    rename_i hand calls hands blocks
    obtain ⟨ih1, ih2⟩ := ih
    rcases hc with ⟨found, err, rfl, hfe⟩ | ⟨err, rfl⟩
    · refine ⟨by simp [RepoCall.checked, ih1], ?_⟩
      simp only [List.flatten_cons, List.filterMap_append, ih2]
      congr 1
      rcases hfe with h | h
      · cases err with
        | none => exact absurd rfl h
        | some e => cases found <;> rfl
      · subst h
        cases err <;> rfl
    · refine ⟨by simp [RepoCall.checked, ih1], ?_⟩
      simp only [List.flatten_cons, List.filterMap_append, ih2]
      congr 1

/-- C15. For every repository of hands, whatever its answers and failures, every list of
hands and every starting state, the loop of `processFile` makes its calls hand by hand in
the order of the list: for each hand the existence check, alone when it fails or reports the
hand as existing, followed by `Create` of that hand when it succeeds and reports the hand
absent. So the checks are those of all the hands in order, `Create` is attempted exactly
after the checks that report absence, `saved` counts the successful creations and `skipped`
the hands reported as existing; recording the calls does not change the run. -/
theorem processHands_continues_after_errors {σ : Type} (repo : HandRepository σ)
    (enc : JsonEnc) (siteID : Int) (hands : List Hand) (s : σ) :
    (∃ blocks : List (List RepoCall),
      List.Forall₂ (CallsOfHand enc siteID) hands blocks ∧
      (processHands repo.logged enc siteID hands (s, []) 0 0).1.2 = blocks.flatten) ∧
    (processHands repo.logged enc siteID hands (s, []) 0 0).1.2.filterMap RepoCall.checked =
      hands.map (fun h => h.HandID) ∧
    (processHands repo.logged enc siteID hands (s, []) 0 0).1.2.filterMap RepoCall.attempted =
      (processHands repo.logged enc siteID hands (s, []) 0 0).1.2.filterMap RepoCall.absent ∧
    (processHands repo.logged enc siteID hands (s, []) 0 0).2.1 =
      (processHands repo.logged enc siteID hands (s, []) 0 0).1.2.countP RepoCall.isSaved ∧
    (processHands repo.logged enc siteID hands (s, []) 0 0).2.2 =
      (processHands repo.logged enc siteID hands (s, []) 0 0).1.2.countP RepoCall.isExisting ∧
    processHands repo enc siteID hands s 0 0 =
      ((processHands repo.logged enc siteID hands (s, []) 0 0).1.1,
       (processHands repo.logged enc siteID hands (s, []) 0 0).2) := by
  obtain ⟨blocks, hb, h1, h2, h3, h4⟩ := processHands_logged repo enc siteID hands s [] 0 0
  obtain ⟨c1, c2⟩ := callsOfHand_blocks enc siteID hands blocks hb
  rw [List.nil_append] at h1
  rw [Nat.zero_add] at h2 h3
  refine ⟨⟨blocks, hb, h1⟩, ?_, ?_, ?_, ?_, h4⟩
  · rw [h1]; exact c1
  · rw [h1]; exact c2
  · rw [h2, h1]
  · rw [h3, h1]

theorem addPath_of_mem {ω : Type} (fs : FsWatcher ω) (path : Str) (w : Watcher ω)
    (h : path ∈ w.paths) : w.AddPath fs path = (w, none) := by
  unfold Watcher.AddPath
  rw [if_pos h]

theorem addPath_rejected {ω : Type} (fs : FsWatcher ω) (path : Str) (w : Watcher ω)
    (h : path ∉ w.paths) (os : ω) (err : ErrText) (hr : fs.Add w.watcher path = (os, some err)) :
    w.AddPath fs path =
      ({ w with watcher := os },
        some ("failed to watch path ".toList ++ path ++ ": ".toList ++ err)) := by
  unfold Watcher.AddPath
  rw [if_neg h, hr]

theorem addPath_accepted {ω : Type} (fs : FsWatcher ω) (path : Str) (w : Watcher ω)
    (h : path ∉ w.paths) (os : ω) (hr : fs.Add w.watcher path = (os, none)) :
    w.AddPath fs path = ({ w with watcher := os, paths := w.paths ++ [path] }, none) := by
  unfold Watcher.AddPath
  rw [if_neg h, hr]

/-- A call of `AddPath` that returns no error leaves the path watched. -/
theorem addPath_mem_of_ok {ω : Type} (fs : FsWatcher ω) (path : Str) (w : Watcher ω)
    (hok : (w.AddPath fs path).2 = none) : path ∈ (w.AddPath fs path).1.paths := by
  by_cases h : path ∈ w.paths
  · rw [addPath_of_mem fs path w h]; exact h
  · rcases hr : fs.Add w.watcher path with ⟨os, err⟩
    cases err with
    | some e => rw [addPath_rejected fs path w h os e hr] at hok; simp at hok
    | none => rw [addPath_accepted fs path w h os hr]; simp

/-- C18. `AddPath` of a watched path and `RemovePath` of a path that is not watched return
no error and leave the whole watcher as it was, the state of the operating-system watcher
included, whatever that watcher is: no call reaches it. A new path that the
operating-system watcher rejects gives the error that wraps the rejection and the same
watched paths; one that it accepts is added. After a call of `AddPath` that returned no
error a second call changes nothing; and when both calls are rejected the watched paths
are those before the calls. -/
theorem addPath_removePath_idempotent {ω : Type} (fs : FsWatcher ω) (path : Str)
    (w : Watcher ω) :
    (path ∈ w.paths → w.AddPath fs path = (w, none)) ∧
    (path ∉ w.paths → w.RemovePath fs path = (w, none)) ∧
    (path ∉ w.paths → ∀ (os : ω) (err : ErrText), fs.Add w.watcher path = (os, some err) →
      (w.AddPath fs path).2 =
          some ("failed to watch path ".toList ++ path ++ ": ".toList ++ err) ∧
        (w.AddPath fs path).1.paths = w.paths) ∧
    (path ∉ w.paths → ∀ os : ω, fs.Add w.watcher path = (os, none) →
      (w.AddPath fs path).2 = none ∧ (w.AddPath fs path).1.paths = w.paths ++ [path]) ∧
    ((w.AddPath fs path).2 = none →
      (w.AddPath fs path).1.AddPath fs path = ((w.AddPath fs path).1, none)) ∧
    ((w.AddPath fs path).2 ≠ none → ((w.AddPath fs path).1.AddPath fs path).2 ≠ none →
      ((w.AddPath fs path).1.AddPath fs path).1.paths = w.paths) := by
  refine ⟨addPath_of_mem fs path w, ?_, ?_, ?_, ?_, ?_⟩
  · intro h
    unfold Watcher.RemovePath
    rw [if_pos h]
  · intro h os err hr
    rw [addPath_rejected fs path w h os err hr]
    exact ⟨rfl, rfl⟩
  · intro h os hr
    rw [addPath_accepted fs path w h os hr]
    exact ⟨rfl, rfl⟩
  · intro hok
    exact addPath_of_mem fs path _ (addPath_mem_of_ok fs path w hok)
  · intro h1 h2
    have hp : ∀ v : Watcher ω, (v.AddPath fs path).2 ≠ none →
        (v.AddPath fs path).1.paths = v.paths := by
      intro v hv
      by_cases h : path ∈ v.paths
      · rw [addPath_of_mem fs path v h]
      · rcases hr : fs.Add v.watcher path with ⟨os, err⟩
        cases err with
        | some e => rw [addPath_rejected fs path v h os e hr]
        | none => rw [addPath_accepted fs path v h os hr] at hv; exact absurd rfl hv
    rw [hp _ h2, hp _ h1]

/-- C18, witness: on a watcher of `/hands` over the recording operating-system watcher,
`AddPath` of `/hands` and `RemovePath` of `/other` leave the record of calls empty, the
empty path is rejected, and `/other` added twice is watched once. -/
theorem addPath_removePath_idempotent_witness :
    (Watcher.AddPath recordingFs "/hands".toList
        { Watcher.New [] with paths := ["/hands".toList] }).1.watcher = [] ∧
    (Watcher.RemovePath recordingFs "/other".toList
        { Watcher.New [] with paths := ["/hands".toList] }).1.watcher = [] ∧
    ((Watcher.AddPath recordingFs [] { Watcher.New [] with paths := ["/hands".toList] }).2 =
        some "failed to watch path : no such file or directory".toList ∧
      (Watcher.AddPath recordingFs [] { Watcher.New [] with paths := ["/hands".toList] }).1.paths
        = ["/hands".toList]) ∧
    ((Watcher.AddPath recordingFs "/other".toList
        (Watcher.AddPath recordingFs "/other".toList
          { Watcher.New [] with paths := ["/hands".toList] }).1).1.paths =
      ["/hands".toList, "/other".toList]) :=
  ⟨congrArg (fun r => r.1.watcher)
      ((addPath_removePath_idempotent recordingFs "/hands".toList
        { Watcher.New [] with paths := ["/hands".toList] }).1 (by decide)),
   congrArg (fun r => r.1.watcher)
      ((addPath_removePath_idempotent recordingFs "/other".toList
        { Watcher.New [] with paths := ["/hands".toList] }).2.1 (by decide)),
   (addPath_removePath_idempotent recordingFs []
        { Watcher.New [] with paths := ["/hands".toList] }).2.2.1 (by decide)
        [("Add".toList, [])] "no such file or directory".toList rfl,
   by decide⟩

/-- C19, the code at the failing input. With the default configuration, `initializeSites`
on a new database creates one site, named `PokerStars`; the parser registry names the site
of a recognized text `pokerstars`; `FindByName` of that name on the table finds no row, and
what `processFile` does after parsing a recognized text with one hand ends at
"site not found" without a call of the hand repository. -/
theorem default_site_not_found {σ : Type} (dir watchPath databasePath : Str)
    (handRepo : HandRepository σ) (enc : JsonEnc) (s : σ) :
    (defaultSiteTable (some dir) watchPath databasePath).map
        (fun t => t.rows.map (fun r => r.Name)) = some ["PokerStars".toList] ∧
    PokerStarsParser.GetSiteName = "pokerstars".toList ∧
    (NewManager.ParseContent sampleText).2 = ("pokerstars".toList, none) ∧
    (NewManager.ParseContent sampleText).1.length = 1 ∧
    (defaultSiteTable (some dir) watchPath databasePath).map
        (fun t => siteRepository.FindByName t (NewManager.ParseContent sampleText).2.1) =
      some (none, none) ∧
    (defaultSiteTable (some dir) watchPath databasePath).map
        (fun t => afterParse (siteRepository.FindByName t) handRepo.logged enc
          (NewManager.ParseContent sampleText) (s, [])) =
      some (ProcessResult.siteNotFound, (s, [])) ∧
    (defaultSiteTable (some dir) watchPath databasePath).map
        (fun t => (siteRepository.FindByName t "PokerStars".toList).1.map (fun r => r.Name)) =
      some (some "PokerStars".toList) := by
  have hp : (NewManager.ParseContent sampleText).2 = ("pokerstars".toList, none) := by decide
  have hl : (NewManager.ParseContent sampleText).1.length = 1 := by decide
  have ht : defaultSiteTable (some dir) watchPath databasePath =
      some { rows := [{ ID := 1, Name := "PokerStars".toList, WatchPath := watchPath,
                        Enabled := true }],
             nextID := 2 } := rfl
  have hf : siteRepository.FindByName
      { rows := [{ ID := 1, Name := "PokerStars".toList, WatchPath := watchPath,
                   Enabled := true }],
        nextID := 2 } "pokerstars".toList = (none, none) := by
    have e : decide ("PokerStars".toList = "pokerstars".toList) = false := by decide
    simp only [siteRepository.FindByName, List.find?_cons, e, List.find?_nil]
  refine ⟨by rw [ht]; rfl, rfl, hp, hl, ?_, ?_, ?_⟩
  · rw [ht, Option.map_some', hp, hf]
  · rw [ht, Option.map_some']
    unfold afterParse
    rw [hp]
    simp only [hl, hf]
    rfl
  · rw [ht, Option.map_some']
    simp only [siteRepository.FindByName, List.find?_cons, decide_True, Option.map_some']

/-- C14, witness: the hands `1`, `2`, `1` of site 7 on the empty store. The first pass
creates the keys of `1` and `2` once each and skips the repeat, the second pass creates
nothing. -/
theorem processHands_idempotent_witness :
    processHands setRepository emptyEnc 7
        [Hand.new "1".toList, Hand.new "2".toList, Hand.new "1".toList] [] 0 0 =
      ([(7, "1".toList), (7, "2".toList)], 2, 1) ∧
    processHands setRepository emptyEnc 7
        [Hand.new "1".toList, Hand.new "2".toList, Hand.new "1".toList]
        (processHands setRepository emptyEnc 7
          [Hand.new "1".toList, Hand.new "2".toList, Hand.new "1".toList] [] 0 0).1 0 0 =
      ((processHands setRepository emptyEnc 7
          [Hand.new "1".toList, Hand.new "2".toList, Hand.new "1".toList] [] 0 0).1, 0, 3) ∧
    (processHands setRepository emptyEnc 7
        [Hand.new "1".toList, Hand.new "2".toList, Hand.new "1".toList] [] 0 0).1.count
      (7, "1".toList) = 1 :=
  ⟨by decide,
   (processHands_idempotent emptyEnc 7
      [Hand.new "1".toList, Hand.new "2".toList, Hand.new "1".toList] []).1,
   (processHands_idempotent emptyEnc 7
      [Hand.new "1".toList, Hand.new "2".toList, Hand.new "1".toList] []).2.2.1
      (Hand.new "1".toList) (by decide) (by decide)⟩

/-- C20, witness: the sample text yields a hand, so the signature test accepts it and the
manager names the site. -/
theorem manager_parseContent_keeps_hands_witness :
    (PokerStarsParser.ParseContent sampleText).1 ≠ [] ∧
    PokerStarsParser.CanParse sampleText = true ∧
    (NewManager.ParseContent sampleText).2.1 = "pokerstars".toList ∧
    (NewManager.ParseContent "Hello".toList).2.1 = [] :=
  ⟨by decide,
   (manager_parseContent_keeps_hands sampleText).1 (by decide),
   (manager_parseContent_keeps_hands sampleText).2.2.1.mpr (by decide),
   (manager_parseContent_keeps_hands "Hello".toList).2.2.2 (by decide)⟩

theorem foldl_bind_none {α β : Type} (f : α → β → Option α) :
    ∀ l : List β, l.foldl (fun r b => r.bind (fun a => f a b)) none = none := by
  intro l
  induction l with
  | nil => rfl
  | cons b t ih => exact ih

theorem run_nil {ω : Type} (fs : FsWatcher ω) (w : Watcher ω) :
    Watcher.run fs [] w = some w := rfl

theorem run_cons {ω : Type} (fs : FsWatcher ω) (s : WStep) (steps : List WStep)
    (w : Watcher ω) :
    Watcher.run fs (s :: steps) w = (Watcher.step fs w s).bind (Watcher.run fs steps) := by
  unfold Watcher.run
  rw [List.foldl_cons, Option.some_bind]
  cases h : Watcher.step fs w s with
  | none => exact foldl_bind_none (fun w s => Watcher.step fs w s) steps
  | some v => rfl

theorem run_append {ω : Type} (fs : FsWatcher ω) (xs ys : List WStep) (w : Watcher ω) :
    Watcher.run fs (xs ++ ys) w = (Watcher.run fs xs w).bind (Watcher.run fs ys) := by
  induction xs generalizing w with
  | nil => rfl
  | cons s xs ih =>
    rw [List.cons_append, run_cons, run_cons]
    cases Watcher.step fs w s with
    | none => rfl
    | some v => exact ih v

theorem length_filter_due (now : Nat) (l : List (Str × Nat)) :
    (l.filter (fun e => decide (now < e.2))).length +
      (l.filter (fun e => decide (e.2 ≤ now))).length = l.length := by
  induction l with
  | nil => rfl
  | cons e l ih =>
    by_cases h : now < e.2
    · have h2 : ¬ e.2 ≤ now := by omega
      simp only [List.filter_cons, h, h2, decide_True, decide_False, if_true, List.length_cons]
      simp only [Bool.false_eq_true, if_false]
      omega
    · have h2 : e.2 ≤ now := by omega
      simp only [List.filter_cons, h, h2, decide_True, decide_False, if_true, List.length_cons]
      simp only [Bool.false_eq_true, if_false]
      omega

theorem counted_fireDue {ω : Type} (p : Str) (b0 : List Str) (c n now : Nat) (w : Watcher ω)
    (h : w.Counted p b0 c n) : (w.fireDue now).Counted p b0 c n := by
  obtain ⟨hm, ht, hs, hd, ⟨j, hb, hj⟩, hc, ho, hr⟩ := h
  refine ⟨hm, ?_, ?_, hd, ⟨j, hb, ?_⟩, hc, ho, ?_⟩
  · intro e he
    exact ht e (List.mem_filter.mp he).1
  · intro x hx
    rcases List.mem_append.mp hx with hx | hx
    · exact hs x hx
    · obtain ⟨e, he, rfl⟩ := List.mem_map.mp hx
      exact ht e (List.mem_filter.mp he).1
  · show j + (w.sending ++ _).length + (w.timers.filter _).length = n
    have := length_filter_due now w.timers
    rw [List.length_append, List.length_map]
    omega
  · intro hne
    show (w.timers.filter _) ≠ [] ∨ (w.sending ++ _) ≠ [] ∨ w.deleting ≠ []
    rcases hr hne with h1 | h1 | h1
    · have := length_filter_due now w.timers
      have hpos : 0 < w.timers.length := List.length_pos.mpr h1
      by_cases hz : (w.timers.filter (fun e => decide (now < e.2))) = []
      · right; left
        intro hcontra
        have h0 := congrArg List.length hcontra
        rw [List.length_append, List.length_map, List.length_nil] at h0
        rw [hz, List.length_nil] at this
        omega
      · exact Or.inl hz
    · right; left
      intro hcontra
      exact h1 (List.append_eq_nil.mp hcontra).1
    · exact Or.inr (Or.inr h1)

theorem counted_fireAll {ω : Type} (p : Str) (b0 : List Str) (c n : Nat) (w : Watcher ω)
    (h : w.Counted p b0 c n) : w.fireAll.Counted p b0 c n ∧ w.fireAll.timers = [] := by
  obtain ⟨hm, ht, hs, hd, ⟨j, hb, hj⟩, hc, ho, hr⟩ := h
  refine ⟨⟨hm, ?_, ?_, hd, ⟨j, hb, ?_⟩, hc, ho, ?_⟩, rfl⟩
  · intro e he
    exact absurd he (List.not_mem_nil _)
  · intro x hx
    rcases List.mem_append.mp hx with hx | hx
    · exact hs x hx
    · obtain ⟨e, he, rfl⟩ := List.mem_map.mp hx
      exact ht e he
  · show j + (w.sending ++ _).length + ([] : List (Str × Nat)).length = n
    rw [List.length_append, List.length_map, List.length_nil]
    omega
  · intro hne
    show ([] : List (Str × Nat)) ≠ [] ∨ (w.sending ++ _) ≠ [] ∨ w.deleting ≠ []
    rcases hr hne with h1 | h1 | h1
    · right; left
      intro hcontra
      have h0 := congrArg List.length hcontra
      rw [List.length_append, List.length_map, List.length_nil] at h0
      have hpos : 0 < w.timers.length := List.length_pos.mpr h1
      omega
    · right; left
      intro hcontra
      exact h1 (List.append_eq_nil.mp hcontra).1
    · exact Or.inr (Or.inr h1)

theorem counted_send {ω : Type} (p : Str) (b0 : List Str) (c n : Nat) (w : Watcher ω)
    (h : w.Counted p b0 c n) (hroom : b0.length + n ≤ c) :
    ∃ v, w.sendStep p = some v ∧ v.Counted p b0 c n ∧ v.timers = w.timers := by
  obtain ⟨hm, ht, hs, hd, ⟨j, hb, hj⟩, hc, ho, hr⟩ := h
  by_cases hp : p ∈ w.sending
  · have hlen : 0 < w.sending.length := List.length_pos_of_mem hp
    have hsend : w.processingCh.send p =
        SendResult.done { w.processingCh with buf := w.processingCh.buf ++ [p] } := by
      have : w.processingCh.buf.length < w.processingCh.cap := by
        rw [hb, hc, List.length_append, List.length_replicate]
        omega
      simp [Chan.send, ho, this]
    refine ⟨{ w with processingCh := { w.processingCh with buf := w.processingCh.buf ++ [p] },
                     sending := w.sending.erase p, deleting := w.deleting ++ [p] }, ?_,
      ⟨hm, ht, ?_, ?_, ⟨j + 1, ?_, ?_⟩, hc, ho, ?_⟩, rfl⟩
    · unfold Watcher.sendStep
      rw [if_pos hp, hsend]
    · intro x hx
      exact hs x (List.mem_of_mem_erase hx)
    · intro x hx
      rcases List.mem_append.mp hx with hx | hx
      · exact hd x hx
      · exact List.mem_singleton.mp hx
    · show w.processingCh.buf ++ [p] = _
      rw [hb, List.append_assoc, List.replicate_succ']
    · show j + 1 + (w.sending.erase p).length + w.timers.length = n
      rw [List.length_erase_of_mem hp]
      omega
    · intro _
      right; right
      show w.deleting ++ [p] ≠ []
      simp
  · refine ⟨w, ?_, ⟨hm, ht, hs, hd, ⟨j, hb, hj⟩, hc, ho, hr⟩, rfl⟩
    unfold Watcher.sendStep
    rw [if_neg hp]

theorem counted_delete {ω : Type} (p : Str) (b0 : List Str) (c n : Nat) (w : Watcher ω)
    (h : w.Counted p b0 c n) :
    (w.deleteStep p).Counted p b0 c n ∧ (w.deleteStep p).timers = w.timers := by
  obtain ⟨hm, ht, hs, hd, ⟨j, hb, hj⟩, hc, ho, hr⟩ := h
  by_cases hp : p ∈ w.deleting
  · have hnil : w.debounceMap.filter (fun e => e.1 ≠ p) = [] := by
      apply List.filter_eq_nil_iff.mpr
      intro e he
      simp [hm e he]
    have e1 : w.deleteStep p =
        { w with debounceMap := w.debounceMap.filter (fun e => e.1 ≠ p),
                 deleting := w.deleting.erase p } := by
      unfold Watcher.deleteStep
      rw [if_pos hp]
    rw [e1]
    refine ⟨⟨?_, ht, hs, ?_, ⟨j, hb, hj⟩, hc, ho, ?_⟩, rfl⟩
    · intro e he
      exact hm e (List.mem_filter.mp he).1
    · intro x hx
      exact hd x (List.mem_of_mem_erase hx)
    · intro hne
      exact absurd hnil hne
  · have e1 : w.deleteStep p = w := by
      unfold Watcher.deleteStep
      rw [if_neg hp]
    rw [e1]
    exact ⟨⟨hm, ht, hs, hd, ⟨j, hb, hj⟩, hc, ho, hr⟩, rfl⟩

theorem counted_notify {ω : Type} (p : Str) (b0 : List Str) (c n now : Nat) (w : Watcher ω)
    (h : w.Counted p b0 c n) (hdue : ∀ e ∈ w.timers, e.2 ≤ now) :
    ((w.fireDue now).debounceFile now p).Counted p b0 c (n + 1) ∧
    ((w.fireDue now).debounceFile now p).timers = [(p, now + debounceDelay)] := by
  have hnone : (w.fireDue now).timers = [] := by
    show w.timers.filter _ = []
    apply List.filter_eq_nil_iff.mpr
    intro e he
    have := hdue e he
    simp
    omega
  obtain ⟨hm, ht, hs, hd, ⟨j, hb, hj⟩, hc, ho, hr⟩ := counted_fireDue p b0 c n now w h
  have hnil : (w.fireDue now).debounceMap.filter (fun e => e.1 ≠ p) = [] := by
    apply List.filter_eq_nil_iff.mpr
    intro e he
    simp [hm e he]
  have htim : ((w.fireDue now).debounceFile now p).timers = [(p, now + debounceDelay)] := by
    unfold Watcher.debounceFile
    show (match (w.fireDue now).debounceMap.find? (fun e => e.1 = p) with
      | some e => (w.fireDue now).timers.erase e
      | none => (w.fireDue now).timers) ++ _ = _
    rw [hnone]
    cases (w.fireDue now).debounceMap.find? (fun e => decide (e.1 = p)) <;> rfl
  have hmap : ((w.fireDue now).debounceFile now p).debounceMap = [(p, now + debounceDelay)] := by
    unfold Watcher.debounceFile
    show (w.fireDue now).debounceMap.filter _ ++ _ = _
    rw [hnil]
    rfl
  refine ⟨⟨?_, ?_, hs, hd, ⟨j, hb, ?_⟩, hc, ho, ?_⟩, htim⟩
  · intro e he
    rw [hmap] at he
    rw [List.mem_singleton.mp he]
  · intro e he
    rw [htim] at he
    rw [List.mem_singleton.mp he]
  · rw [htim]
    rw [hnone] at hj
    simp only [List.length_nil, List.length_singleton] at hj ⊢
    show j + (w.fireDue now).sending.length + 1 = n + 1
    omega
  · intro _
    left
    rw [htim]
    simp

theorem counted_final {ω : Type} (p : Str) (b0 : List Str) (c n : Nat) (w : Watcher ω)
    (h : w.Counted p b0 c n) (ht : w.timers = []) (hs : w.sending = [])
    (hd : w.deleting = []) :
    w.processingCh.buf = b0 ++ List.replicate n p ∧ w.Quiet := by
  obtain ⟨_, _, _, _, ⟨j, hb, hj⟩, _, _, hr⟩ := h
  rw [ht, hs] at hj
  simp only [List.length_nil, Nat.add_zero] at hj
  subst hj
  refine ⟨hb, ?_, ht, hs, hd⟩
  by_contra hne
  rcases hr hne with h1 | h1 | h1
  · exact h1 ht
  · exact h1 hs
  · exact h1 hd

/-- Sends and deletes of timer functions keep the invariant and the pending timers. -/
theorem run_functions {ω : Type} (fs : FsWatcher ω) (p : Str) (b0 : List Str) (c n : Nat)
    (hroom : b0.length + n ≤ c) :
    ∀ (es : List WStep) (w : Watcher ω), w.Counted p b0 c n →
      es.all (WStep.ofFunction p) = true →
      ∃ v, Watcher.run fs es w = some v ∧ v.Counted p b0 c n ∧ v.timers = w.timers := by
  intro es
  induction es with
  | nil => intro w h _; exact ⟨w, rfl, h, rfl⟩
  | cons s es ih =>
    intro w h hall
    obtain ⟨hs, hes⟩ : WStep.ofFunction p s = true ∧ es.all (WStep.ofFunction p) = true := by
      simpa using hall
    rw [run_cons]
    cases s with
    | send q =>
      have hq : q = p := by simpa [WStep.ofFunction] using hs
      subst hq
      obtain ⟨u, hu, huc, hut⟩ := counted_send q b0 c n w h hroom
      obtain ⟨v, hv, hvc, hvt⟩ := ih u huc hes
      refine ⟨v, ?_, hvc, hvt.trans hut⟩
      show (w.sendStep q).bind _ = _
      rw [hu]
      exact hv
    | delete q =>
      have hq : q = p := by simpa [WStep.ofFunction] using hs
      subst hq
      obtain ⟨huc, hut⟩ := counted_delete q b0 c n w h
      obtain ⟨v, hv, hvc, hvt⟩ := ih _ huc hes
      exact ⟨v, hv, hvc, hvt.trans hut⟩
    | notify _ _ => simp [WStep.ofFunction] at hs
    | clock _ => simp [WStep.ofFunction] at hs
    | elapse => simp [WStep.ofFunction] at hs
    | expiry _ => simp [WStep.ofFunction] at hs
    | receive => simp [WStep.ofFunction] at hs
    | stop => simp [WStep.ofFunction] at hs

/-- Runs in which every notification comes after the pending timers are due: each
notification adds a timer that is not stopped. -/
theorem run_far {ω : Type} (fs : FsWatcher ω) (p : Str) (b0 : List Str) (c : Nat) :
    ∀ (es : List WStep) (w : Watcher ω) (n : Nat) (ts : List Nat), w.Counted p b0 c n →
      (∀ e ∈ w.timers, ∀ t ∈ ts.head?, e.2 ≤ t) →
      es.all (WStep.about p) = true → es.filterMap WStep.notifyInstant = ts →
      List.Chain' (fun a b => a + debounceDelay < b) ts →
      b0.length + n + ts.length ≤ c →
      ∃ v, Watcher.run fs es w = some v ∧ v.Counted p b0 c (n + ts.length) := by
  intro es
  induction es with
  | nil =>
    intro w n ts h _ _ hts _ _
    have : ts = [] := by simpa using hts.symm
    subst this
    exact ⟨w, rfl, h⟩
  | cons s es ih =>
    intro w n ts h hdue hall hts hch hroom
    obtain ⟨hs, hes⟩ : WStep.about p s = true ∧ es.all (WStep.about p) = true := by
      simpa using hall
    rw [run_cons]
    cases s with
    | notify now q =>
      have hq : q = p := by simpa [WStep.about] using hs
      subst hq
      have hts2 : ts = now :: es.filterMap WStep.notifyInstant := by
        rw [← hts]; rfl
      subst hts2
      obtain ⟨huc, hut⟩ := counted_notify q b0 c n now w h (fun e he => hdue e he now rfl)
      rw [List.length_cons] at hroom
      obtain ⟨v, hv, hvc⟩ := ih _ (n + 1) _ huc (by
          intro e he t ht
          rw [hut] at he
          rw [List.mem_singleton.mp he]
          cases hl : es.filterMap WStep.notifyInstant with
          | nil => rw [hl] at ht; simp at ht
          | cons t2 tl =>
            rw [hl] at ht hch
            have : t2 = t := by simpa using ht
            subst this
            exact Nat.le_of_lt (List.chain'_cons.mp hch).1) hes rfl
        (List.Chain'.tail hch) (by omega)
      refine ⟨v, hv, ?_⟩
      rw [List.length_cons]
      have e : n + ((es.filterMap WStep.notifyInstant).length + 1) =
          n + 1 + (es.filterMap WStep.notifyInstant).length := by omega
      rw [e]
      exact hvc
    | clock now =>
      have hts2 : es.filterMap WStep.notifyInstant = ts := by rw [← hts]; rfl
      have huc := counted_fireDue p b0 c n now w h
      exact ih _ n ts huc (fun e he => hdue e (List.mem_filter.mp he).1) hes hts2 hch hroom
    | send q =>
      have hq : q = p := by simpa [WStep.about] using hs
      subst hq
      have hts2 : es.filterMap WStep.notifyInstant = ts := by rw [← hts]; rfl
      obtain ⟨u, hu, huc, hut⟩ := counted_send q b0 c n w h (by omega)
      obtain ⟨v, hv, hvc⟩ := ih u n ts huc (by rw [hut]; exact hdue) hes hts2 hch hroom
      refine ⟨v, ?_, hvc⟩
      show (w.sendStep q).bind _ = _
      rw [hu]
      exact hv
    | delete q =>
      have hq : q = p := by simpa [WStep.about] using hs
      subst hq
      have hts2 : es.filterMap WStep.notifyInstant = ts := by rw [← hts]; rfl
      obtain ⟨huc, hut⟩ := counted_delete q b0 c n w h
      exact ih _ n ts huc (by rw [hut]; exact hdue) hes hts2 hch hroom
    | elapse => simp [WStep.about] at hs
    | expiry _ => simp [WStep.about] at hs
    | receive => simp [WStep.about] at hs
    | stop => simp [WStep.about] at hs

theorem waiting_counted {ω : Type} (p : Str) (b0 : List Str) (c k : Nat) (ts : List Nat)
    (w : Watcher ω) (h : w.Waiting p b0 c k ts) : w.Counted p b0 c k ∧ k ≤ 1 := by
  obtain ⟨hb, hc, ho, hs, hd, hk⟩ := h
  rcases hk with ⟨rfl, hm, ht⟩ | ⟨rfl, d, hm, ht, _⟩
  · refine ⟨⟨by simp [hm], by simp [ht], by simp [hs], by simp [hd], ⟨0, by simp [hb], ?_⟩,
      hc, ho, fun hne => absurd hm hne⟩, by omega⟩
    rw [hs, ht]; rfl
  · refine ⟨⟨by simp [hm], by simp [ht], by simp [hs], by simp [hd], ⟨0, by simp [hb], ?_⟩,
      hc, ho, fun _ => Or.inl (by simp [ht])⟩, by omega⟩
    rw [hs, ht]; rfl

theorem waiting_fireDue {ω : Type} (p : Str) (b0 : List Str) (c k now t : Nat)
    (ts : List Nat) (w : Watcher ω) (h : w.Waiting p b0 c k ts) (ht : ts.head? = some t)
    (hnow : now ≤ t) : (w.fireDue now).Waiting p b0 c k ts := by
  obtain ⟨hb, hc, ho, hs, hd, hk⟩ := h
  rcases hk with ⟨rfl, hm, htm⟩ | ⟨rfl, d, hm, htm, hlt⟩
  · refine ⟨hb, hc, ho, ?_, hd, Or.inl ⟨rfl, hm, ?_⟩⟩
    · show w.sending ++ _ = []
      rw [hs, htm]; rfl
    · show w.timers.filter _ = []
      rw [htm]; rfl
  · have hd2 : now < d := Nat.lt_of_le_of_lt hnow (hlt t ht)
    have hd3 : ¬ d ≤ now := by omega
    refine ⟨hb, hc, ho, ?_, hd, Or.inr ⟨rfl, d, hm, ?_, hlt⟩⟩
    · show w.sending ++ _ = []
      rw [hs, htm]
      simp [hd3]
    · show w.timers.filter _ = _
      rw [htm]
      simp [hd2]

theorem waiting_debounceFile {ω : Type} (p : Str) (b0 : List Str) (c k now : Nat)
    (ts ts2 : List Nat) (w : Watcher ω) (h : w.Waiting p b0 c k ts)
    (hlt : ∀ t ∈ ts2.head?, t < now + debounceDelay) :
    (w.debounceFile now p).Waiting p b0 c 1 ts2 := by
  obtain ⟨hb, hc, ho, hs, hd, hk⟩ := h
  refine ⟨hb, hc, ho, hs, hd, Or.inr ⟨rfl, now + debounceDelay, ?_, ?_, hlt⟩⟩
  · rcases hk with ⟨_, hm, _⟩ | ⟨_, d, hm, _, _⟩
    · simp [Watcher.debounceFile, hm]
    · simp [Watcher.debounceFile, hm]
  · rcases hk with ⟨_, hm, htm⟩ | ⟨_, d, hm, htm, _⟩
    · simp [Watcher.debounceFile, hm, htm]
    · simp [Watcher.debounceFile, hm, htm]

theorem instant_of_notifyInstant (s : WStep) (t : Nat) (h : s.notifyInstant = some t) :
    s.instant = some t := by
  cases s <;> simp [WStep.notifyInstant] at h
  subst h
  rfl

/-- Runs in which every notification comes before the pending timer is due: one timer is
left to fire. -/
theorem run_close {ω : Type} (fs : FsWatcher ω) (p : Str) (b0 : List Str) (c : Nat)
    (hroom : b0.length + 1 ≤ c) :
    ∀ (es : List WStep) (w : Watcher ω) (k : Nat) (ts : List Nat), w.Waiting p b0 c k ts →
      es.all (WStep.about p) = true → es.filterMap WStep.notifyInstant = ts →
      List.Chain' (fun a b => b < a + debounceDelay) ts →
      (es.filterMap WStep.instant).Pairwise (fun a b => a ≤ b) →
      ∃ v, Watcher.run fs es w = some v ∧ v.Counted p b0 c (if ts = [] then k else 1) := by
  intro es
  induction es with
  | nil =>
    intro w k ts h _ hts _ _
    have : ts = [] := by simpa using hts.symm
    subst this
    exact ⟨w, rfl, by simpa using (waiting_counted p b0 c k [] w h).1⟩
  | cons s es ih =>
    intro w k ts h hall hts hch hmono
    by_cases hts0 : ts = []
    · subst hts0
      obtain ⟨hcnt, hk⟩ := waiting_counted p b0 c k [] w h
      obtain ⟨v, hv, hvc⟩ := run_far fs p b0 c (s :: es) w k [] hcnt
        (by intro e _ t ht; simp at ht) hall hts List.chain'_nil (by simp; omega)
      exact ⟨v, hv, by simpa using hvc⟩
    · obtain ⟨hs, hes⟩ : WStep.about p s = true ∧ es.all (WStep.about p) = true := by
        simpa using hall
      rw [run_cons, if_neg hts0]
      cases s with
      | notify now q =>
        have hq : q = p := by simpa [WStep.about] using hs
        subst hq
        have hts2 : ts = now :: es.filterMap WStep.notifyInstant := by
          rw [← hts]; rfl
        subst hts2
        have h1 := waiting_fireDue q b0 c k now now _ w h rfl (Nat.le_refl _)
        have h2 := waiting_debounceFile q b0 c k now _ (es.filterMap WStep.notifyInstant)
          (w.fireDue now) h1 (by
            intro t ht
            cases hl : es.filterMap WStep.notifyInstant with
            | nil => rw [hl] at ht; simp at ht
            | cons t2 tl =>
              rw [hl] at ht hch
              have : t2 = t := by simpa using ht
              subst this
              exact (List.chain'_cons.mp hch).1)
        have hmono2 : (es.filterMap WStep.instant).Pairwise (fun a b => a ≤ b) := by
          have e : (WStep.notify now q :: es).filterMap WStep.instant =
              now :: es.filterMap WStep.instant := rfl
          rw [e] at hmono
          exact (List.pairwise_cons.mp hmono).2
        obtain ⟨v, hv, hvc⟩ := ih _ 1 _ h2 hes rfl (List.Chain'.tail hch) hmono2
        refine ⟨v, hv, ?_⟩
        by_cases hl : es.filterMap WStep.notifyInstant = []
        · rw [if_pos hl] at hvc; exact hvc
        · rw [if_neg hl] at hvc; exact hvc
      | clock now =>
        have hts2 : es.filterMap WStep.notifyInstant = ts := by rw [← hts]; rfl
        have e : (WStep.clock now :: es).filterMap WStep.instant =
            now :: es.filterMap WStep.instant := rfl
        rw [e] at hmono
        obtain ⟨hle, hmono2⟩ := List.pairwise_cons.mp hmono
        obtain ⟨t, tl, htl⟩ : ∃ t tl, ts = t :: tl := by
          cases ts with
          | nil => exact absurd rfl hts0
          | cons t tl => exact ⟨t, tl, rfl⟩
        have hmem : t ∈ es.filterMap WStep.instant := by
          have h1 : t ∈ es.filterMap WStep.notifyInstant := by rw [hts2, htl]; simp
          obtain ⟨s, hs1, hs2⟩ := List.mem_filterMap.mp h1
          exact List.mem_filterMap.mpr ⟨s, hs1, instant_of_notifyInstant s t hs2⟩
        have h1 := waiting_fireDue p b0 c k now t ts w h (by rw [htl]; rfl) (hle t hmem)
        obtain ⟨v, hv, hvc⟩ := ih _ k ts h1 hes hts2 hch hmono2
        rw [if_neg hts0] at hvc
        exact ⟨v, hv, hvc⟩
      | send q =>
        have hq : q = p := by simpa [WStep.about] using hs
        subst hq
        have hts2 : es.filterMap WStep.notifyInstant = ts := by rw [← hts]; rfl
        have hst : w.sendStep q = some w := by
          unfold Watcher.sendStep
          rw [h.2.2.2.1]
          rfl
        obtain ⟨v, hv, hvc⟩ := ih w k ts h hes hts2 hch hmono
        rw [if_neg hts0] at hvc
        refine ⟨v, ?_, hvc⟩
        show (w.sendStep q).bind _ = _
        rw [hst]
        exact hv
      | delete q =>
        have hq : q = p := by simpa [WStep.about] using hs
        subst hq
        have hts2 : es.filterMap WStep.notifyInstant = ts := by rw [← hts]; rfl
        have hst : w.deleteStep q = w := by
          unfold Watcher.deleteStep
          rw [h.2.2.2.2.1]
          rfl
        obtain ⟨v, hv, hvc⟩ := ih w k ts h hes hts2 hch hmono
        rw [if_neg hts0] at hvc
        refine ⟨v, ?_, hvc⟩
        show (some (w.deleteStep q)).bind _ = _
        rw [hst]
        exact hv
      | elapse => simp [WStep.about] at hs
      | expiry _ => simp [WStep.about] at hs
      | receive => simp [WStep.about] at hs
      | stop => simp [WStep.about] at hs

theorem spaced_length : ∀ (n t : Nat), (spaced t n).length = n := by
  intro n
  induction n with
  | zero => intro t; rfl
  | succ n ih => intro t; simp [spaced, ih]

theorem spaced_chain : ∀ (n t0 t : Nat), t0 + debounceDelay < t →
    List.Chain (fun a b => a + debounceDelay < b) t0 (spaced t n) := by
  intro n
  induction n with
  | zero => intro t0 t _; exact List.Chain.nil
  | succ n ih =>
    intro t0 t h
    exact List.Chain.cons h (ih t (t + 2000) (by unfold debounceDelay; omega))

/-- A round on a watcher with nothing pending and room on the open queue: the path is
enqueued and nothing is left pending, recorded or under way. -/
theorem run_debounceRound {ω : Type} (fs : FsWatcher ω) (p : Str) (t : Nat) (w : Watcher ω)
    (hq : w.Quiet) (hopen : w.processingCh.closed = false)
    (hroom : w.processingCh.buf.length < w.processingCh.cap) :
    ∃ v, Watcher.run fs (debounceRound p t) w = some v ∧ v.Quiet ∧
      v.processingCh.buf = w.processingCh.buf ++ [p] ∧
      v.processingCh.cap = w.processingCh.cap ∧ v.processingCh.closed = false := by
  obtain ⟨hm, ht, hs, hd⟩ := hq
  have h1 : (w.fireDue t).debounceFile t p =
      { w with timers := [(p, t + debounceDelay)], debounceMap := [(p, t + debounceDelay)] } := by
    simp [Watcher.fireDue, Watcher.debounceFile, hm, ht, hs]
  have h2 : Watcher.fireDue (t + debounceDelay)
      { w with timers := [(p, t + debounceDelay)], debounceMap := [(p, t + debounceDelay)] } =
      { w with timers := [], debounceMap := [(p, t + debounceDelay)], sending := [p] } := by
    simp [Watcher.fireDue, hs]
  have hsend : w.processingCh.send p =
      SendResult.done { w.processingCh with buf := w.processingCh.buf ++ [p] } := by
    simp [Chan.send, hopen, hroom]
  have h3 : Watcher.sendStep p
      { w with timers := [], debounceMap := [(p, t + debounceDelay)], sending := [p] } =
      some { w with timers := [], debounceMap := [(p, t + debounceDelay)], sending := [],
                    deleting := [p],
                    processingCh := { w.processingCh with buf := w.processingCh.buf ++ [p] } } := by
    unfold Watcher.sendStep
    simp only [List.mem_singleton, if_true, hsend]
    simp [hd]
  have h4 : Watcher.deleteStep p
      { w with timers := [], debounceMap := [(p, t + debounceDelay)], sending := [],
               deleting := [p],
               processingCh := { w.processingCh with buf := w.processingCh.buf ++ [p] } } =
      { w with timers := [], debounceMap := [], sending := [], deleting := [],
               processingCh := { w.processingCh with buf := w.processingCh.buf ++ [p] } } := by
    simp [Watcher.deleteStep]
  refine ⟨{ w with
              timers := [], debounceMap := [], sending := [], deleting := [],
              processingCh := { w.processingCh with buf := w.processingCh.buf ++ [p] } },
    ?_, ⟨rfl, rfl, rfl, rfl⟩, rfl, rfl, hopen⟩
  unfold debounceRound
  rw [run_cons]
  show (some ((w.fireDue t).debounceFile t p)).bind _ = _
  rw [h1, Option.some_bind, run_cons]
  show (some (Watcher.fireDue (t + debounceDelay) _)).bind _ = _
  rw [h2, Option.some_bind, run_cons]
  show (Watcher.sendStep p _).bind _ = _
  rw [h3, Option.some_bind, run_cons]
  show (some (Watcher.deleteStep p _)).bind _ = _
  rw [h4, Option.some_bind, run_nil]

/-- A round on a watcher with nothing pending and a full open queue, followed by the
passing of time and the steps of the timer function again: the function stays blocked at
its send, and the record of the path stays in the map. -/
theorem run_debounceRound_full {ω : Type} (fs : FsWatcher ω) (p : Str) (t : Nat)
    (w : Watcher ω) (hq : w.Quiet) (hopen : w.processingCh.closed = false)
    (hfull : ¬ w.processingCh.buf.length < w.processingCh.cap) :
    Watcher.run fs (debounceRound p t ++ [WStep.elapse, WStep.send p, WStep.delete p]) w =
      some { w with timers := [], debounceMap := [(p, t + debounceDelay)], sending := [p] } := by
  obtain ⟨hm, ht, hs, hd⟩ := hq
  have h1 : (w.fireDue t).debounceFile t p =
      { w with timers := [(p, t + debounceDelay)], debounceMap := [(p, t + debounceDelay)] } := by
    simp [Watcher.fireDue, Watcher.debounceFile, hm, ht, hs]
  have h2 : Watcher.fireDue (t + debounceDelay)
      { w with timers := [(p, t + debounceDelay)], debounceMap := [(p, t + debounceDelay)] } =
      { w with timers := [], debounceMap := [(p, t + debounceDelay)], sending := [p] } := by
    simp [Watcher.fireDue, hs]
  have hsend : w.processingCh.send p = SendResult.blocks := by
    simp [Chan.send, hopen, hfull]
  have h3 : Watcher.sendStep p
      { w with timers := [], debounceMap := [(p, t + debounceDelay)], sending := [p] } =
      some { w with timers := [], debounceMap := [(p, t + debounceDelay)], sending := [p] } := by
    unfold Watcher.sendStep
    simp only [List.mem_singleton, if_true, hsend]
  have h4 : Watcher.deleteStep p
      { w with timers := [], debounceMap := [(p, t + debounceDelay)], sending := [p] } =
      { w with timers := [], debounceMap := [(p, t + debounceDelay)], sending := [p] } := by
    simp [Watcher.deleteStep, hd]
  have h5 : Watcher.fireAll
      { w with timers := [], debounceMap := [(p, t + debounceDelay)], sending := [p] } =
      { w with timers := [], debounceMap := [(p, t + debounceDelay)], sending := [p] } := by
    simp [Watcher.fireAll]
  unfold debounceRound
  rw [List.cons_append, run_cons]
  show (some ((w.fireDue t).debounceFile t p)).bind _ = _
  rw [h1, Option.some_bind, List.cons_append, run_cons]
  show (some (Watcher.fireDue (t + debounceDelay) _)).bind _ = _
  rw [h2, Option.some_bind, List.cons_append, run_cons]
  show (Watcher.sendStep p _).bind _ = _
  rw [h3, Option.some_bind, List.cons_append, run_cons]
  show (some (Watcher.deleteStep p _)).bind _ = _
  rw [h4, Option.some_bind, List.nil_append, run_cons]
  show (some (Watcher.fireAll _)).bind _ = _
  rw [h5, Option.some_bind, run_cons]
  show (Watcher.sendStep p _).bind _ = _
  rw [h3, Option.some_bind, run_cons]
  show (some (Watcher.deleteStep p _)).bind _ = _
  rw [h4, Option.some_bind, run_nil]

/-- Rounds at the listed instants while the queue has room for them: one path enqueued by
each. -/
theorem run_rounds {ω : Type} (fs : FsWatcher ω) (p : Str) :
    ∀ (ts : List Nat) (w : Watcher ω), w.Quiet → w.processingCh.closed = false →
      w.processingCh.buf.length + ts.length ≤ w.processingCh.cap →
      ∃ v, Watcher.run fs (ts.flatMap (debounceRound p)) w = some v ∧ v.Quiet ∧
        v.processingCh.buf = w.processingCh.buf ++ List.replicate ts.length p ∧
        v.processingCh.cap = w.processingCh.cap ∧ v.processingCh.closed = false := by
  intro ts
  induction ts with
  | nil => intro w hq ho _; exact ⟨w, rfl, hq, by simp, rfl, ho⟩
  | cons t ts ih =>
    intro w hq ho hroom
    rw [List.length_cons] at hroom
    obtain ⟨u, hu, huq, hub, huc, huo⟩ := run_debounceRound fs p t w hq ho (by omega)
    obtain ⟨v, hv, hvq, hvb, hvc, hvo⟩ := ih u huq huo
      (by rw [hub, huc, List.length_append, List.length_singleton]; omega)
    refine ⟨v, ?_, hvq, ?_, hvc.trans huc, hvo⟩
    · rw [List.flatMap_cons, run_append, hu]
      exact hv
    · rw [hvb, hub, List.append_assoc]
      rfl

/-- C16, counterexample. On a watcher made by `New` (its workers, which `Start` would
launch, do not run, so nothing is received from the queue), 101 notifications for `a.txt`,
each 2000 ms after the one before, each followed by the expiry of its timer and the steps
of the timer function: the first 100 timer functions fill the 100 slots of the queue, the
last one stays blocked at its send. The path has been enqueued 100 times, not 101, and the
record of the path is still in the map. -/
theorem debounce_blocks_on_full_queue :
    (spaced 0 101).length = 101 ∧
    List.Chain (fun a b => a + debounceDelay < b) 0 (spaced 2000 100) ∧
    ((spaced 0 101).flatMap (debounceRound "a.txt".toList)).filterMap WStep.notifyInstant =
      spaced 0 101 ∧
    ∃ v, Watcher.run unitFs
          ((spaced 0 101).flatMap (debounceRound "a.txt".toList) ++
            [WStep.elapse, WStep.send "a.txt".toList, WStep.delete "a.txt".toList])
          (Watcher.New ()) = some v ∧
      v.processingCh.buf = List.replicate 100 "a.txt".toList ∧
      v.debounceMap = [("a.txt".toList, 201000)] ∧
      v.sending = ["a.txt".toList] ∧ v.timers = [] ∧ v.deleting = [] := by
  refine ⟨spaced_length 101 0, spaced_chain 100 0 2000 (by decide), by decide, ?_⟩
  obtain ⟨u, hu, huq, hub, huc, huo⟩ :=
    run_rounds unitFs "a.txt".toList (spaced 0 100) (Watcher.New ()) ⟨rfl, rfl, rfl, rfl⟩ rfl
      (by rw [spaced_length]; decide)
  rw [spaced_length] at hub
  have hub2 : u.processingCh.buf = List.replicate 100 "a.txt".toList := by simpa using hub
  have hfull : ¬ u.processingCh.buf.length < u.processingCh.cap := by
    rw [hub2, huc]
    decide
  have e : spaced 0 101 = spaced 0 100 ++ [200000] := by decide
  refine ⟨{ u with timers := [], debounceMap := [("a.txt".toList, 200000 + debounceDelay)],
                   sending := ["a.txt".toList] }, ?_, hub2, rfl, rfl, rfl, huq.2.2.2⟩
  rw [e, List.flatMap_append, List.append_assoc, run_append, hu, Option.some_bind]
  have e2 : [200000].flatMap (debounceRound "a.txt".toList) =
      debounceRound "a.txt".toList 200000 := by simp
  rw [e2]
  exact run_debounceRound_full unitFs "a.txt".toList 200000 u huq huo hfull

/-- C16, amended. In the step model of `debounceFile`, take a watcher with nothing pending,
recorded or under way and an open queue, and any run made of notifications for one path at
the instants `t :: ts`, steps of the clock (instants never decreasing) and sends and
deletes of the timer functions of the path in any order; then time passes until no timer
is pending, and further sends and deletes follow. No step panics and no send of the run
is left without a free slot. If each notification comes less than the delay after the one
before and the queue has one free slot, then once the timer functions have finished the
path has been enqueued exactly once and no record is left. If each comes more than the
delay after the one before and the queue has a free slot for each notification, then once
the timer functions have finished the path has been enqueued once for each notification
and no record is left. Nothing is received from the queue during the run. -/
theorem debounce_coalescing {ω : Type} (fs : FsWatcher ω) (filePath : Str) (t : Nat)
    (ts : List Nat) (es es2 : List WStep) (w : Watcher ω)
    (hq : w.Quiet) (hopen : w.processingCh.closed = false)
    (hes : es.all (WStep.about filePath) = true)
    (hnot : es.filterMap WStep.notifyInstant = t :: ts)
    (hmono : (es.filterMap WStep.instant).Pairwise (fun a b => a ≤ b))
    (hes2 : es2.all (WStep.ofFunction filePath) = true) :
    (List.Chain (fun a b => b < a + debounceDelay) t ts →
      w.processingCh.buf.length + 1 ≤ w.processingCh.cap →
      ∃ v, Watcher.run fs (es ++ WStep.elapse :: es2) w = some v ∧
        v.processingCh.buf.length + v.sending.length ≤ v.processingCh.cap ∧
        v.processingCh.closed = false ∧ v.timers = [] ∧
        (v.sending = [] → v.deleting = [] →
          v.processingCh.buf = w.processingCh.buf ++ [filePath] ∧ v.Quiet)) ∧
    (List.Chain (fun a b => a + debounceDelay < b) t ts →
      w.processingCh.buf.length + (t :: ts).length ≤ w.processingCh.cap →
      ∃ v, Watcher.run fs (es ++ WStep.elapse :: es2) w = some v ∧
        v.processingCh.buf.length + v.sending.length ≤ v.processingCh.cap ∧
        v.processingCh.closed = false ∧ v.timers = [] ∧
        (v.sending = [] → v.deleting = [] →
          v.processingCh.buf =
            w.processingCh.buf ++ List.replicate (t :: ts).length filePath ∧
          v.Quiet)) := by
  have hw : w.Waiting filePath w.processingCh.buf w.processingCh.cap 0 (t :: ts) :=
    ⟨rfl, rfl, hopen, hq.2.2.1, hq.2.2.2, Or.inl ⟨rfl, hq.1, hq.2.1⟩⟩
  have key : ∀ (n : Nat) (u : Watcher ω),
      w.processingCh.buf.length + n ≤ w.processingCh.cap →
      Watcher.run fs es w = some u →
      u.Counted filePath w.processingCh.buf w.processingCh.cap n →
      ∃ v, Watcher.run fs (es ++ WStep.elapse :: es2) w = some v ∧
        v.processingCh.buf.length + v.sending.length ≤ v.processingCh.cap ∧
        v.processingCh.closed = false ∧ v.timers = [] ∧
        (v.sending = [] → v.deleting = [] →
          v.processingCh.buf = w.processingCh.buf ++ List.replicate n filePath ∧
          v.Quiet) := by
    intro n u hroom hu huc
    obtain ⟨hfc, hft⟩ := counted_fireAll filePath _ _ n u huc
    obtain ⟨v, hv, hvc, hvt⟩ := run_functions fs filePath _ _ n hroom es2 u.fireAll hfc hes2
    have hvt2 : v.timers = [] := hvt.trans hft
    refine ⟨v, ?_, ?_, hvc.2.2.2.2.2.2.1, hvt2, ?_⟩
    · rw [run_append, hu, Option.some_bind, run_cons]
      exact hv
    · obtain ⟨_, _, _, _, ⟨j, hb, hj⟩, hc, _, _⟩ := hvc
      rw [hb, hc, List.length_append, List.length_replicate]
      rw [hvt2] at hj
      simp only [List.length_nil, Nat.add_zero] at hj
      omega
    · intro hs hd
      exact counted_final filePath _ _ n v hvc hvt2 hs hd
  constructor
  · intro hc hroom
    obtain ⟨u, hu, huc⟩ := run_close fs filePath _ _ hroom es w 0 (t :: ts) hw hes hnot
      hc hmono
    rw [if_neg (List.cons_ne_nil _ _)] at huc
    exact key 1 u hroom hu huc
  · intro hc hroom
    obtain ⟨u, hu, huc⟩ := run_far fs filePath _ _ es w 0 (t :: ts)
      (waiting_counted filePath _ _ 0 _ w hw).1 (by rw [hq.2.1]; intro e he; simp at he) hes
      hnot hc (by omega)
    rw [Nat.zero_add] at huc
    exact key _ u hroom hu huc

/-- C16, witness: on a started watcher with an empty queue of 100 slots. Notifications for
`a.txt` at 0, 400 and 900 ms, with steps of the clock and of timer functions in between,
end with the path enqueued once. Notifications at 0, 1500 and 3000 ms, where the delete of
each timer function comes after the next notification, end with the path enqueued three
times. In both runs every timer function has finished and nothing is left pending,
recorded or under way. -/
theorem debounce_coalescing_witness :
    (Watcher.run unitFs
        ([WStep.notify 0 "a.txt".toList, WStep.clock 200, WStep.notify 400 "a.txt".toList,
          WStep.send "a.txt".toList, WStep.notify 900 "a.txt".toList] ++
          WStep.elapse :: [WStep.send "a.txt".toList, WStep.delete "a.txt".toList])
        (Watcher.New ()).Start).map
      (fun v => (v.processingCh.buf, v.debounceMap, v.timers, v.sending, v.deleting)) =
      some (["a.txt".toList], [], [], [], []) ∧
    (Watcher.run unitFs
        ([WStep.notify 0 "a.txt".toList, WStep.clock 1000, WStep.send "a.txt".toList,
          WStep.notify 1500 "a.txt".toList, WStep.delete "a.txt".toList, WStep.clock 2500,
          WStep.notify 3000 "a.txt".toList, WStep.send "a.txt".toList,
          WStep.delete "a.txt".toList] ++
          WStep.elapse :: [WStep.send "a.txt".toList, WStep.delete "a.txt".toList])
        (Watcher.New ()).Start).map
      (fun v => (v.processingCh.buf, v.debounceMap, v.timers, v.sending, v.deleting)) =
      some (["a.txt".toList, "a.txt".toList, "a.txt".toList], [], [], [], []) ∧
    (∃ v, Watcher.run unitFs
        ([WStep.notify 0 "a.txt".toList, WStep.clock 200, WStep.notify 400 "a.txt".toList,
          WStep.send "a.txt".toList, WStep.notify 900 "a.txt".toList] ++
          WStep.elapse :: [WStep.send "a.txt".toList, WStep.delete "a.txt".toList])
        (Watcher.New ()).Start = some v ∧
      v.processingCh.buf.length + v.sending.length ≤ v.processingCh.cap ∧
      v.processingCh.closed = false ∧ v.timers = [] ∧
      (v.sending = [] → v.deleting = [] →
        v.processingCh.buf = [] ++ ["a.txt".toList] ∧ v.Quiet)) ∧
    (∃ v, Watcher.run unitFs
        ([WStep.notify 0 "a.txt".toList, WStep.clock 1000, WStep.send "a.txt".toList,
          WStep.notify 1500 "a.txt".toList, WStep.delete "a.txt".toList, WStep.clock 2500,
          WStep.notify 3000 "a.txt".toList, WStep.send "a.txt".toList,
          WStep.delete "a.txt".toList] ++
          WStep.elapse :: [WStep.send "a.txt".toList, WStep.delete "a.txt".toList])
        (Watcher.New ()).Start = some v ∧
      v.processingCh.buf.length + v.sending.length ≤ v.processingCh.cap ∧
      v.processingCh.closed = false ∧ v.timers = [] ∧
      (v.sending = [] → v.deleting = [] →
        v.processingCh.buf = [] ++ List.replicate 3 "a.txt".toList ∧ v.Quiet)) :=
  ⟨by rfl, by rfl,
   (debounce_coalescing unitFs "a.txt".toList 0 [400, 900]
      [WStep.notify 0 "a.txt".toList, WStep.clock 200, WStep.notify 400 "a.txt".toList,
        WStep.send "a.txt".toList, WStep.notify 900 "a.txt".toList]
      [WStep.send "a.txt".toList, WStep.delete "a.txt".toList]
      (Watcher.New ()).Start ⟨rfl, rfl, rfl, rfl⟩ rfl (by decide) (by decide)
      (by decide) (by decide)).1
      (List.Chain.cons (by decide) (List.Chain.cons (by decide) List.Chain.nil)) (by decide),
   (debounce_coalescing unitFs "a.txt".toList 0 [1500, 3000]
      [WStep.notify 0 "a.txt".toList, WStep.clock 1000, WStep.send "a.txt".toList,
        WStep.notify 1500 "a.txt".toList, WStep.delete "a.txt".toList, WStep.clock 2500,
        WStep.notify 3000 "a.txt".toList, WStep.send "a.txt".toList,
        WStep.delete "a.txt".toList]
      [WStep.send "a.txt".toList, WStep.delete "a.txt".toList]
      (Watcher.New ()).Start ⟨rfl, rfl, rfl, rfl⟩ rfl (by decide) (by decide)
      (by decide) (by decide)).2
      (List.Chain.cons (by decide) (List.Chain.cons (by decide) List.Chain.nil)) (by decide)⟩

/-- The two statements of a timer function are separate steps: a notification between the
send and the delete of the function of an older timer puts a new timer in the map, and the
delete of the older function then removes the record of the new timer, which stays
pending without a record. -/
theorem old_function_deletes_new_record :
    ((Watcher.run unitFs
        [WStep.notify 0 "a.txt".toList, WStep.clock 1000, WStep.send "a.txt".toList,
         WStep.notify 1500 "a.txt".toList, WStep.delete "a.txt".toList]
        (Watcher.New ()).Start).map
      (fun w => (w.debounceMap, w.timers, w.processingCh.buf))) =
      some ([], [("a.txt".toList, 2500)], ["a.txt".toList]) := by
  decide

/-- C17, the code at the failing run. On a started watcher, a notification for `a.txt`
followed by `Stop` leaves the timer of `a.txt` pending and recorded although the queue is
closed: `Stop` touches neither `debounceMap` nor the timers. When that timer expires, its
function executes the send on the closed queue, and the run ends in the run-time panic;
the same steps with the expiry, the send and the delete before `Stop` end well with the
path on the queue. -/
theorem stop_leaves_timer_pending :
    ((Watcher.run unitFs [WStep.notify 0 "a.txt".toList, WStep.stop]
        (Watcher.New ()).Start).map
      (fun w => (w.debounceMap, w.timers, w.processingCh))) =
      some ([("a.txt".toList, 1000)], [("a.txt".toList, 1000)],
        { buf := [], cap := 100, closed := true }) ∧
    Watcher.run unitFs
        [WStep.notify 0 "a.txt".toList, WStep.stop, WStep.expiry "a.txt".toList,
         WStep.send "a.txt".toList]
        (Watcher.New ()).Start = none ∧
    ((Watcher.run unitFs
        [WStep.notify 0 "a.txt".toList, WStep.expiry "a.txt".toList,
         WStep.send "a.txt".toList, WStep.delete "a.txt".toList, WStep.stop]
        (Watcher.New ()).Start).map
      (fun w => (w.debounceMap, w.timers, w.processingCh))) =
      some ([], [], { buf := ["a.txt".toList], cap := 100, closed := true }) := by
  refine ⟨?_, ?_, ?_⟩ <;> decide

end Aniki
